import Mathlib

/-!
safenet: the prefix-trie membership engine.

A shallow embedding of `src/safenet/network.go` and `src/safenet/xorname.go`.

* Go pointers are replaced by values: a `*Section` read from the map, mutated
  and left in the map becomes "look up, compute the new value, write it back
  under the key it was read from"; a `*Vault` is the vault's current value.
* A Go run-time panic (nil dereference, index out of range) and the exhaustion
  of the recursion budget are results of type `Fault`.
* `map[string]*Section` is an association list with at most one entry per key;
  Go leaves the iteration order of a map open, the list fixes one.
* The operations of `Section`, `Vault` and `Prefix` are not part of the two
  source files.  `Prefix` is modelled from the spec; the `Section` operations
  are a parameter (`SectionOps`) of everything in `network.go`, with one
  instance, `specOps`, modelled from the spec.
-/

namespace Safenet

/-! ## Data model -/

/-- Ways in which a call does not complete. -/
inductive Fault where
  | nilDereference
  | indexOutOfRange
  | outOfFuel
  deriving DecidableEq, Repr

/-- Equality of results is decidable. -/
instance instDecidableEqResult {ε α : Type} [DecidableEq ε] [DecidableEq α] :
    DecidableEq (Except ε α) := fun a b =>
  match a, b with
  | .ok x, .ok y => if h : x = y then isTrue (by rw [h]) else isFalse (by intro he; cases he; exact h rfl)
  | .error x, .error y =>
    if h : x = y then isTrue (by rw [h]) else isFalse (by intro he; cases he; exact h rfl)
  | .ok _, .error _ => isFalse (by intro he; cases he)
  | .error _, .ok _ => isFalse (by intro he; cases he)

/-- `XorName` of xorname.go: the numeric view and the bit sequence. -/
structure XorName where
  bigint : Nat
  bits : List Bool
  deriving DecidableEq, Repr

/-- The map key of a prefix. -/
abbrev Key := List Bool

/-- Modelled from the spec: `Prefix` (its source file is not available), "an
ordered sequence of 0-256 bits" with "a canonical string key derived one-to-one
from the bit sequence".  The key is taken to be the bit sequence itself, so
every map key is the key of exactly one prefix. -/
structure Prefix where
  bits : List Bool
  deriving DecidableEq, Repr

namespace Prefix

/-- Modelled from the spec: the canonical key of a prefix, one-to-one with its
bits. -/
def Key (p : Prefix) : Safenet.Key := p.bits

/-- Modelled from the spec: `extendLeft()` appends a 0 bit. -/
def extendLeft (p : Prefix) : Prefix := ⟨p.bits ++ [false]⟩

/-- Modelled from the spec: `extendRight()` appends a 1 bit. -/
def extendRight (p : Prefix) : Prefix := ⟨p.bits ++ [true]⟩

/-- Modelled from the spec: `parent()` drops the last bit and is undefined at
the root. -/
def parent (p : Prefix) : Except Fault Prefix :=
  if p.bits = [] then .error .indexOutOfRange else .ok ⟨p.bits.dropLast⟩

/-- Modelled from the spec: `sibling()` flips the last bit and is undefined at
the root. -/
def sibling (p : Prefix) : Except Fault Prefix :=
  match p.bits.getLast? with
  | none => .error .indexOutOfRange
  | some b => .ok ⟨p.bits.dropLast ++ [!b]⟩

end Prefix

/-- Modelled from the spec: `NewBlankPrefix()`, the zero-length root prefix. -/
def NewBlankPrefix : Prefix := ⟨[]⟩

/-- Modelled from the spec: `Vault`, "Identifier (name), current Prefix (owning
section), non-negative integer age". -/
structure Vault where
  Name : XorName
  Prefix : Prefix
  Age : Nat
  deriving DecidableEq, Repr

/-- Modelled from the spec: `Section`, a prefix and its member vaults (the Go
fields read by network.go are `Prefix` and `Vaults`). -/
structure Section where
  Prefix : Prefix
  Vaults : List Vault
  deriving DecidableEq, Repr

/-- Modelled from the spec: `NetworkEvent`, "an ordered list of zero or more
newly created Sections and an optional Vault flagged for relocation" (the Go
fields read by network.go are `NewSections` and `VaultToRelocate`). -/
structure NetworkEvent where
  NewSections : List Section
  VaultToRelocate : Option Vault
  deriving DecidableEq, Repr

/-- `map[string]*Section`. -/
abbrev SectionMap := List (Key × Section)

namespace SectionMap

/-- `m[k]` as a read: the section stored under `k`, if any. -/
def get : SectionMap → Key → Option Section
  | [], _ => none
  | (k', s) :: m, k => if k' = k then some s else get m k

/-- `delete(m, k)`. -/
def delete (m : SectionMap) (k : Key) : SectionMap :=
  m.filter (fun e => decide (e.1 ≠ k))

/-- `m[k] = s`. -/
def set (m : SectionMap) (k : Key) (s : Section) : SectionMap :=
  (k, s) :: delete m k

/-- The keys of the map. -/
def keys (m : SectionMap) : List Key := m.map Prod.fst

end SectionMap

/-- `math.MaxInt64`, the largest value of a Go `int` (64-bit platform). -/
def MaxInt64 : Int := 9223372036854775807

/-- `math.MinInt64`, the smallest value of a Go `int` (64-bit platform). -/
def MinInt64 : Int := -9223372036854775808

/-- The value that a Go `int` holds when the exact result of an operation is
`z`: in range it is `z`, out of range it wraps around (two's complement, 64
bits), so `MaxInt64 + 1` is `MinInt64`. -/
def wrapInt (z : Int) : Int :=
  (z + 9223372036854775808) % 18446744073709551616 - 9223372036854775808

/-- The integer is a value of a Go `int`. -/
def IsInt64 (z : Int) : Prop := MinInt64 ≤ z ∧ z ≤ MaxInt64

/-- The Go `int` counter `c` after `k` executions of `c = c + 1`. -/
def incrTimes : Nat → Int → Int
  | 0, c => c
  | k + 1, c => incrTimes k (wrapInt (c + 1))

/-- `Network` of network.go.  The five counters are Go `int`s: every
`n.TotalX = n.TotalX + 1` of the source is `wrapInt (n.TotalX + 1)` here. -/
structure Network where
  Sections : SectionMap
  TotalMerges : Int
  TotalSplits : Int
  TotalJoins : Int
  TotalDepartures : Int
  TotalRelocations : Int
  deriving DecidableEq, Repr

/-- `NewNetwork()`. -/
def NewNetwork : Network :=
  { Sections := [], TotalMerges := 0, TotalSplits := 0, TotalJoins := 0,
    TotalDepartures := 0, TotalRelocations := 0 }

namespace Network

/-- The loop of `HasMoreThanOneVault`, with the running total `vaults`. -/
def hasMoreThanOneVaultLoop : SectionMap → Nat → Bool
  | [], _ => false
  | (_, s) :: m, vaults =>
    if vaults + s.Vaults.length > 1 then true
    else hasMoreThanOneVaultLoop m (vaults + s.Vaults.length)

/-- `HasMoreThanOneVault()`. -/
def HasMoreThanOneVault (n : Network) : Bool :=
  hasMoreThanOneVaultLoop n.Sections 0

/-- The loop of `HasMoreThanOneSection`, with the running total `sections`. -/
def hasMoreThanOneSectionLoop : SectionMap → Nat → Bool
  | [], _ => false
  | _ :: m, sections =>
    if sections + 1 > 1 then true else hasMoreThanOneSectionLoop m (sections + 1)

/-- `HasMoreThanOneSection()`. -/
def HasMoreThanOneSection (n : Network) : Bool :=
  hasMoreThanOneSectionLoop n.Sections 0

/-- The `for !exists && len(prefix.bits) < len(x.bits)` loop of
`getPrefixForXorname`.  Every iteration makes the prefix one bit longer, so
`len(x.bits)` iterations are all the loop can make; `steps` counts them down. -/
def getPrefixLoop (n : Network) (x : XorName) : Nat → Prefix → Bool → Prefix × Bool
  | 0, pfx, ex => (pfx, ex)
  | steps + 1, pfx, ex =>
    if h : ex = false ∧ pfx.bits.length < x.bits.length then
      let bit := x.bits[pfx.bits.length]
      let pfx1 := if bit = false then pfx.extendLeft else pfx.extendRight
      getPrefixLoop n x steps pfx1 (n.Sections.get pfx1.Key).isSome
    else (pfx, ex)

/-- `getPrefixForXorname(x)`. -/
def getPrefixForXorname (n : Network) (x : XorName) : Prefix :=
  let r := getPrefixLoop n x x.bits.length NewBlankPrefix
    (n.Sections.get NewBlankPrefix.Key).isSome
  if r.2 = false ∧ n.HasMoreThanOneVault = true then NewBlankPrefix else r.1


/-- The largest key length in the map (0 for the empty map). -/
def maxKeyLength : SectionMap → Nat
  | [] => 0
  | (k, _) :: m => max k.length (maxKeyLength m)

/-- `getChildPrefixes(prefix)` with a recursion budget: `fuel` bounds the depth
of the recursion, and running out of it is the result `outOfFuel`. -/
def getChildPrefixesFuel (n : Network) : Nat → Prefix → Except Fault (List Prefix)
  | 0, _ => .error .outOfFuel
  | fuel + 1, pfx =>
    let leftPrefix := pfx.extendLeft
    let rightPrefix := pfx.extendRight
    let leftExists := (n.Sections.get leftPrefix.Key).isSome
    let rightExists := (n.Sections.get rightPrefix.Key).isSome
    if leftExists && rightExists then .ok [leftPrefix, rightPrefix]
    else if leftExists then
      match getChildPrefixesFuel n fuel rightPrefix with
      | .ok rs => .ok (leftPrefix :: rs)
      | .error e => .error e
    else if rightExists then
      match getChildPrefixesFuel n fuel leftPrefix with
      | .ok ls => .ok (rightPrefix :: ls)
      | .error e => .error e
    else if pfx.bits.length < 256 then
      match getChildPrefixesFuel n fuel leftPrefix with
      | .ok ls =>
        match getChildPrefixesFuel n fuel rightPrefix with
        | .ok rs => .ok (ls ++ rs)
        | .error e => .error e
      | .error e => .error e
    else .ok []

/-- The depth the recursion of `getChildPrefixes` can reach from `pfx`: it
descends from a prefix only while that prefix is shorter than 256 bits or has a
child that is a key. -/
def childSearchDepth (n : Network) (pfx : Prefix) : Nat :=
  max 256 (maxKeyLength n.Sections) - pfx.bits.length + 1

/-- `getChildPrefixes(prefix)`. -/
def getChildPrefixes (n : Network) (pfx : Prefix) : Except Fault (List Prefix) :=
  getChildPrefixesFuel n (childSearchDepth n pfx) pfx

/-- The `for i := 0; i < len(prefix.bits); i++` loop of `getMatchingPrefixes`,
over the bits still to read, with the current `testPrefix` and `prefixes`. -/
def matchingLoop (n : Network) : List Bool → Prefix → List Prefix → List Prefix
  | [], _, prefixes => prefixes
  | b :: bs, testPrefix, prefixes =>
    let testPrefix1 := if b = false then testPrefix.extendLeft else testPrefix.extendRight
    if (n.Sections.get testPrefix1.Key).isSome then
      matchingLoop n bs testPrefix1 (prefixes ++ [testPrefix1])
    else matchingLoop n bs testPrefix1 prefixes

/-- `getMatchingPrefixes(prefix)`. -/
def getMatchingPrefixes (n : Network) (pfx : Prefix) : Except Fault (List Prefix) :=
  let testPrefix := NewBlankPrefix
  let prefixes0 : List Prefix :=
    if (n.Sections.get testPrefix.Key).isSome then [testPrefix] else []
  let prefixes := matchingLoop n pfx.bits testPrefix prefixes0
  if prefixes.length = 0 then getChildPrefixes n pfx else .ok prefixes

/-- The inner `for j` loop of `relocateVault`: the bits of the vault's prefix
still to copy, the index `j` of the next one, and the neighbour built so far;
bit `i` is flipped. -/
def neighbourLoop (i : Nat) : List Bool → Nat → Prefix → Prefix
  | [], _, neighbourPrefix => neighbourPrefix
  | b :: bs, j, neighbourPrefix =>
    let isZero := !b
    let isZero1 := if j = i then !isZero else isZero
    neighbourLoop i bs (j + 1)
      (if isZero1 then neighbourPrefix.extendLeft else neighbourPrefix.extendRight)

/-- The neighbour prefix built in iteration `i` of the outer loop of
`relocateVault`. -/
def neighbourPrefix (p : Prefix) (i : Nat) : Prefix :=
  neighbourLoop i p.bits 0 NewBlankPrefix

/-- `math.MaxUint32`. -/
def MaxUint32 : Nat := 4294967295

/-- The three local variables of `relocateVault` that hold the choice made so
far. -/
structure Choice where
  smallestNeighbour : Option Section
  minNeighbourPrefix : Nat
  minNeighbourVaults : Nat
  deriving DecidableEq, Repr

/-- One iteration of `for _, p := range neighbourPrefixes` in `relocateVault`.
`len(s.Vaults)` is read only in the second branch, where a missing section is a
nil dereference. -/
def considerPrefix (n : Network) (c : Choice) (p : Prefix) : Except Fault Choice :=
  let s := n.Sections.get p.Key
  if p.bits.length < c.minNeighbourPrefix then
    .ok { c with minNeighbourPrefix := p.bits.length, smallestNeighbour := s }
  else if p.bits.length = c.minNeighbourPrefix then
    match s with
    | none => .error .nilDereference
    | some sec =>
      if sec.Vaults.length < c.minNeighbourVaults then
        .ok { c with minNeighbourVaults := sec.Vaults.length, smallestNeighbour := some sec }
      else .ok c
  else .ok c

/-- The loop over `neighbourPrefixes`, from the choice `c`. -/
def considerPrefixes (n : Network) : List Prefix → Choice → Except Fault Choice
  | [], c => .ok c
  | p :: ps, c =>
    match considerPrefix n c p with
    | .ok c1 => considerPrefixes n ps c1
    | .error e => .error e

/-- The outer `for i` loop of `relocateVault` over the indices still to visit. -/
def neighbourSearch (n : Network) (r : Vault) : List Nat → Choice → Except Fault Choice
  | [], c => .ok c
  | i :: is, c =>
    match getMatchingPrefixes n (neighbourPrefix r.Prefix i) with
    | .error e => .error e
    | .ok neighbourPrefixes =>
      match considerPrefixes n neighbourPrefixes c with
      | .ok c1 => neighbourSearch n r is c1
      | .error e => .error e

/-- Lines 127-168 of `relocateVault`: the destination search for the vault `r`
flagged for relocation.  `smallestNeighbour` of the result is the destination. -/
def chooseNeighbour (n : Network) (r : Vault) : Except Fault Choice :=
  neighbourSearch n r (List.range r.Prefix.bits.length)
    { smallestNeighbour := n.Sections.get r.Prefix.Key,
      minNeighbourPrefix := MaxUint32, minNeighbourVaults := MaxUint32 }

/-- All candidate prefixes of the destination search, in the order in which
the loops of `relocateVault` meet them. -/
def candidatePrefixes (n : Network) (r : Vault) : List Nat → Except Fault (List Prefix)
  | [] => .ok []
  | i :: is =>
    match getMatchingPrefixes n (neighbourPrefix r.Prefix i) with
    | .error e => .error e
    | .ok ps =>
      match candidatePrefixes n r is with
      | .ok qs => .ok (ps ++ qs)
      | .error e => .error e

end Network

/-- The operations of `Section` and `Vault` that network.go calls.  Their
source files are not available, so network.go is embedded over an arbitrary
implementation of them.  A mutating method returns the new value of its
receiver; a nil `*NetworkEvent` is `none`. -/
structure SectionOps where
  newSection : Prefix → List Vault → Except Fault (Option NetworkEvent)
  addVault : Section → Vault → Except Fault (Section × Option NetworkEvent × Bool)
  removeVault : Section → Vault → Except Fault (Section × Option NetworkEvent)
  shouldMerge : Section → Bool
  renameWithPrefix : Vault → Prefix → Except Fault Vault
  IncrementAge : Vault → Vault

namespace Network

/-- `for _, s := range ne.NewSections { n.Sections[s.Prefix.Key] = s }`. -/
def storeSections : SectionMap → List Section → SectionMap
  | m, [] => m
  | m, s :: ss => storeSections (m.set s.Prefix.Key s) ss

/-- The `for _, childPrefix := range childPrefixes` loop of `RemoveVault`: the
map and `parentVaults` after merging the sections under the given prefixes. -/
def mergeChildren : List Prefix → SectionMap → List Vault →
    Except Fault (SectionMap × List Vault)
  | [], m, parentVaults => .ok (m, parentVaults)
  | childPrefix :: rest, m, parentVaults =>
    match m.get childPrefix.Key with
    | none => .error .nilDereference
    | some child =>
      mergeChildren rest (m.delete childPrefix.Key) (parentVaults ++ child.Vaults)

/-- Lines 40-53 of `AddVault`: the join counter, routing, and the lazily
created root section.  The result is the network, and the section the vault
goes to together with the key it is stored under (`none` for a nil section). -/
def locateSection (ops : SectionOps) (n : Network) (v : Vault) :
    Except Fault (Network × Option (Key × Section)) :=
  let n1 := { n with TotalJoins := wrapInt (n.TotalJoins + 1) }
  let pfx := n1.getPrefixForXorname v.Name
  match n1.Sections.get pfx.Key with
  | some sec => .ok (n1, some (pfx.Key, sec))
  | none =>
    match ops.newSection NewBlankPrefix [] with
    | .error e => .error e
    | .ok none => .ok (n1, none)
    | .ok (some ne) =>
      .ok ({ n1 with Sections := storeSections n1.Sections ne.NewSections },
           ne.NewSections.getLast?.map (fun s => (s.Prefix.Key, s)))

/-- Lines 56-65 of `AddVault`: the split handling, for the event `ne` of
`section.addVault` and the section `sec` as `addVault` left it. -/
def applySplit (n : Network) (sec : Section) (ne : Option NetworkEvent) : Network :=
  match ne with
  | none => n
  | some e =>
    if e.NewSections.length > 0 then
      { n with
        TotalSplits := wrapInt (n.TotalSplits + 1)
        Sections := (storeSections n.Sections e.NewSections).delete sec.Prefix.Key }
    else n

/-- `if ne != nil && ne.VaultToRelocate != nil { n.relocateVault(ne) }`. -/
def relocateIfFlagged (relocate : Network → NetworkEvent → Except Fault Network)
    (n : Network) (ne : Option NetworkEvent) : Except Fault Network :=
  match ne with
  | none => .ok n
  | some e => if e.VaultToRelocate.isSome then relocate n e else .ok n

/-- `AddVault(v)`, with `relocateVault` as a parameter. -/
def AddVaultWith (ops : SectionOps)
    (relocate : Network → NetworkEvent → Except Fault Network)
    (n : Network) (v : Vault) : Except Fault (Network × Bool) :=
  match locateSection ops n v with
  | .error e => .error e
  | .ok (_, none) => .error .nilDereference
  | .ok (n1, some (k, sec)) =>
    match ops.addVault sec v with
    | .error e => .error e
    | .ok (sec1, ne, disallowed) =>
      let n2 := { n1 with Sections := n1.Sections.set k sec1 }
      let n3 := applySplit n2 sec1 ne
      match relocateIfFlagged relocate n3 ne with
      | .error e => .error e
      | .ok n4 => .ok (n4, disallowed)

/-- Lines 84-114 of `RemoveVault`: the merge of the section `sec` (as
`removeVault` left it) that the vault `v` was removed from. -/
def mergeSection (ops : SectionOps) (n : Network) (sec : Section) (v : Vault) :
    Except Fault Network :=
  let n1 := { n with TotalMerges := wrapInt (n.TotalMerges + 1) }
  match sec.Prefix.parent with
  | .error e => .error e
  | .ok parentPrefix =>
    match v.Prefix.sibling with
    | .error e => .error e
    | .ok siblingPrefix =>
      let gathered : Except Fault (SectionMap × List Vault) :=
        match n1.Sections.get siblingPrefix.Key with
        | some sib => .ok (n1.Sections.delete siblingPrefix.Key, sec.Vaults ++ sib.Vaults)
        | none =>
          match n1.getChildPrefixes siblingPrefix with
          | .error e => .error e
          | .ok childPrefixes => mergeChildren childPrefixes n1.Sections sec.Vaults
      match gathered with
      | .error e => .error e
      | .ok (m, parentVaults) =>
        let m1 := m.delete sec.Prefix.Key
        match ops.newSection parentPrefix parentVaults with
        | .error e => .error e
        | .ok none => .ok { n1 with Sections := m1 }
        | .ok (some ne) => .ok { n1 with Sections := storeSections m1 ne.NewSections }

/-- `RemoveVault(v)`, with `relocateVault` as a parameter. -/
def RemoveVaultWith (ops : SectionOps)
    (relocate : Network → NetworkEvent → Except Fault Network)
    (n : Network) (v : Vault) : Except Fault Network :=
  let n1 := { n with TotalDepartures := wrapInt (n.TotalDepartures + 1) }
  match n1.Sections.get v.Prefix.Key with
  | none => .ok n1
  | some sec =>
    match ops.removeVault sec v with
    | .error e => .error e
    | .ok (sec1, ne) =>
      let n2 := { n1 with Sections := n1.Sections.set v.Prefix.Key sec1 }
      if ops.shouldMerge sec1 && n2.HasMoreThanOneSection then mergeSection ops n2 sec1 v
      else relocateIfFlagged relocate n2 ne

/-- `relocateVault(ne)`, with `RemoveVault` and `AddVault` as parameters. -/
def relocateVaultWith (ops : SectionOps)
    (remove : Network → Vault → Except Fault Network)
    (add : Network → Vault → Except Fault (Network × Bool))
    (n : Network) (ne : NetworkEvent) : Except Fault Network :=
  match ne.VaultToRelocate with
  | none => .error .nilDereference
  | some r =>
    let n1 := { n with TotalRelocations := wrapInt (n.TotalRelocations + 1) }
    match chooseNeighbour n1 r with
    | .error e => .error e
    | .ok c =>
      match remove n1 r with
      | .error e => .error e
      | .ok n2 =>
        match c.smallestNeighbour with
        | none => .error .nilDereference
        | some dest =>
          match ops.renameWithPrefix r dest.Prefix with
          | .error e => .error e
          | .ok r1 =>
            match add n2 (ops.IncrementAge r1) with
            | .error e => .error e
            | .ok (n3, _) => .ok n3

/-- `relocateVault(ne)`.  `relocateVault`, `RemoveVault` and `AddVault` call
each other; `fuel` bounds the nesting depth of `relocateVault` calls. -/
def relocateVault (ops : SectionOps) : Nat → Network → NetworkEvent → Except Fault Network
  | 0 => fun _ _ => .error .outOfFuel
  | fuel + 1 => fun n ne =>
    relocateVaultWith ops (RemoveVaultWith ops (relocateVault ops fuel))
      (AddVaultWith ops (relocateVault ops fuel)) n ne

/-- `AddVault(v)`, relocations nested at most `fuel` deep. -/
def AddVault (ops : SectionOps) (fuel : Nat) (n : Network) (v : Vault) :
    Except Fault (Network × Bool) :=
  AddVaultWith ops (relocateVault ops fuel) n v

/-- `RemoveVault(v)`, relocations nested at most `fuel` deep. -/
def RemoveVault (ops : SectionOps) (fuel : Nat) (n : Network) (v : Vault) :
    Except Fault Network :=
  RemoveVaultWith ops (relocateVault ops fuel) n v

end Network

/-! ## The Section and Vault operations, from the spec -/

/-- `GroupSize` of network.go. -/
def GroupSize : Nat := 8
/-- `SplitBuffer` of network.go. -/
def SplitBuffer : Nat := 3
/-- `QuorumNumerator` of network.go. -/
def QuorumNumerator : Nat := 1
/-- `QuorumDenominator` of network.go. -/
def QuorumDenominator : Nat := 2
/-- `SplitSize` of network.go. -/
def SplitSize : Nat := GroupSize + SplitBuffer

/-- Modelled from the spec: `MergeThreshold = floor(GroupSize * QuorumNumerator
/ QuorumDenominator)`; the constant is used by `Section.shouldMerge`, whose
source file is not available. -/
def MergeThreshold : Nat := GroupSize * QuorumNumerator / QuorumDenominator

/-- `big.Int.SetBit(z, i, b)` for a non-negative `z`: bit `i` (of weight
`2 ^ i`) becomes `b`. -/
def bigSetBit (z i : Nat) (b : Bool) : Nat :=
  if z.testBit i = b then z else if b then z + 2 ^ i else z - 2 ^ i

/-- `XorName.SetBit(i, b)`; an index outside `x.bits` is a Go panic. -/
def XorName.SetBit (x : XorName) (i : Nat) (b : Bool) : Except Fault XorName :=
  if i < x.bits.length then
    .ok { bits := x.bits.set i b, bigint := bigSetBit x.bigint i b }
  else .error .indexOutOfRange

/-- Modelled from the spec: the vault records `p` as its current prefix (the
source of `Vault` is not available). -/
def Vault.SetPrefix (v : Vault) (p : Safenet.Prefix) : Vault := { v with Prefix := p }

/-- Modelled from the spec: `incrementAge()`, "age += 1; no upper bound". -/
def Vault.IncrementAge (v : Vault) : Vault := { v with Age := v.Age + 1 }

/-- The loop of `renameWithPrefix`: `SetBit(i, b)` for the prefix bits still to
write, `i` being the index of the next one. -/
def renameLoop : List Bool → Nat → XorName → Except Fault XorName
  | [], _, x => .ok x
  | b :: bs, i, x =>
    match x.SetBit i b with
    | .ok x1 => renameLoop bs (i + 1) x1
    | .error e => .error e

/-- Modelled from the spec: `renameWithPrefix(newPrefix)` "rewrites the
Identifier so that its leading bits equal `newPrefix`'s bits exactly, leaving
the remaining (tail) bits unchanged", through `SetBit` of xorname.go. -/
def Vault.renameWithPrefix (v : Vault) (p : Safenet.Prefix) : Except Fault Vault :=
  match renameLoop p.bits 0 v.Name with
  | .ok x => .ok { v with Name := x }
  | .error e => .error e

/-- Modelled from the spec: the two policy hooks the spec leaves open, the
admission policy ("a pluggable predicate over current Section state + candidate
Vault") and the relocation trigger after a join and after a departure (a
function of the section as the operation left it and the vault of the
operation). -/
structure Policy where
  disallow : Section → Vault → Bool
  relocateOnJoin : Section → Vault → Option Vault
  relocateOnDeparture : Section → Vault → Option Vault

/-- Modelled from the spec: the default admission policy "always admit",
together with a relocation trigger that never fires. -/
def Policy.admitAll : Policy :=
  { disallow := fun _ _ => false
    relocateOnJoin := fun _ _ => none
    relocateOnDeparture := fun _ _ => none }

/-- Modelled from the spec: "a flagged Vault must currently be a member of this
Section". -/
def Policy.Sound (pol : Policy) : Prop :=
  (∀ s v r, pol.relocateOnJoin s v = some r → r ∈ s.Vaults) ∧
  (∀ s v r, pol.relocateOnDeparture s v = some r → r ∈ s.Vaults)

namespace Section

/-- Modelled from the spec: the split partitions the members "by the next bit
of each member's Identifier beyond the current Prefix length: bit 0 → left
child Prefix, bit 1 → right child Prefix"; each member records its new prefix.
An identifier with no bit at that position leaves the split undefined
(`indexOutOfRange`). -/
def splitMembers (depth : Nat) (left right : Safenet.Prefix) :
    List Vault → Except Fault (List Vault × List Vault)
  | [] => .ok ([], [])
  | v :: vs =>
    match v.Name.bits[depth]? with
    | none => .error .indexOutOfRange
    | some b =>
      match splitMembers depth left right vs with
      | .error e => .error e
      | .ok (ls, rs) =>
        if b = false then .ok (v.SetPrefix left :: ls, rs)
        else .ok (ls, v.SetPrefix right :: rs)

/-- Modelled from the spec: a split produces "two new Sections, one per child
Prefix, each holding its partition (either may be empty)"; "the event carries
both new Sections; no relocation is flagged on a split". -/
def split (s : Section) : Except Fault NetworkEvent :=
  match splitMembers s.Prefix.bits.length s.Prefix.extendLeft s.Prefix.extendRight
      s.Vaults with
  | .error e => .error e
  | .ok (ls, rs) =>
    .ok { NewSections := [⟨s.Prefix.extendLeft, ls⟩, ⟨s.Prefix.extendRight, rs⟩]
          VaultToRelocate := none }

/-- Modelled from the spec: `newSection(prefix, vaults)` creates the Section
holding `vaults` at `prefix`; "this creation may itself immediately re-split if
the union exceeds `SplitThreshold`", otherwise the event carries the one new
Section. -/
def newSection (p : Safenet.Prefix) (vaults : List Vault) :
    Except Fault (Option NetworkEvent) :=
  let s : Section := ⟨p, vaults.map (fun v => v.SetPrefix p)⟩
  if s.Vaults.length > SplitSize then
    match split s with
    | .ok e => .ok (some e)
    | .error e => .error e
  else .ok (some { NewSections := [s], VaultToRelocate := none })

/-- Modelled from the spec: `addVault(v)`: "insert v into membership if not
disallowed"; "if resulting size ≥ `SplitThreshold`: split", else "the event may
flag a Vault for relocation"; returns `(event, disallowed)`. -/
def addVault (pol : Policy) (s : Section) (v : Vault) :
    Except Fault (Section × Option NetworkEvent × Bool) :=
  if pol.disallow s v then .ok (s, none, true)
  else
    let v1 := v.SetPrefix s.Prefix
    let s1 : Section := { s with Vaults := s.Vaults ++ [v1] }
    if s1.Vaults.length ≥ SplitSize then
      match split s1 with
      | .ok e => .ok (s1, some e, false)
      | .error e => .error e
    else
      .ok (s1, some { NewSections := [], VaultToRelocate := pol.relocateOnJoin s1 v1 },
           false)

/-- Modelled from the spec: `removeVault(v)`: "remove v from membership (no-op
if absent)"; the event "may flag a Vault for relocation but never creates new
Sections". -/
def removeVault (pol : Policy) (s : Section) (v : Vault) :
    Except Fault (Section × Option NetworkEvent) :=
  let s1 : Section := { s with Vaults := s.Vaults.erase v }
  .ok (s1, some { NewSections := [], VaultToRelocate := pol.relocateOnDeparture s1 v })

/-- Modelled from the spec: `shouldMerge()`: "true iff current size <
`MergeThreshold`". -/
def shouldMerge (s : Section) : Bool := decide (s.Vaults.length < MergeThreshold)

end Section

/-- Modelled from the spec: the `Section` and `Vault` operations of sections
4.3 and 4.4, under the policy `pol`. -/
def specOps (pol : Policy) : SectionOps :=
  { newSection := Section.newSection
    addVault := Section.addVault pol
    removeVault := Section.removeVault pol
    shouldMerge := Section.shouldMerge
    renameWithPrefix := Vault.renameWithPrefix
    IncrementAge := Vault.IncrementAge }

/-! ## Sequences of public operations -/

/-- A call of one of the two public mutating operations. -/
inductive Op where
  | add (v : Vault)
  | remove (v : Vault)
  deriving DecidableEq, Repr

namespace Network

/-- The vault `v` is a member of some section of the network. -/
def holds (n : Network) (v : Vault) : Bool :=
  n.Sections.any (fun e => decide (v ∈ e.2.Vaults))

/-- One public call. -/
def step (ops : SectionOps) (fuel : Nat) (n : Network) : Op → Except Fault Network
  | .add v =>
    match AddVault ops fuel n v with
    | .ok (n1, _) => .ok n1
    | .error e => .error e
  | .remove v => RemoveVault ops fuel n v

/-- A sequence of public calls, each starting when the one before it has
completed. -/
def run (ops : SectionOps) (fuel : Nat) : Network → List Op → Except Fault Network
  | n, [] => .ok n
  | n, op :: rest =>
    match step ops fuel n op with
    | .ok n1 => run ops fuel n1 rest
    | .error e => .error e

/-- The calls of a sequence are admissible: a joining vault has a 256-bit
identifier, and a departing vault is at that moment a member of the network. -/
def admissible (ops : SectionOps) (fuel : Nat) : Network → List Op → Bool
  | _, [] => true
  | n, op :: rest =>
    (match op with
     | .add v => decide (v.Name.bits.length = 256)
     | .remove v => n.holds v) &&
    (match step ops fuel n op with
     | .ok n1 => admissible ops fuel n1 rest
     | .error _ => true)

end Network

/-- The prefixes that satisfy `K` partition the 256-bit identifier space: each
has at most 256 bits, and every 256-bit identifier has exactly one of them
among its leading-bit prefixes. -/
def PartitionKeys (K : Key → Prop) : Prop :=
  (∀ k, K k → k.length ≤ 256) ∧
  ∀ x : List Bool, x.length = 256 → ∃! k, K k ∧ k <+: x

/-- The keys of the map, read as prefixes, partition the 256-bit identifier
space. -/
def Partitions (m : SectionMap) : Prop := PartitionKeys (fun k => k ∈ m.keys)

/-- No key of the map is a leading prefix of a different key. -/
def PrefixFree (m : SectionMap) : Prop :=
  ∀ k1 ∈ m.keys, ∀ k2 ∈ m.keys, k1 <+: k2 → k1 = k2

/-- The invariant of a populated section map: one entry per key, the keys
partition the identifier space, every section is stored under its own prefix
key, and every member has a 256-bit identifier. -/
def MapInv (m : SectionMap) : Prop :=
  m.keys.Nodup ∧ Partitions m ∧
  ∀ k s, m.get k = some s →
    s.Prefix.Key = k ∧ ∀ u ∈ s.Vaults, u.Name.bits.length = 256

/-- The invariant of a populated network. -/
def Network.Inv (n : Network) : Prop := MapInv n.Sections

/-- A relocation procedure keeps the invariant of a populated network, when
the vault flagged has a 256-bit identifier. -/
def Network.KeepsInv (relocate : Network → NetworkEvent → Except Fault Network) : Prop :=
  ∀ n e n', n.Inv → (∀ r, e.VaultToRelocate = some r → r.Name.bits.length = 256) →
    relocate n e = .ok n' → n'.Inv

/-- The members of the section stored under `k`; none when `k` is not a key. -/
def vaultsAt (m : SectionMap) (k : Key) : List Vault :=
  match m.get k with
  | some s => s.Vaults
  | none => []

/-- The members of every section whose key equals or extends `q`. -/
def membersUnder (m : SectionMap) (q : Key) : List Vault :=
  (m.filter (fun e => decide (q <+: e.1))).flatMap (fun e => e.2.Vaults)

/-- The state of the destination search after the candidates `seen`: before
any candidate the destination is the default `dflt` and the minimum is still
`math.MaxUint32`; afterwards the destination is the section of a candidate
whose prefix length is the recorded minimum, and no candidate seen is shorter. -/
def Network.Chosen (n : Network) (dflt : Option Section) (seen : List Prefix)
    (c : Network.Choice) : Prop :=
  (seen = [] ∧ c.minNeighbourPrefix = Network.MaxUint32 ∧ c.smallestNeighbour = dflt) ∨
  (∃ p ∈ seen, c.smallestNeighbour = n.Sections.get p.Key ∧
    p.bits.length = c.minNeighbourPrefix ∧
    ∀ q ∈ seen, c.minNeighbourPrefix ≤ q.bits.length)

/-- The destination of a completed search as (prefix bits, number of members). -/
def Network.destinationOf (r : Except Fault Network.Choice) : Option (List Bool × Nat) :=
  match r with
  | .ok c => c.smallestNeighbour.map (fun s => (s.Prefix.bits, s.Vaults.length))
  | .error _ => none

/-- The bits of the candidate prefixes of a completed resolution. -/
def Network.candidateBits (r : Except Fault (List Prefix)) : List (List Bool) :=
  match r with
  | .ok ps => ps.map (fun p => p.bits)
  | .error _ => []

/-! ## Concrete networks used to instantiate the theorems -/

namespace Fixture

/-- The value of a bit sequence in the numeric view of xorname.go: bit `i` has
weight `2 ^ i`. -/
def bitsValue : List Bool → Nat
  | [] => 0
  | b :: bs => (if b then 1 else 0) + 2 * bitsValue bs

/-- The 256-bit identifier that starts with the bits `lead` and continues with
zeros. -/
def nameOf (lead : List Bool) : XorName :=
  ⟨bitsValue (lead ++ List.replicate (256 - lead.length) false),
   lead ++ List.replicate (256 - lead.length) false⟩

/-- A vault with the identifier `nameOf lead`, recorded prefix `p` and age
`age`. -/
def vaultOf (lead : List Bool) (p : List Bool) (age : Nat) : Vault :=
  ⟨nameOf lead, ⟨p⟩, age⟩

/-- A section at prefix `p` with `size` members, whose identifiers start with
`p` and whose ages are `0 .. size - 1`. -/
def sectionOf (p : List Bool) (size : Nat) : Section :=
  ⟨⟨p⟩, (List.range size).map (fun i => vaultOf p p i)⟩

/-- A network with one section of the given size under each of the given
keys, and all counters zero. -/
def networkOf (layout : List (List Bool × Nat)) : Network :=
  { NewNetwork with Sections := layout.map (fun e => (e.1, sectionOf e.1 e.2)) }

/-- The key and size of every section of a completed call; empty for a call
that did not complete. -/
def layoutOf (r : Except Fault Network) : List (List Bool × Nat) :=
  match r with
  | .ok n => n.Sections.map (fun e => (e.1, e.2.Vaults.length))
  | .error _ => []

/-- The five counters of a completed call, in the order joins, departures,
splits, merges, relocations; empty for a call that did not complete. -/
def countersOf (r : Except Fault Network) : List Int :=
  match r with
  | .ok n => [n.TotalJoins, n.TotalDepartures, n.TotalSplits, n.TotalMerges,
      n.TotalRelocations]
  | .error _ => []

/-- A network whose only section, the root, holds five vaults whose
identifiers start with 0 and five whose identifiers start with 1. -/
def mixedRoot : Network :=
  { NewNetwork with
    Sections := [([], ⟨⟨[]⟩, (List.range 5).map (fun i => vaultOf [false] [] i)
      ++ (List.range 5).map (fun i => vaultOf [true] [] (5 + i))⟩)] }

/-- A policy that admits every vault and flags a joining vault for relocation
when its age is 0. -/
def relocateYoung : Policy :=
  { disallow := fun _ _ => false
    relocateOnJoin := fun _ v => if v.Age = 0 then some v else none
    relocateOnDeparture := fun _ _ => none }

/-- Eleven joins, of vaults whose identifiers start with 1 and 0 in turn,
followed by the departure of the first of them. -/
def elevenJoinsAndDeparture : List Op :=
  (List.range 11).map (fun i => Op.add (vaultOf [decide (i % 2 = 0)] [] i))
    ++ [Op.remove (vaultOf [true] [true] 0)]

end Fixture

/-! ## Identifiers, their order, and the reports -/

/-- `xornameBits` of xorname.go. -/
def xornameBits : Nat := 256

/-- One iteration of the loop of `NewXorName`, for the result `bit` of
`prng.Intn(2)`: the bit sequence and the numeric view are written at the same
index `i`; a result other than 0 and 1 writes nothing. -/
def newXorNameStep (bit : Nat) (i : Nat) (x : XorName) : XorName :=
  if bit = 0 then { bits := x.bits.set i false, bigint := bigSetBit x.bigint i false }
  else if bit = 1 then { bits := x.bits.set i true, bigint := bigSetBit x.bigint i true }
  else x

/-- The loop of `NewXorName` over the indices still to visit; `draw i` is the
result of `prng.Intn(2)` in iteration `i`. -/
def newXorNameLoop (draw : Nat → Nat) : List Nat → XorName → XorName
  | [], x => x
  | i :: rest, x => newXorNameLoop draw rest (newXorNameStep (draw i) i x)

/-- `NewXorName()`, with the pseudo-random source as the parameter `draw`. -/
def NewXorName (draw : Nat → Nat) : XorName :=
  newXorNameLoop draw (List.range xornameBits) ⟨0, List.replicate xornameBits false⟩

/-- `x.IsLessThan(y)`: `x.bigint.Cmp(y.bigint) == -1`. -/
def XorName.IsLessThan (x y : XorName) : Bool := decide (x.bigint < y.bigint)

/-- The identifiers that `NewXorName` and `SetBit` produce. -/
inductive XorName.Produced : XorName → Prop where
  | fresh (draw : Nat → Nat) : XorName.Produced (NewXorName draw)
  | setBit (x x1 : XorName) (i : Nat) (b : Bool) :
      XorName.Produced x → x.SetBit i b = .ok x1 → XorName.Produced x1

/-- The value of a bit sequence read as an unsigned little-endian integer: the
first bit is the least significant, bit `i` has weight `2 ^ i`. -/
def littleEndian : List Bool → Nat
  | [] => 0
  | b :: bs => (if b then 1 else 0) + 2 * littleEndian bs

/-- The value of a bit sequence read as an unsigned big-endian integer: the
first bit is the most significant. -/
def bigEndian (bits : List Bool) : Nat :=
  bits.foldl (fun acc b => 2 * acc + (if b then 1 else 0)) 0

/-- The bit sequence and the numeric view of an identifier are consistent: 256
bits, a value below `2 ^ 256`, and binary digit `i` of the value equal to bit
`i` of the sequence. -/
def XorName.Consistent (x : XorName) : Prop :=
  x.bits.length = 256 ∧ x.bigint < 2 ^ 256 ∧
  ∀ i, i < 256 → x.bigint.testBit i = x.bits.getD i false

/-- `map[int]int`, the age histogram of `ReportAges`. -/
abbrev AgeMap := List (Nat × Nat)

namespace AgeMap

/-- The two-value read `_, exists := ages[a]`, as an optional count. -/
def get : AgeMap → Nat → Option Nat
  | [], _ => none
  | (a1, c) :: m, a => if a1 = a then some c else get m a

/-- The read `ages[a]`: the count stored, 0 for a missing key. -/
def count (m : AgeMap) (a : Nat) : Nat := (m.get a).getD 0

/-- The write `ages[a] = c`. -/
def set (m : AgeMap) (a c : Nat) : AgeMap :=
  (a, c) :: m.filter (fun e => decide (e.1 ≠ a))

/-- The keys of the histogram. -/
def keys (m : AgeMap) : List Nat := m.map Prod.fst

end AgeMap

namespace Network

/-- The body of the inner loop of `ReportAges` for one vault, on the state
`(ages, ageKeys)`.  The local `count` of the Go code is not part of the result
and is left out. -/
def reportVault (st : AgeMap × List Nat) (v : Vault) : AgeMap × List Nat :=
  let st1 : AgeMap × List Nat :=
    if (st.1.get v.Age).isSome then st else (st.1.set v.Age 0, st.2 ++ [v.Age])
  (st1.1.set v.Age (st1.1.count v.Age + 1), st1.2)

/-- The inner loop of `ReportAges` over the vaults of one section. -/
def reportVaults : List Vault → AgeMap × List Nat → AgeMap × List Nat
  | [], st => st
  | v :: vs, st => reportVaults vs (reportVault st v)

/-- The outer loop of `ReportAges` over the entries of the map, in the order of
the list; `n.Sections[p]` for a key `p` of the iteration is the section of the
entry. -/
def reportSections : SectionMap → AgeMap × List Nat → AgeMap × List Nat
  | [], st => st
  | (_, s) :: m, st => reportSections m (reportVaults s.Vaults st)

/-- `ReportAges()`; `sort.Sort(sort.IntSlice(ageKeys))` sorts ascending.  The
function reads the network and returns the two results only. -/
def ReportAges (n : Network) : AgeMap × List Nat :=
  let st := reportSections n.Sections ([], [])
  (st.1, st.2.insertionSort (fun a b => a ≤ b))

/-- The loop of `TotalVaults`, with the running total `vaults`. -/
def totalVaultsLoop : SectionMap → Nat → Nat
  | [], vaults => vaults
  | (_, s) :: m, vaults => totalVaultsLoop m (vaults + s.Vaults.length)

/-- `TotalVaults()`. -/
def TotalVaults (n : Network) : Nat := totalVaultsLoop n.Sections 0

/-- The ages of all vaults of all sections, in the order of the iteration. -/
def allAges (m : SectionMap) : List Nat :=
  m.flatMap (fun e => e.2.Vaults.map (fun v => v.Age))

/-- The leading prefixes of `p` that are keys of the map, shortest first. -/
def matchingAncestors (n : Network) (p : Prefix) : List Prefix :=
  ((List.range (p.bits.length + 1)).map (fun j => (⟨p.bits.take j⟩ : Prefix))).filter
    (fun q => (n.Sections.get q.Key).isSome)

end Network

namespace Network

/-- The prefixes on which `getChildPrefixes` is invoked in the search from
`pfx`, the first call included: the same case distinction as
`getChildPrefixesFuel`, collecting the arguments of the calls. -/
def childSearchVisits (n : Network) : Nat → Prefix → List Prefix
  | 0, _ => []
  | fuel + 1, pfx =>
    let leftPrefix := pfx.extendLeft
    let rightPrefix := pfx.extendRight
    let leftExists := (n.Sections.get leftPrefix.Key).isSome
    let rightExists := (n.Sections.get rightPrefix.Key).isSome
    if leftExists && rightExists then [pfx]
    else if leftExists then pfx :: childSearchVisits n fuel rightPrefix
    else if rightExists then pfx :: childSearchVisits n fuel leftPrefix
    else if pfx.bits.length < 256 then
      pfx :: (childSearchVisits n fuel leftPrefix ++ childSearchVisits n fuel rightPrefix)
    else [pfx]

/-- The neighbour prefixes that the outer loop of `relocateVault` constructs,
in the order of the loop. -/
def neighbourPrefixes (p : Prefix) : List Prefix :=
  (List.range p.bits.length).map (neighbourPrefix p)

end Network

/-! ## Routing -/

namespace Network

/-- What the routing loop returns, started on the first `pfx.bits.length` bits
of `x` with no shorter key present: a key that is the shortest leading prefix
of `x` in the map. -/
theorem getPrefixLoop_spec (n : Network) (x : XorName) :
    ∀ (steps : Nat) (pfx : Prefix) (ex : Bool),
      pfx.bits = x.bits.take pfx.bits.length →
      pfx.bits.length ≤ x.bits.length →
      x.bits.length ≤ pfx.bits.length + steps →
      ex = (n.Sections.get pfx.Key).isSome →
      (∀ k, k < pfx.bits.length → (n.Sections.get (x.bits.take k)).isSome = false) →
      (∃ k, k ≤ x.bits.length ∧ (n.Sections.get (x.bits.take k)).isSome = true) →
      (getPrefixLoop n x steps pfx ex).2 = true ∧
      ((n.Sections.get (getPrefixLoop n x steps pfx ex).1.Key).isSome = true ∧
       (getPrefixLoop n x steps pfx ex).1.bits
          = x.bits.take (getPrefixLoop n x steps pfx ex).1.bits.length ∧
       ∀ k, k < (getPrefixLoop n x steps pfx ex).1.bits.length →
          (n.Sections.get (x.bits.take k)).isSome = false) := by
  intro steps
  induction steps with
  | zero =>
    intro pfx ex hp hle hst hex hmin ⟨k, hk, hks⟩
    have hlen : pfx.bits.length = x.bits.length := by omega
    have hkey : pfx.Key = x.bits.take pfx.bits.length := hp
    have hex1 : ex = true := by
      rcases Nat.lt_or_ge k pfx.bits.length with h | h
      · rw [hmin k h] at hks; cases hks
      · have hk2 : k = pfx.bits.length := by omega
        rw [hex, hkey, ← hk2]; exact hks
    simp only [getPrefixLoop]
    exact ⟨hex1, by rw [← hex]; exact hex1, hp, hmin⟩
  | succ steps ih =>
    intro pfx ex hp hle hst hex hmin ⟨k, hk, hks⟩
    have hkey : pfx.Key = x.bits.take pfx.bits.length := hp
    by_cases hc : ex = false ∧ pfx.bits.length < x.bits.length
    · rw [getPrefixLoop, dif_pos hc]
      obtain ⟨hexf, hlt⟩ := hc
      have hstep : (if x.bits[pfx.bits.length] = false then pfx.extendLeft
            else pfx.extendRight).bits = x.bits.take (pfx.bits.length + 1) := by
        rw [List.take_succ, ← hp]
        have hget : x.bits[pfx.bits.length]? = some x.bits[pfx.bits.length] :=
          List.getElem?_eq_getElem hlt
        rw [hget]
        by_cases hb : x.bits[pfx.bits.length] = false
        · simp [hb, Prefix.extendLeft]
        · have hb1 : x.bits[pfx.bits.length] = true := by simpa using hb
          simp [hb1, Prefix.extendRight]
      have hlen1 : (if x.bits[pfx.bits.length] = false then pfx.extendLeft
            else pfx.extendRight).bits.length = pfx.bits.length + 1 := by
        rw [hstep, List.length_take]; omega
      apply ih
      · rw [hlen1]; exact hstep
      · rw [hlen1]; omega
      · rw [hlen1]; omega
      · rfl
      · intro j hj
        rw [hlen1] at hj
        rcases Nat.lt_or_ge j pfx.bits.length with h | h
        · exact hmin j h
        · have hj2 : j = pfx.bits.length := by omega
          rw [hj2, ← hkey, ← hex]; exact hexf
      · exact ⟨k, hk, hks⟩
    · rw [getPrefixLoop, dif_neg hc]
      have hex1 : ex = true := by
        by_contra hne
        have hexf : ex = false := by simpa using hne
        have hlen : pfx.bits.length = x.bits.length := by
          by_contra hne2
          exact hc ⟨hexf, by omega⟩
        rcases Nat.lt_or_ge k pfx.bits.length with h | h
        · rw [hmin k h] at hks; cases hks
        · have hk2 : k = pfx.bits.length := by omega
          rw [hk2, ← hkey, ← hex, hexf] at hks; cases hks
      exact ⟨hex1, by rw [← hex]; exact hex1, hp, hmin⟩

end Network

namespace Network

/-- Routing reads the section map only. -/
theorem getPrefixLoop_congr (n n' : Network) (x : XorName) (h : n.Sections = n'.Sections) :
    ∀ (steps : Nat) (pfx : Prefix) (ex : Bool),
      getPrefixLoop n x steps pfx ex = getPrefixLoop n' x steps pfx ex := by
  intro steps
  induction steps with
  | zero => intro pfx ex; rfl
  | succ steps ih =>
    intro pfx ex
    simp only [getPrefixLoop, h, ih]

/-- Routing reads the section map only. -/
theorem getPrefixForXorname_congr (n n' : Network) (x : XorName)
    (h : n.Sections = n'.Sections) :
    getPrefixForXorname n x = getPrefixForXorname n' x := by
  simp only [getPrefixForXorname, HasMoreThanOneVault, getPrefixLoop_congr n n' x h, h]

end Network

/-- Routing in any network: when some leading prefix of `x` is a key, the
prefix returned is the shortest leading prefix of `x` that is a key. -/
theorem Network.getPrefixForXorname_shortest (n : Network) (x : XorName)
    (hex : ∃ k, k ≤ x.bits.length ∧ (n.Sections.get (x.bits.take k)).isSome = true) :
    (n.Sections.get (n.getPrefixForXorname x).Key).isSome = true ∧
    (n.getPrefixForXorname x).bits
      = x.bits.take (n.getPrefixForXorname x).bits.length ∧
    ∀ k, (n.Sections.get (x.bits.take k)).isSome = true →
      (n.getPrefixForXorname x).bits.length ≤ k := by
  have h := Network.getPrefixLoop_spec n x x.bits.length NewBlankPrefix
    (n.Sections.get NewBlankPrefix.Key).isSome (by simp [NewBlankPrefix])
    (by simp [NewBlankPrefix]) (by simp [NewBlankPrefix]) rfl
    (by intro k hk; simp [NewBlankPrefix] at hk) hex
  obtain ⟨h1, h2, h3, h4⟩ := h
  have hres : n.getPrefixForXorname x
      = (Network.getPrefixLoop n x x.bits.length NewBlankPrefix
          (n.Sections.get NewBlankPrefix.Key).isSome).1 := by
    simp [Network.getPrefixForXorname, h1]
  rw [hres]
  refine ⟨h2, h3, ?_⟩
  intro k hk
  by_contra hlt
  have := h4 k (by omega)
  rw [this] at hk; cases hk

/-! ## The section map -/

namespace SectionMap

theorem get_delete (m : SectionMap) (k k' : Key) :
    (m.delete k).get k' = if k = k' then none else m.get k' := by
  induction m with
  | nil => simp [delete, get]
  | cons e m ih =>
    obtain ⟨k1, s1⟩ := e
    have hd : delete ((k1, s1) :: m) k
        = if k1 = k then delete m k else (k1, s1) :: delete m k := by
      by_cases h1 : k1 = k <;> simp [delete, List.filter_cons, h1]
    rw [hd]
    by_cases h1 : k1 = k
    · rw [if_pos h1, ih]
      by_cases h : k = k'
      · simp [h]
      · have h2 : ¬ k1 = k' := by rw [h1]; exact h
        simp [h, get, h2]
    · rw [if_neg h1]
      by_cases h2 : k1 = k'
      · have h : ¬ k = k' := by rw [← h2]; exact fun he => h1 he.symm
        simp [get, h2, h]
      · simp only [get, if_neg h2]
        exact ih

theorem get_set (m : SectionMap) (k k' : Key) (s : Section) :
    (m.set k s).get k' = if k = k' then some s else m.get k' := by
  unfold set
  by_cases h : k = k'
  · simp [get, h]
  · simp only [get, if_neg h]
    rw [get_delete, if_neg h]

theorem get_isSome_iff (m : SectionMap) (k : Key) :
    (m.get k).isSome = true ↔ k ∈ m.keys := by
  induction m with
  | nil => simp [get, keys]
  | cons e m ih =>
    obtain ⟨k1, s1⟩ := e
    by_cases h : k1 = k
    · simp [get, keys, h]
    · simp only [get, if_neg h, keys, List.map_cons, List.mem_cons]
      rw [ih]
      constructor
      · intro hm; exact Or.inr hm
      · rintro (hm | hm)
        · exact absurd hm.symm h
        · exact hm

theorem get_eq_none_iff (m : SectionMap) (k : Key) :
    m.get k = none ↔ k ∉ m.keys := by
  rw [← get_isSome_iff]
  cases m.get k <;> simp

theorem mem_of_get (m : SectionMap) (k : Key) (s : Section) (h : m.get k = some s) :
    (k, s) ∈ m := by
  induction m with
  | nil => simp [get] at h
  | cons e m ih =>
    obtain ⟨k1, s1⟩ := e
    by_cases h1 : k1 = k
    · simp only [get, if_pos h1] at h
      cases h; subst h1; exact List.mem_cons_self _ _
    · simp only [get, if_neg h1] at h
      exact List.mem_cons_of_mem _ (ih h)

theorem get_of_mem (m : SectionMap) (hnd : m.keys.Nodup) (k : Key) (s : Section)
    (h : (k, s) ∈ m) : m.get k = some s := by
  induction m with
  | nil => cases h
  | cons e m ih =>
    obtain ⟨k1, s1⟩ := e
    simp only [keys, List.map_cons, List.nodup_cons] at hnd
    rcases List.mem_cons.mp h with h1 | h1
    · cases h1; simp [get]
    · have hk : k ∈ keys m := List.mem_map_of_mem Prod.fst h1
      have hne : k1 ≠ k := by
        intro he; subst he; exact hnd.1 hk
      simp only [get, if_neg hne]
      exact ih hnd.2 h1

theorem mem_keys_delete (m : SectionMap) (k k' : Key) :
    k' ∈ (m.delete k).keys ↔ k' ∈ m.keys ∧ k' ≠ k := by
  rw [← get_isSome_iff, get_delete, ← get_isSome_iff]
  by_cases h : k = k'
  · simp [h]
  · simp [h, Ne.symm h]

theorem mem_keys_set (m : SectionMap) (k k' : Key) (s : Section) :
    k' ∈ (m.set k s).keys ↔ k' = k ∨ k' ∈ m.keys := by
  rw [← get_isSome_iff, get_set, ← get_isSome_iff]
  by_cases h : k = k'
  · simp [h]
  · simp [h, Ne.symm h]

theorem nodup_delete (m : SectionMap) (k : Key) (h : m.keys.Nodup) :
    (m.delete k).keys.Nodup := by
  unfold keys delete at *
  exact (List.Nodup.sublist (List.Sublist.map _ (List.filter_sublist _)) h)

theorem nodup_set (m : SectionMap) (k : Key) (s : Section) (h : m.keys.Nodup) :
    (m.set k s).keys.Nodup := by
  have h1 := nodup_delete m k h
  have h2 : k ∉ (m.delete k).keys := by
    rw [mem_keys_delete]; simp
  simp only [set, keys, List.map_cons, List.nodup_cons]
  exact ⟨h2, h1⟩

end SectionMap

/-! ## Storing new sections, and the lazily created root -/

namespace Network

/-- At a key that none of the stored sections has, `storeSections` changes
nothing. -/
theorem storeSections_get_other (l : List Section) :
    ∀ (m : SectionMap) (k : Key), (∀ s ∈ l, s.Prefix.Key ≠ k) →
      (storeSections m l).get k = m.get k := by
  induction l with
  | nil => intro m k _; rfl
  | cons s l ih =>
    intro m k h
    simp only [storeSections]
    rw [ih _ _ (fun t ht => h t (List.mem_cons_of_mem _ ht)), SectionMap.get_set,
      if_neg (h s (List.mem_cons_self _ _))]

/-- What `storeSections` leaves under a key depends on the old map only
through its entry at that key. -/
theorem storeSections_get_congr (l : List Section) :
    ∀ (m m' : SectionMap) (k : Key), m.get k = m'.get k →
      (storeSections m l).get k = (storeSections m' l).get k := by
  induction l with
  | nil => intro m m' k h; exact h
  | cons s l ih =>
    intro m m' k h
    simp only [storeSections]
    apply ih
    rw [SectionMap.get_set, SectionMap.get_set, h]

theorem mem_keys_storeSections (l : List Section) :
    ∀ (m : SectionMap) (k : Key),
      k ∈ (storeSections m l).keys ↔ k ∈ m.keys ∨ ∃ s ∈ l, s.Prefix.Key = k := by
  induction l with
  | nil => intro m k; simp [storeSections]
  | cons s l ih =>
    intro m k
    simp only [storeSections]
    rw [ih, SectionMap.mem_keys_set]
    constructor
    · rintro ((h | h) | ⟨t, ht, hk⟩)
      · exact Or.inr ⟨s, List.mem_cons_self _ _, h.symm⟩
      · exact Or.inl h
      · exact Or.inr ⟨t, List.mem_cons_of_mem _ ht, hk⟩
    · rintro (h | ⟨t, ht, hk⟩)
      · exact Or.inl (Or.inr h)
      · rcases List.mem_cons.mp ht with h1 | h1
        · subst h1; exact Or.inl (Or.inl hk.symm)
        · exact Or.inr ⟨t, h1, hk⟩

theorem nodup_storeSections (l : List Section) :
    ∀ (m : SectionMap), m.keys.Nodup → (storeSections m l).keys.Nodup := by
  induction l with
  | nil => intro m h; exact h
  | cons s l ih =>
    intro m h
    simp only [storeSections]
    exact ih _ (SectionMap.nodup_set _ _ _ h)

/-- The spec's `newSection` at the blank prefix without vaults creates the
empty root section. -/
theorem newSection_blank :
    Section.newSection NewBlankPrefix []
      = .ok (some { NewSections := [⟨NewBlankPrefix, []⟩], VaultToRelocate := none }) := by
  decide

/-- Lines 40-53 of `AddVault` under the spec's Section operations: the section
found is stored under the returned key, and every other key is as before. -/
theorem locateSection_spec (pol : Policy) (n n1 : Network) (v : Vault) (k : Key)
    (sec : Section) (h : locateSection (specOps pol) n v = .ok (n1, some (k, sec))) :
    n1.Sections.get k = some sec ∧
    (∀ k', k' ≠ k → n1.Sections.get k' = n.Sections.get k') ∧
    n1.TotalSplits = n.TotalSplits ∧ n1.TotalJoins = wrapInt (n.TotalJoins + 1) ∧
    n1.TotalMerges = n.TotalMerges ∧ n1.TotalDepartures = n.TotalDepartures ∧
    n1.TotalRelocations = n.TotalRelocations ∧
    ((n.Sections.get k = some sec ∧ n1.Sections = n.Sections) ∨
     (n.Sections.get k = none ∧ k = [] ∧ sec = ⟨NewBlankPrefix, []⟩ ∧
      n1.Sections = n.Sections.set [] sec)) := by
  unfold locateSection at h
  simp only at h
  cases hget : n.Sections.get
      (getPrefixForXorname { n with TotalJoins := wrapInt (n.TotalJoins + 1) } v.Name).Key with
  | some s0 =>
    rw [hget] at h
    simp only [Except.ok.injEq, Prod.mk.injEq, Option.some.injEq] at h
    obtain ⟨hn, hk, hs⟩ := h
    subst hn; subst hk; subst hs
    exact ⟨hget, fun _ _ => rfl, rfl, rfl, rfl, rfl, rfl, Or.inl ⟨hget, rfl⟩⟩
  | none =>
    rw [hget] at h
    have hns : (specOps pol).newSection NewBlankPrefix [] = .ok (some
        { NewSections := [⟨NewBlankPrefix, []⟩], VaultToRelocate := none }) :=
      newSection_blank
    rw [hns] at h
    simp only [storeSections, List.getLast?_singleton, Option.map_some',
      Except.ok.injEq, Prod.mk.injEq, Option.some.injEq] at h
    obtain ⟨hn, hk, hs⟩ := h
    subst hn; subst hk; subst hs
    have hroot : n.Sections.get [] = none := by
      cases hr : n.Sections.get [] with
      | none => rfl
      | some s0 =>
        exfalso
        have h0 : getPrefixForXorname { n with TotalJoins := wrapInt (n.TotalJoins + 1) } v.Name
            = NewBlankPrefix := by
          unfold getPrefixForXorname
          have hb : ((Network.mk n.Sections n.TotalMerges n.TotalSplits (wrapInt (n.TotalJoins + 1))
            n.TotalDepartures n.TotalRelocations).Sections.get NewBlankPrefix.Key).isSome
              = true := by
            show (n.Sections.get []).isSome = true
            rw [hr]; rfl
          simp only [hb]
          cases hlen : v.Name.bits.length with
          | zero => simp [getPrefixLoop]
          | succ m => simp [getPrefixLoop]
        rw [h0] at hget
        have : n.Sections.get [] = none := hget
        rw [hr] at this; cases this
    refine ⟨?_, ?_, rfl, rfl, rfl, rfl, rfl, Or.inr ⟨hroot, rfl, rfl, rfl⟩⟩
    · show (n.Sections.set _ _).get _ = _
      rw [SectionMap.get_set]; simp [Prefix.Key, NewBlankPrefix]
    · intro k' hk'
      show (n.Sections.set _ _).get _ = _
      rw [SectionMap.get_set, if_neg (fun he => hk' he.symm)]

/-- The spec's `addVault` reports new sections only for a split: the section
keeps its prefix, the new sections are its two children, no relocation is
flagged and the vault was admitted. -/
theorem addVault_split (pol : Policy) (sec sec1 : Section) (v : Vault) (e : NetworkEvent)
    (d : Bool) (h : Section.addVault pol sec v = .ok (sec1, some e, d))
    (hne : e.NewSections ≠ []) :
    sec1.Prefix = sec.Prefix ∧ sec1.Vaults = sec.Vaults ++ [v.SetPrefix sec.Prefix] ∧
    Section.split sec1 = .ok e ∧ SplitSize ≤ sec1.Vaults.length ∧
    e.VaultToRelocate = none ∧ d = false ∧
    ∃ ls rs, e.NewSections = [⟨sec.Prefix.extendLeft, ls⟩, ⟨sec.Prefix.extendRight, rs⟩] := by
  unfold Section.addVault at h
  by_cases hd : pol.disallow sec v = true
  · rw [if_pos hd] at h; cases h
  · rw [if_neg hd] at h
    simp only at h
    by_cases hs : (sec.Vaults ++ [v.SetPrefix sec.Prefix]).length ≥ SplitSize
    · rw [if_pos hs] at h
      cases hsp : Section.split { sec with Vaults := sec.Vaults ++ [v.SetPrefix sec.Prefix] } with
      | error err => rw [hsp] at h; cases h
      | ok e0 =>
        rw [hsp] at h
        simp only [Except.ok.injEq, Prod.mk.injEq, Option.some.injEq] at h
        obtain ⟨h1, h2, h3⟩ := h
        subst h1; subst h2; subst h3
        refine ⟨rfl, rfl, hsp, hs, ?_⟩
        unfold Section.split at hsp
        simp only at hsp
        cases hm : Section.splitMembers sec.Prefix.bits.length sec.Prefix.extendLeft
            sec.Prefix.extendRight (sec.Vaults ++ [v.SetPrefix sec.Prefix]) with
        | error err => rw [hm] at hsp; cases hsp
        | ok lr =>
          rw [hm] at hsp
          obtain ⟨ls, rs⟩ := lr
          simp only [Except.ok.injEq] at hsp
          subst hsp
          exact ⟨rfl, rfl, ls, rs, rfl⟩
    · rw [if_neg hs] at h
      simp only [Except.ok.injEq, Prod.mk.injEq, Option.some.injEq] at h
      obtain ⟨_, h2, _⟩ := h
      subst h2
      exact absurd rfl hne

end Network

/-! ## Counting sections -/

namespace Network

theorem hasMoreThanOneSectionLoop_zero (m : SectionMap) :
    hasMoreThanOneSectionLoop m 0 = decide (1 < m.length) := by
  cases m with
  | nil => simp [hasMoreThanOneSectionLoop]
  | cons e m =>
    cases m with
    | nil => simp [hasMoreThanOneSectionLoop]
    | cons e2 m => simp [hasMoreThanOneSectionLoop]

theorem HasMoreThanOneSection_iff (n : Network) :
    n.HasMoreThanOneSection = true ↔ 1 < n.Sections.length := by
  unfold HasMoreThanOneSection
  rw [hasMoreThanOneSectionLoop_zero]
  simp

theorem length_delete_of_mem (m : SectionMap) (k : Key) (hnd : m.keys.Nodup)
    (hk : k ∈ m.keys) : (m.delete k).length + 1 = m.length := by
  induction m with
  | nil => simp [SectionMap.keys] at hk
  | cons e m ih =>
    obtain ⟨k1, s1⟩ := e
    simp only [SectionMap.keys, List.map_cons, List.nodup_cons] at hnd
    by_cases h1 : k1 = k
    · subst h1
      have hnot : ∀ x ∈ m, decide (x.1 ≠ k1) = true := by
        intro x hx
        have : x.1 ∈ SectionMap.keys m := List.mem_map_of_mem Prod.fst hx
        simp only [ne_eq, decide_not, Bool.not_eq_true', decide_eq_false_iff_not]
        intro he; rw [he] at this; exact hnd.1 this
      simp only [SectionMap.delete, List.filter_cons, ne_eq, not_true_eq_false,
        decide_False, Bool.false_eq_true, if_false, List.length_cons]
      rw [List.filter_eq_self.mpr hnot]
    · have hk2 : k ∈ SectionMap.keys m := by
        simp only [SectionMap.keys, List.map_cons, List.mem_cons] at hk
        rcases hk with hk | hk
        · exact absurd hk.symm h1
        · exact hk
      have := ih hnd.2 hk2
      simp only [SectionMap.delete, List.filter_cons, ne_eq, h1, not_false_eq_true,
        decide_True, if_true, List.length_cons] at this ⊢
      omega

theorem length_set_of_mem (m : SectionMap) (k : Key) (s : Section) (hnd : m.keys.Nodup)
    (hk : k ∈ m.keys) : (m.set k s).length = m.length := by
  simp only [SectionMap.set, List.length_cons]
  exact length_delete_of_mem m k hnd hk

end Network

/-! ## The local effect of a join and of a departure -/

namespace Network

/-- Lines 40-53 of `AddVault` when routing finds a section. -/
theorem locateSection_found (ops : SectionOps) (n : Network) (v : Vault) (sec : Section)
    (hsec : n.Sections.get (n.getPrefixForXorname v.Name).Key = some sec) :
    locateSection ops n v
      = .ok ({ n with TotalJoins := wrapInt (n.TotalJoins + 1) },
          some ((n.getPrefixForXorname v.Name).Key, sec)) := by
  unfold locateSection
  have hsame : getPrefixForXorname { n with TotalJoins := wrapInt (n.TotalJoins + 1) } v.Name
      = getPrefixForXorname n v.Name :=
    getPrefixForXorname_congr _ _ _ rfl
  simp only [hsame, hsec]

/-- The two parts of a split hold all members between them. -/
theorem splitMembers_length (depth : Nat) (left right : Prefix) :
    ∀ (vs ls rs : List Vault),
      Section.splitMembers depth left right vs = .ok (ls, rs) →
      ls.length + rs.length = vs.length := by
  intro vs
  induction vs with
  | nil =>
    intro ls rs h
    simp only [Section.splitMembers, Except.ok.injEq, Prod.mk.injEq] at h
    obtain ⟨h1, h2⟩ := h
    subst h1; subst h2; rfl
  | cons v vs ih =>
    intro ls rs h
    simp only [Section.splitMembers] at h
    cases hb : v.Name.bits[depth]? with
    | none => rw [hb] at h; cases h
    | some b =>
      rw [hb] at h
      simp only at h
      cases hrec : Section.splitMembers depth left right vs with
      | error e => rw [hrec] at h; cases h
      | ok lr =>
        obtain ⟨l0, r0⟩ := lr
        rw [hrec] at h
        simp only at h
        have := ih l0 r0 hrec
        by_cases hbf : b = false
        · rw [if_pos hbf] at h
          simp only [Except.ok.injEq, Prod.mk.injEq] at h
          obtain ⟨h1, h2⟩ := h
          subst h1; subst h2
          simp only [List.length_cons]; omega
        · rw [if_neg hbf] at h
          simp only [Except.ok.injEq, Prod.mk.injEq] at h
          obtain ⟨h1, h2⟩ := h
          subst h1; subst h2
          simp only [List.length_cons]; omega

/-- A split reports the two children of the section, holding all its members
between them. -/
theorem split_eq (s : Section) (e : NetworkEvent) (h : Section.split s = .ok e) :
    ∃ ls rs, e = { NewSections := [⟨s.Prefix.extendLeft, ls⟩, ⟨s.Prefix.extendRight, rs⟩]
                   VaultToRelocate := none } ∧
      Section.splitMembers s.Prefix.bits.length s.Prefix.extendLeft s.Prefix.extendRight
        s.Vaults = .ok (ls, rs) ∧
      ls.length + rs.length = s.Vaults.length := by
  unfold Section.split at h
  cases hm : Section.splitMembers s.Prefix.bits.length s.Prefix.extendLeft
      s.Prefix.extendRight s.Vaults with
  | error err => rw [hm] at h; cases h
  | ok lr =>
    obtain ⟨ls, rs⟩ := lr
    rw [hm] at h
    simp only [Except.ok.injEq] at h
    exact ⟨ls, rs, h.symm, rfl, splitMembers_length _ _ _ _ _ _ hm⟩

/-- The merge of `RemoveVault` counts one merge and no split. -/
theorem mergeSection_counters (ops : SectionOps) (n n' : Network) (sec : Section) (v : Vault)
    (h : mergeSection ops n sec v = .ok n') :
    n'.TotalMerges = wrapInt (n.TotalMerges + 1) ∧ n'.TotalSplits = n.TotalSplits ∧
    n'.TotalJoins = n.TotalJoins ∧ n'.TotalDepartures = n.TotalDepartures ∧
    n'.TotalRelocations = n.TotalRelocations := by
  unfold mergeSection at h
  simp only at h
  cases hp : sec.Prefix.parent with
  | error e => rw [hp] at h; cases h
  | ok parentPrefix =>
    rw [hp] at h
    simp only at h
    cases hsib : v.Prefix.sibling with
    | error e => rw [hsib] at h; cases h
    | ok siblingPrefix =>
      rw [hsib] at h
      simp only at h
      split at h
      · cases h
      · rename_i m parentVaults _
        split at h
        · cases h
        · simp only [Except.ok.injEq] at h
          subst h
          exact ⟨rfl, rfl, rfl, rfl, rfl⟩
        · simp only [Except.ok.injEq] at h
          subst h
          exact ⟨rfl, rfl, rfl, rfl, rfl⟩

end Network

/-! ## Partitions of the identifier space -/

theorem PartitionKeys.congr {K K' : Key → Prop} (h : ∀ k, K k ↔ K' k)
    (hp : PartitionKeys K) : PartitionKeys K' := by
  have : K = K' := funext (fun k => propext (h k))
  rw [← this]; exact hp

/-- In a partition no prefix is a leading prefix of another one. -/
theorem PartitionKeys.prefixFree {K : Key → Prop} (hp : PartitionKeys K)
    (k1 k2 : Key) (h1 : K k1) (h2 : K k2) (h : k1 <+: k2) : k1 = k2 := by
  have hlen := hp.1 k2 h2
  obtain ⟨k0, _, huniq⟩ := hp.2 (k2 ++ List.replicate (256 - k2.length) false)
    (by simp only [List.length_append, List.length_replicate]; omega)
  have e1 := huniq k1 ⟨h1, h.trans (List.prefix_append _ _)⟩
  have e2 := huniq k2 ⟨h2, List.prefix_append _ _⟩
  rw [e1, e2]

/-- Two leading prefixes of one list of the same length are equal. -/
theorem prefix_eq_of_length {a b x : List Bool} (ha : a <+: x) (hb : b <+: x)
    (hl : a.length = b.length) : a = b :=
  (List.prefix_of_prefix_length_le ha hb (le_of_eq hl)).eq_of_length hl

/-- The root alone partitions the identifier space. -/
theorem PartitionKeys.root : PartitionKeys (fun k => k = []) := by
  refine ⟨?_, ?_⟩
  · intro k hk; rw [hk]; simp
  · intro x _
    exact ⟨[], ⟨rfl, List.nil_prefix⟩, fun k hk => hk.1⟩

/-- Replacing a prefix of fewer than 256 bits by its two children keeps a
partition. -/
theorem PartitionKeys.split {K : Key → Prop} (hp : PartitionKeys K) (k : Key)
    (hk : K k) (hlen : k.length < 256) :
    PartitionKeys (fun k' => (K k' ∧ k' ≠ k) ∨ k' = k ++ [false] ∨ k' = k ++ [true]) := by
  refine ⟨?_, ?_⟩
  · rintro k' (⟨h, _⟩ | h | h)
    · exact hp.1 k' h
    · rw [h]; simp only [List.length_append, List.length_singleton]; omega
    · rw [h]; simp only [List.length_append, List.length_singleton]; omega
  · intro x hx
    obtain ⟨k0, ⟨hK0, hpre0⟩, huniq⟩ := hp.2 x hx
    by_cases he : k0 = k
    · subst he
      obtain ⟨t, ht⟩ := hpre0
      cases t with
      | nil =>
        exfalso
        rw [List.append_nil] at ht
        rw [ht] at hlen; omega
      | cons b rest =>
        have hpre : k0 ++ [b] <+: x := ⟨rest, by rw [← ht]; simp⟩
        refine ⟨k0 ++ [b], ⟨?_, hpre⟩, ?_⟩
        · cases b
          · exact Or.inr (Or.inl rfl)
          · exact Or.inr (Or.inr rfl)
        · rintro k' ⟨hk', hpre'⟩
          rcases hk' with ⟨h, hne⟩ | h | h
          · exact absurd (huniq k' ⟨h, hpre'⟩) hne
          · rw [h] at hpre' ⊢
            exact prefix_eq_of_length hpre' hpre (by simp)
          · rw [h] at hpre' ⊢
            exact prefix_eq_of_length hpre' hpre (by simp)
    · refine ⟨k0, ⟨Or.inl ⟨hK0, he⟩, hpre0⟩, ?_⟩
      rintro k' ⟨hk', hpre'⟩
      rcases hk' with ⟨h, _⟩ | h | h
      · exact huniq k' ⟨h, hpre'⟩
      · exfalso
        rw [h] at hpre'
        exact he (huniq k ⟨hk, (List.prefix_append _ _).trans hpre'⟩).symm
      · exfalso
        rw [h] at hpre'
        exact he (huniq k ⟨hk, (List.prefix_append _ _).trans hpre'⟩).symm

/-- Replacing every prefix that extends `p` by `p` itself keeps a partition,
when a child of `p` is one of the prefixes. -/
theorem PartitionKeys.merge {K : Key → Prop} (hp : PartitionKeys K) (p : Key) (b : Bool)
    (hk : K (p ++ [b])) :
    PartitionKeys (fun k' => (K k' ∧ ¬ p <+: k') ∨ k' = p) := by
  have hplen : p.length < 256 := by
    have := hp.1 _ hk
    simp only [List.length_append, List.length_singleton] at this
    omega
  refine ⟨?_, ?_⟩
  · rintro k' (⟨h, _⟩ | h)
    · exact hp.1 k' h
    · rw [h]; omega
  · intro x hx
    obtain ⟨k0, ⟨hK0, hpre0⟩, huniq⟩ := hp.2 x hx
    by_cases hpx : p <+: x
    · refine ⟨p, ⟨Or.inr rfl, hpx⟩, ?_⟩
      rintro k' ⟨hk', hpre'⟩
      rcases hk' with ⟨h, hnp⟩ | h
      · exfalso
        rcases Nat.le_total p.length k'.length with hl | hl
        · exact hnp (List.prefix_of_prefix_length_le hpx hpre' hl)
        · have h1 : k' <+: p := List.prefix_of_prefix_length_le hpre' hpx hl
          have h2 := hp.prefixFree k' (p ++ [b]) h hk (h1.trans (List.prefix_append _ _))
          exact hnp (by rw [h2]; exact List.prefix_append _ _)
      · exact h
    · have hnp0 : ¬ p <+: k0 := fun h => hpx (h.trans hpre0)
      refine ⟨k0, ⟨Or.inl ⟨hK0, hnp0⟩, hpre0⟩, ?_⟩
      rintro k' ⟨hk', hpre'⟩
      rcases hk' with ⟨h, _⟩ | h
      · exact huniq k' ⟨h, hpre'⟩
      · exact absurd (by rw [← h]; exact hpre') hpx

/-- In a partition every 256-bit identifier has a key among its leading
prefixes, of at most 256 bits. -/
theorem Partitions.covers {m : SectionMap} (hp : Partitions m) (x : List Bool)
    (hx : x.length = 256) :
    ∃ j, j ≤ 256 ∧ (m.get (x.take j)).isSome = true := by
  obtain ⟨k0, ⟨hK0, hpre0⟩, _⟩ := hp.2 x hx
  refine ⟨k0.length, hp.1 k0 hK0, ?_⟩
  rw [← List.prefix_iff_eq_take.mp hpre0]
  exact (SectionMap.get_isSome_iff _ _).mpr hK0

theorem Partitions.keysPrefixFree {m : SectionMap} (hp : Partitions m) : PrefixFree m :=
  fun k1 h1 k2 h2 h => PartitionKeys.prefixFree hp k1 k2 h1 h2 h

/-! ## The descendant search and the neighbour resolution -/

namespace Network

theorem length_le_maxKeyLength (m : SectionMap) (k : Key) (h : k ∈ m.keys) :
    k.length ≤ maxKeyLength m := by
  induction m with
  | nil => simp [SectionMap.keys] at h
  | cons e m ih =>
    obtain ⟨k1, s1⟩ := e
    simp only [SectionMap.keys, List.map_cons, List.mem_cons] at h
    simp only [maxKeyLength]
    rcases h with h | h
    · subst h; exact le_max_left _ _
    · exact le_trans (ih h) (le_max_right _ _)

theorem extendLeft_length (p : Prefix) : p.extendLeft.bits.length = p.bits.length + 1 := by
  simp [Prefix.extendLeft]

theorem extendRight_length (p : Prefix) : p.extendRight.bits.length = p.bits.length + 1 := by
  simp [Prefix.extendRight]

/-- The equation of one level of the descendant search. -/
theorem getChildPrefixesFuel_succ (n : Network) (fuel : Nat) (pfx : Prefix) :
    getChildPrefixesFuel n (fuel + 1) pfx =
      if (n.Sections.get pfx.extendLeft.Key).isSome = true
          ∧ (n.Sections.get pfx.extendRight.Key).isSome = true then
        .ok [pfx.extendLeft, pfx.extendRight]
      else if (n.Sections.get pfx.extendLeft.Key).isSome = true then
        match getChildPrefixesFuel n fuel pfx.extendRight with
        | .ok rs => .ok (pfx.extendLeft :: rs)
        | .error e => .error e
      else if (n.Sections.get pfx.extendRight.Key).isSome = true then
        match getChildPrefixesFuel n fuel pfx.extendLeft with
        | .ok ls => .ok (pfx.extendRight :: ls)
        | .error e => .error e
      else if pfx.bits.length < 256 then
        match getChildPrefixesFuel n fuel pfx.extendLeft with
        | .ok ls =>
          match getChildPrefixesFuel n fuel pfx.extendRight with
          | .ok rs => .ok (ls ++ rs)
          | .error e => .error e
        | .error e => .error e
      else .ok [] := by
  simp only [getChildPrefixesFuel, Bool.and_eq_true]

/-- With a budget above the depth still open, the descendant search returns. -/
theorem getChildPrefixesFuel_total (n : Network) :
    ∀ (fuel : Nat) (pfx : Prefix),
      max 256 (maxKeyLength n.Sections) - pfx.bits.length < fuel →
      ∃ l, getChildPrefixesFuel n fuel pfx = .ok l := by
  intro fuel
  induction fuel with
  | zero => intro pfx h; omega
  | succ fuel ih =>
    intro pfx h
    rw [getChildPrefixesFuel_succ]
    have hl := extendLeft_length pfx
    have hr := extendRight_length pfx
    by_cases h1 : (n.Sections.get pfx.extendLeft.Key).isSome = true
    · have hk := length_le_maxKeyLength _ _ ((SectionMap.get_isSome_iff _ _).mp h1)
      have hk2 : pfx.bits.length + 1 ≤ maxKeyLength n.Sections := by
        rw [← hl]; exact hk
      by_cases h2 : (n.Sections.get pfx.extendRight.Key).isSome = true
      · exact ⟨_, by rw [if_pos ⟨h1, h2⟩]⟩
      · rw [if_neg (fun hc => h2 hc.2), if_pos h1]
        obtain ⟨l, hl2⟩ := ih pfx.extendRight (by rw [hr]; omega)
        exact ⟨_, by rw [hl2]⟩
    · rw [if_neg (fun hc => h1 hc.1), if_neg h1]
      by_cases h2 : (n.Sections.get pfx.extendRight.Key).isSome = true
      · have hk := length_le_maxKeyLength _ _ ((SectionMap.get_isSome_iff _ _).mp h2)
        have hk2 : pfx.bits.length + 1 ≤ maxKeyLength n.Sections := by
          rw [← hr]; exact hk
        rw [if_pos h2]
        obtain ⟨l, hl2⟩ := ih pfx.extendLeft (by rw [hl]; omega)
        exact ⟨_, by rw [hl2]⟩
      · rw [if_neg h2]
        by_cases h3 : pfx.bits.length < 256
        · rw [if_pos h3]
          obtain ⟨l1, hl1⟩ := ih pfx.extendLeft (by rw [hl]; omega)
          obtain ⟨l2, hl2⟩ := ih pfx.extendRight (by rw [hr]; omega)
          exact ⟨_, by rw [hl1, hl2]⟩
        · exact ⟨_, by rw [if_neg h3]⟩

/-- The descendant search always returns. -/
theorem getChildPrefixes_total (n : Network) (pfx : Prefix) :
    ∃ l, getChildPrefixes n pfx = .ok l :=
  getChildPrefixesFuel_total n _ pfx (by unfold childSearchDepth; omega)

/-- Every prefix returned by the descendant search is a key of the map and
strictly extends the prefix searched. -/
theorem getChildPrefixesFuel_sound (n : Network) :
    ∀ (fuel : Nat) (pfx : Prefix) (l : List Prefix),
      getChildPrefixesFuel n fuel pfx = .ok l →
      ∀ q ∈ l, q.Key ∈ n.Sections.keys ∧ pfx.bits <+: q.bits ∧ pfx.bits ≠ q.bits := by
  intro fuel
  induction fuel with
  | zero => intro pfx l h; simp [getChildPrefixesFuel] at h
  | succ fuel ih =>
    intro pfx l h q hq
    rw [getChildPrefixesFuel_succ] at h
    have hSL : pfx.bits <+: pfx.extendLeft.bits ∧ pfx.bits ≠ pfx.extendLeft.bits := by
      simp [Prefix.extendLeft]
    have hSR : pfx.bits <+: pfx.extendRight.bits ∧ pfx.bits ≠ pfx.extendRight.bits := by
      simp [Prefix.extendRight]
    have hdeep : ∀ (c : Prefix) (q : Prefix), pfx.bits <+: c.bits →
        c.bits.length = pfx.bits.length + 1 →
        (c.bits <+: q.bits ∧ c.bits ≠ q.bits) → pfx.bits <+: q.bits ∧ pfx.bits ≠ q.bits := by
      intro c q hc hlen hcq
      refine ⟨hc.trans hcq.1, ?_⟩
      intro he
      have h1 := hcq.1.length_le
      rw [← he] at h1
      omega
    by_cases h1 : (n.Sections.get pfx.extendLeft.Key).isSome = true
    · by_cases h2 : (n.Sections.get pfx.extendRight.Key).isSome = true
      · rw [if_pos ⟨h1, h2⟩] at h
        cases h
        simp only [List.mem_cons, List.mem_singleton, List.not_mem_nil, or_false] at hq
        rcases hq with hq | hq
        · subst hq; exact ⟨(SectionMap.get_isSome_iff _ _).mp h1, hSL⟩
        · subst hq; exact ⟨(SectionMap.get_isSome_iff _ _).mp h2, hSR⟩
      · rw [if_neg (fun hc => h2 hc.2), if_pos h1] at h
        cases hrec : getChildPrefixesFuel n fuel pfx.extendRight with
        | error e => rw [hrec] at h; cases h
        | ok rs =>
          rw [hrec] at h
          cases h
          rcases List.mem_cons.mp hq with hq | hq
          · subst hq; exact ⟨(SectionMap.get_isSome_iff _ _).mp h1, hSL⟩
          · have := ih _ _ hrec q hq
            exact ⟨this.1, hdeep _ _ hSR.1 (extendRight_length pfx) this.2⟩
    · rw [if_neg (fun hc => h1 hc.1), if_neg h1] at h
      by_cases h2 : (n.Sections.get pfx.extendRight.Key).isSome = true
      · rw [if_pos h2] at h
        cases hrec : getChildPrefixesFuel n fuel pfx.extendLeft with
        | error e => rw [hrec] at h; cases h
        | ok ls =>
          rw [hrec] at h
          cases h
          rcases List.mem_cons.mp hq with hq | hq
          · subst hq; exact ⟨(SectionMap.get_isSome_iff _ _).mp h2, hSR⟩
          · have := ih _ _ hrec q hq
            exact ⟨this.1, hdeep _ _ hSL.1 (extendLeft_length pfx) this.2⟩
      · rw [if_neg h2] at h
        by_cases h3 : pfx.bits.length < 256
        · rw [if_pos h3] at h
          cases hrec1 : getChildPrefixesFuel n fuel pfx.extendLeft with
          | error e => rw [hrec1] at h; cases h
          | ok ls =>
            cases hrec2 : getChildPrefixesFuel n fuel pfx.extendRight with
            | error e => rw [hrec1, hrec2] at h; cases h
            | ok rs =>
              rw [hrec1, hrec2] at h
              cases h
              rcases List.mem_append.mp hq with hq | hq
              · have := ih _ _ hrec1 q hq
                exact ⟨this.1, hdeep _ _ hSL.1 (extendLeft_length pfx) this.2⟩
              · have := ih _ _ hrec2 q hq
                exact ⟨this.1, hdeep _ _ hSR.1 (extendRight_length pfx) this.2⟩
        · rw [if_neg h3] at h
          cases h
          cases hq

/-- One step of the ancestor walk of `getMatchingPrefixes`. -/
theorem matchingLoop_cons (n : Network) (b : Bool) (bs : List Bool) (t : Prefix)
    (acc : List Prefix) :
    matchingLoop n (b :: bs) t acc
      = matchingLoop n bs (if b = false then t.extendLeft else t.extendRight)
          (if (n.Sections.get (if b = false then t.extendLeft else t.extendRight).Key).isSome
              = true
            then acc ++ [if b = false then t.extendLeft else t.extendRight] else acc) := by
  by_cases h : (n.Sections.get (if b = false then t.extendLeft else t.extendRight).Key).isSome
      = true
  · simp only [matchingLoop, h, if_true]
  · simp only [matchingLoop, h, if_false, Bool.false_eq_true]

/-- The ancestor walk of `getMatchingPrefixes` collects keys only. -/
theorem matchingLoop_keys (n : Network) :
    ∀ (bs : List Bool) (t : Prefix) (acc : List Prefix),
      (∀ q ∈ acc, q.Key ∈ n.Sections.keys) →
      ∀ q ∈ matchingLoop n bs t acc, q.Key ∈ n.Sections.keys := by
  intro bs
  induction bs with
  | nil => intro t acc h q hq; exact h q hq
  | cons b bs ih =>
    intro t acc h q hq
    rw [matchingLoop_cons] at hq
    refine ih _ _ ?_ q hq
    intro q2 hq2
    by_cases hex : (n.Sections.get
        (if b = false then t.extendLeft else t.extendRight).Key).isSome = true
    · rw [if_pos hex] at hq2
      rcases List.mem_append.mp hq2 with h2 | h2
      · exact h q2 h2
      · simp only [List.mem_singleton] at h2
        subst h2
        exact (SectionMap.get_isSome_iff _ _).mp hex
    · rw [if_neg hex] at hq2
      exact h q2 hq2

/-- `getMatchingPrefixes` always returns, and returns keys of the map only. -/
theorem getMatchingPrefixes_keys (n : Network) (pfx : Prefix) :
    ∃ l, getMatchingPrefixes n pfx = .ok l ∧ ∀ q ∈ l, q.Key ∈ n.Sections.keys := by
  have hacc : ∀ q ∈ (if (n.Sections.get NewBlankPrefix.Key).isSome = true
      then [NewBlankPrefix] else []), q.Key ∈ n.Sections.keys := by
    intro q hq
    by_cases hex : (n.Sections.get NewBlankPrefix.Key).isSome = true
    · rw [if_pos hex] at hq
      simp only [List.mem_singleton] at hq
      subst hq
      exact (SectionMap.get_isSome_iff _ _).mp hex
    · rw [if_neg hex] at hq; cases hq
  unfold getMatchingPrefixes
  simp only
  by_cases hlen : (matchingLoop n pfx.bits NewBlankPrefix
      (if (n.Sections.get NewBlankPrefix.Key).isSome = true
        then [NewBlankPrefix] else [])).length = 0
  · rw [if_pos hlen]
    obtain ⟨l, hl⟩ := getChildPrefixes_total n pfx
    refine ⟨l, hl, ?_⟩
    intro q hq
    exact (getChildPrefixesFuel_sound n _ _ _ hl q hq).1
  · rw [if_neg hlen]
    exact ⟨_, rfl, matchingLoop_keys n _ _ _ hacc⟩

/-- One candidate keeps the invariant of the destination search. -/
theorem considerPrefix_chosen (n : Network) (dflt : Option Section) (seen : List Prefix)
    (c : Choice) (p : Prefix) (hp : p.Key ∈ n.Sections.keys)
    (hlen : p.bits.length < MaxUint32) (hinv : Chosen n dflt seen c) :
    ∃ c1, considerPrefix n c p = .ok c1 ∧ Chosen n dflt (seen ++ [p]) c1 := by
  obtain ⟨sec, hsec⟩ : ∃ sec, n.Sections.get p.Key = some sec :=
    Option.isSome_iff_exists.mp ((SectionMap.get_isSome_iff _ _).mpr hp)
  unfold considerPrefix
  simp only [hsec]
  by_cases h1 : p.bits.length < c.minNeighbourPrefix
  · rw [if_pos h1]
    refine ⟨_, rfl, Or.inr ⟨p, by simp, ?_, rfl, ?_⟩⟩
    · simp [hsec]
    · intro q hq
      rcases List.mem_append.mp hq with hq | hq
      · rcases hinv with ⟨hs, _, _⟩ | ⟨p0, _, _, _, hmin⟩
        · rw [hs] at hq; cases hq
        · exact le_trans (le_of_lt h1) (hmin q hq)
      · simp only [List.mem_singleton] at hq
        subst hq; exact le_refl _
  · rw [if_neg h1]
    have hold : ∃ p0 ∈ seen, c.smallestNeighbour = n.Sections.get p0.Key ∧
        p0.bits.length = c.minNeighbourPrefix ∧
        ∀ q ∈ seen, c.minNeighbourPrefix ≤ q.bits.length := by
      rcases hinv with ⟨_, hm, _⟩ | h
      · rw [hm] at h1; exact absurd hlen h1
      · exact h
    obtain ⟨p0, hp0, hsm, hl0, hmin⟩ := hold
    have hall : ∀ q ∈ seen ++ [p], c.minNeighbourPrefix ≤ q.bits.length := by
      intro q hq
      rcases List.mem_append.mp hq with hq | hq
      · exact hmin q hq
      · simp only [List.mem_singleton] at hq
        subst hq; exact Nat.le_of_not_lt h1
    by_cases h2 : p.bits.length = c.minNeighbourPrefix
    · rw [if_pos h2]
      by_cases h3 : sec.Vaults.length < c.minNeighbourVaults
      · rw [if_pos h3]
        exact ⟨_, rfl, Or.inr ⟨p, by simp, by simp [hsec], h2, hall⟩⟩
      · rw [if_neg h3]
        exact ⟨_, rfl, Or.inr ⟨p0, List.mem_append_left _ hp0, hsm, hl0, hall⟩⟩
    · rw [if_neg h2]
      exact ⟨_, rfl, Or.inr ⟨p0, List.mem_append_left _ hp0, hsm, hl0, hall⟩⟩

/-- The candidates of one neighbour keep the invariant of the destination
search. -/
theorem considerPrefixes_chosen (n : Network) (dflt : Option Section) :
    ∀ (ps seen : List Prefix) (c : Choice),
      (∀ p ∈ ps, p.Key ∈ n.Sections.keys ∧ p.bits.length < MaxUint32) →
      Chosen n dflt seen c →
      ∃ c1, considerPrefixes n ps c = .ok c1 ∧ Chosen n dflt (seen ++ ps) c1 := by
  intro ps
  induction ps with
  | nil => intro seen c _ hinv; exact ⟨c, rfl, by simpa using hinv⟩
  | cons p ps ih =>
    intro seen c hps hinv
    obtain ⟨c1, hc1, hinv1⟩ := considerPrefix_chosen n dflt seen c p
      (hps p (List.mem_cons_self _ _)).1 (hps p (List.mem_cons_self _ _)).2 hinv
    obtain ⟨c2, hc2, hinv2⟩ := ih (seen ++ [p]) c1
      (fun q hq => hps q (List.mem_cons_of_mem _ hq)) hinv1
    refine ⟨c2, ?_, by simpa using hinv2⟩
    simp only [considerPrefixes, hc1]
    exact hc2

/-- The loop over the neighbours keeps the invariant of the destination
search, over the candidates of `candidatePrefixes`. -/
theorem neighbourSearch_chosen (n : Network) (r : Vault) (dflt : Option Section)
    (hk : ∀ k ∈ n.Sections.keys, k.length < MaxUint32) :
    ∀ (idx : List Nat) (seen : List Prefix) (c : Choice),
      Chosen n dflt seen c →
      ∃ cands c1, candidatePrefixes n r idx = .ok cands ∧
        neighbourSearch n r idx c = .ok c1 ∧ Chosen n dflt (seen ++ cands) c1 := by
  intro idx
  induction idx with
  | nil =>
    intro seen c hinv
    exact ⟨[], c, rfl, rfl, by simpa using hinv⟩
  | cons i idx ih =>
    intro seen c hinv
    obtain ⟨ps, hps, hkeys⟩ := getMatchingPrefixes_keys n (neighbourPrefix r.Prefix i)
    obtain ⟨c1, hc1, hinv1⟩ := considerPrefixes_chosen n dflt ps seen c
      (fun p hp => ⟨hkeys p hp, hk _ (hkeys p hp)⟩) hinv
    obtain ⟨qs, c2, hqs, hc2, hinv2⟩ := ih (seen ++ ps) c1 hinv1
    refine ⟨ps ++ qs, c2, ?_, ?_, by simpa using hinv2⟩
    · simp only [candidatePrefixes, hps, hqs]
    · simp only [neighbourSearch, hps, hc1]
      exact hc2

/-- Under prefix-free keys of at most 256 bits, the descendant search returns
every key that strictly extends the prefix searched. -/
theorem getChildPrefixesFuel_complete (n : Network) (hpf : PrefixFree n.Sections)
    (hlen : ∀ k ∈ n.Sections.keys, k.length ≤ 256) :
    ∀ (fuel : Nat) (pfx : Prefix) (l : List Prefix),
      getChildPrefixesFuel n fuel pfx = .ok l →
      ∀ k ∈ n.Sections.keys, pfx.bits <+: k → pfx.bits ≠ k → (⟨k⟩ : Prefix) ∈ l := by
  intro fuel
  induction fuel with
  | zero => intro pfx l h; simp [getChildPrefixesFuel] at h
  | succ fuel ih =>
    intro pfx l h k hk hpre hne
    rw [getChildPrefixesFuel_succ] at h
    obtain ⟨t, ht⟩ := hpre
    have hchild : ∃ b rest, k = pfx.bits ++ [b] ++ rest := by
      cases t with
      | nil => rw [List.append_nil] at ht; exact absurd ht hne
      | cons b rest => exact ⟨b, rest, by rw [← ht]; simp⟩
    obtain ⟨b, rest, hkb⟩ := hchild
    have hcpre : pfx.bits ++ [b] <+: k := ⟨rest, hkb.symm⟩
    have hL : pfx.extendLeft.bits = pfx.bits ++ [false] := rfl
    have hR : pfx.extendRight.bits = pfx.bits ++ [true] := rfl
    -- a child that is a key and a leading prefix of `k` is `k`
    have hkeyEq : ∀ c : Prefix, (n.Sections.get c.Key).isSome = true → c.bits <+: k →
        c = ⟨k⟩ := by
      intro c hc hck
      have := hpf c.bits ((SectionMap.get_isSome_iff _ _).mp hc) k hk hck
      cases c; simp only at this; rw [this]
    -- below a child that is not a key, the search of the child finds `k`
    have hrec : ∀ (c : Prefix) (lc : List Prefix),
        ¬ (n.Sections.get c.Key).isSome = true → c.bits <+: k →
        getChildPrefixesFuel n fuel c = .ok lc → (⟨k⟩ : Prefix) ∈ lc := by
      intro c lc hc hck hlc
      refine ih c lc hlc k hk hck ?_
      intro he
      apply hc
      rw [(SectionMap.get_isSome_iff _ _)]
      show c.bits ∈ _
      rw [he]; exact hk
    have hLk : b = false → pfx.extendLeft.bits <+: k := by
      intro hb; rw [hL, ← hb]; exact hcpre
    have hRk : b = true → pfx.extendRight.bits <+: k := by
      intro hb; rw [hR, ← hb]; exact hcpre
    by_cases h1 : (n.Sections.get pfx.extendLeft.Key).isSome = true
    · by_cases h2 : (n.Sections.get pfx.extendRight.Key).isSome = true
      · rw [if_pos ⟨h1, h2⟩] at h
        cases h
        cases b
        · rw [← hkeyEq _ h1 (hLk rfl)]; simp
        · rw [← hkeyEq _ h2 (hRk rfl)]; simp
      · rw [if_neg (fun hc => h2 hc.2), if_pos h1] at h
        cases hr : getChildPrefixesFuel n fuel pfx.extendRight with
        | error e => rw [hr] at h; cases h
        | ok rs =>
          rw [hr] at h
          cases h
          cases b
          · rw [← hkeyEq _ h1 (hLk rfl)]; simp
          · exact List.mem_cons_of_mem _ (hrec _ _ h2 (hRk rfl) hr)
    · rw [if_neg (fun hc => h1 hc.1), if_neg h1] at h
      by_cases h2 : (n.Sections.get pfx.extendRight.Key).isSome = true
      · rw [if_pos h2] at h
        cases hr : getChildPrefixesFuel n fuel pfx.extendLeft with
        | error e => rw [hr] at h; cases h
        | ok ls =>
          rw [hr] at h
          cases h
          cases b
          · exact List.mem_cons_of_mem _ (hrec _ _ h1 (hLk rfl) hr)
          · rw [← hkeyEq _ h2 (hRk rfl)]; simp
      · rw [if_neg h2] at h
        by_cases h3 : pfx.bits.length < 256
        · rw [if_pos h3] at h
          cases hr1 : getChildPrefixesFuel n fuel pfx.extendLeft with
          | error e => rw [hr1] at h; cases h
          | ok ls =>
            cases hr2 : getChildPrefixesFuel n fuel pfx.extendRight with
            | error e => rw [hr1, hr2] at h; cases h
            | ok rs =>
              rw [hr1, hr2] at h
              cases h
              cases b
              · exact List.mem_append_left _ (hrec _ _ h1 (hLk rfl) hr1)
              · exact List.mem_append_right _ (hrec _ _ h2 (hRk rfl) hr2)
        · exfalso
          have := hlen k hk
          rw [hkb] at this
          simp only [List.length_append, List.length_singleton] at this
          omega

/-- The descendant search returns no prefix twice. -/
theorem getChildPrefixesFuel_nodup (n : Network) :
    ∀ (fuel : Nat) (pfx : Prefix) (l : List Prefix),
      getChildPrefixesFuel n fuel pfx = .ok l → l.Nodup := by
  intro fuel
  induction fuel with
  | zero => intro pfx l h; simp [getChildPrefixesFuel] at h
  | succ fuel ih =>
    intro pfx l h
    rw [getChildPrefixesFuel_succ] at h
    have hLR : pfx.extendLeft ≠ pfx.extendRight := by
      simp [Prefix.extendLeft, Prefix.extendRight]
    -- a strict extension of one child is not the other child
    have hother : ∀ (c d q : Prefix), c.bits.length = d.bits.length →
        c.bits <+: q.bits → c.bits ≠ q.bits → q ≠ d := by
      intro c d q hl hpre hne he
      rw [he] at hpre hne
      exact hne (hpre.eq_of_length hl)
    have hlenLR : pfx.extendLeft.bits.length = pfx.extendRight.bits.length := by
      rw [extendLeft_length, extendRight_length]
    by_cases h1 : (n.Sections.get pfx.extendLeft.Key).isSome = true
    · by_cases h2 : (n.Sections.get pfx.extendRight.Key).isSome = true
      · rw [if_pos ⟨h1, h2⟩] at h
        cases h
        simp [hLR]
      · rw [if_neg (fun hc => h2 hc.2), if_pos h1] at h
        cases hr : getChildPrefixesFuel n fuel pfx.extendRight with
        | error e => rw [hr] at h; cases h
        | ok rs =>
          rw [hr] at h
          cases h
          refine List.nodup_cons.mpr ⟨?_, ih _ _ hr⟩
          intro hmem
          have := getChildPrefixesFuel_sound n _ _ _ hr _ hmem
          exact hother _ _ _ hlenLR.symm this.2.1 this.2.2 rfl
    · rw [if_neg (fun hc => h1 hc.1), if_neg h1] at h
      by_cases h2 : (n.Sections.get pfx.extendRight.Key).isSome = true
      · rw [if_pos h2] at h
        cases hr : getChildPrefixesFuel n fuel pfx.extendLeft with
        | error e => rw [hr] at h; cases h
        | ok ls =>
          rw [hr] at h
          cases h
          refine List.nodup_cons.mpr ⟨?_, ih _ _ hr⟩
          intro hmem
          have := getChildPrefixesFuel_sound n _ _ _ hr _ hmem
          exact hother _ _ _ hlenLR this.2.1 this.2.2 rfl
      · rw [if_neg h2] at h
        by_cases h3 : pfx.bits.length < 256
        · rw [if_pos h3] at h
          cases hr1 : getChildPrefixesFuel n fuel pfx.extendLeft with
          | error e => rw [hr1] at h; cases h
          | ok ls =>
            cases hr2 : getChildPrefixesFuel n fuel pfx.extendRight with
            | error e => rw [hr1, hr2] at h; cases h
            | ok rs =>
              rw [hr1, hr2] at h
              cases h
              refine List.nodup_append.mpr ⟨ih _ _ hr1, ih _ _ hr2, ?_⟩
              intro q hq1 hq2
              have s1 := getChildPrefixesFuel_sound n _ _ _ hr1 _ hq1
              have s2 := getChildPrefixesFuel_sound n _ _ _ hr2 _ hq2
              have := prefix_eq_of_length s1.2.1 s2.2.1 hlenLR
              apply hLR
              cases hl : pfx.extendLeft
              cases hrr : pfx.extendRight
              rw [hl, hrr] at this
              simp only at this
              rw [this]
        · rw [if_neg h3] at h
          cases h
          exact List.nodup_nil

/-- The merge loop over distinct keys of the map completes: it deletes those
keys and appends the members of their sections. -/
theorem mergeChildren_spec :
    ∀ (cps : List Prefix) (m : SectionMap) (pv : List Vault),
      (cps.map Prefix.Key).Nodup → (∀ c ∈ cps, c.Key ∈ m.keys) →
      ∃ m', mergeChildren cps m pv
          = .ok (m', pv ++ (cps.map Prefix.Key).flatMap (vaultsAt m)) ∧
        (∀ k, m'.get k = if k ∈ cps.map Prefix.Key then none else m.get k) ∧
        (m.keys.Nodup → m'.keys.Nodup) := by
  intro cps
  induction cps with
  | nil => intro m pv _ _; exact ⟨m, by simp [mergeChildren], by simp, id⟩
  | cons c rest ih =>
    intro m pv hnd hkeys
    simp only [List.map_cons, List.nodup_cons] at hnd
    obtain ⟨child, hchild⟩ : ∃ child, m.get c.Key = some child :=
      Option.isSome_iff_exists.mp
        ((SectionMap.get_isSome_iff _ _).mpr (hkeys c (List.mem_cons_self _ _)))
    have hrestkeys : ∀ c' ∈ rest, c'.Key ∈ (m.delete c.Key).keys := by
      intro c' hc'
      rw [SectionMap.mem_keys_delete]
      refine ⟨hkeys c' (List.mem_cons_of_mem _ hc'), ?_⟩
      intro he
      exact hnd.1 (by rw [← he]; exact List.mem_map_of_mem _ hc')
    obtain ⟨m', hrun, hget, hnd'⟩ := ih (m.delete c.Key) (pv ++ child.Vaults) hnd.2 hrestkeys
    refine ⟨m', ?_, ?_, ?_⟩
    · simp only [mergeChildren, hchild, hrun, List.map_cons, List.flatMap_cons]
      have h1 : vaultsAt m c.Key = child.Vaults := by simp [vaultsAt, hchild]
      have h2 : (rest.map Prefix.Key).flatMap (vaultsAt (m.delete c.Key))
          = (rest.map Prefix.Key).flatMap (vaultsAt m) := by
        simp only [List.flatMap]
        congr 1
        apply List.map_congr_left
        intro k hk
        have hne : ¬ c.Key = k := by
          intro he; rw [← he] at hk; exact hnd.1 hk
        simp only [vaultsAt, SectionMap.get_delete, if_neg hne]
      rw [h1, h2, List.append_assoc]
    · intro k
      rw [hget, SectionMap.get_delete]
      by_cases hk : c.Key = k
      · subst hk
        simp
      · have hk2 : ¬ k = c.Key := fun he => hk he.symm
        simp only [List.map_cons, List.mem_cons, hk, hk2, false_or, if_false]
    · intro h
      exact hnd' (SectionMap.nodup_delete _ _ h)

theorem parent_concat (p : List Bool) (b : Bool) :
    (⟨p ++ [b]⟩ : Prefix).parent = .ok ⟨p⟩ := by
  simp [Prefix.parent]

theorem sibling_concat (p : List Bool) (b : Bool) :
    (⟨p ++ [b]⟩ : Prefix).sibling = .ok ⟨p ++ [!b]⟩ := by
  simp [Prefix.sibling]

/-- The merge of `RemoveVault` in a partitioned map, for the section under the
key `p ++ [b]`: the sections gathered are those under the keys that extend the
sibling `p ++ [!b]`, every key that extends the parent `p` is deleted, and the
parent is created from the members gathered. -/
theorem mergeSection_spec (ops : SectionOps) (n2 : Network) (s1 : Section) (v : Vault)
    (p : List Bool) (b : Bool) (hv : v.Prefix.bits = p ++ [b]) (hs1 : s1.Prefix = v.Prefix)
    (hnd : n2.Sections.keys.Nodup) (hpart : Partitions n2.Sections)
    (hkey : v.Prefix.Key ∈ n2.Sections.keys) :
    ∃ (D : List Key) (m4 : SectionMap), D.Nodup ∧
      (∀ k, k ∈ D ↔ k ∈ n2.Sections.keys ∧ (p ++ [!b]) <+: k) ∧
      m4.keys.Nodup ∧
      (∀ k, m4.get k = if p <+: k then none else n2.Sections.get k) ∧
      mergeSection ops n2 s1 v
        = (match ops.newSection ⟨p⟩ (s1.Vaults ++ D.flatMap (vaultsAt n2.Sections)) with
           | .error e => .error e
           | .ok none => .ok { n2 with TotalMerges := wrapInt (n2.TotalMerges + 1), Sections := m4 }
           | .ok (some ne) =>
             .ok { n2 with
                   TotalMerges := wrapInt (n2.TotalMerges + 1)
                   Sections := storeSections m4 ne.NewSections }) := by
  have hvp : v.Prefix = ⟨p ++ [b]⟩ := by
    cases hvv : v.Prefix
    rw [hvv] at hv
    simp only at hv
    rw [hv]
  have hkey2 : p ++ [b] ∈ n2.Sections.keys := by
    rw [hvp] at hkey; exact hkey
  have hpf := hpart.keysPrefixFree
  -- the sections gathered
  have hgather : ∃ (D : List Key) (m3 : SectionMap), D.Nodup ∧
      (∀ k, k ∈ D ↔ k ∈ n2.Sections.keys ∧ (p ++ [!b]) <+: k) ∧ m3.keys.Nodup ∧
      (∀ k, m3.get k = if k ∈ D then none else n2.Sections.get k) ∧
      (match n2.Sections.get (p ++ [!b]) with
        | some sib => (Except.ok (n2.Sections.delete (p ++ [!b]), s1.Vaults ++ sib.Vaults) :
            Except Fault (SectionMap × List Vault))
        | none =>
          match getChildPrefixes { n2 with TotalMerges := wrapInt (n2.TotalMerges + 1) }
              ⟨p ++ [!b]⟩ with
          | .error e => .error e
          | .ok childPrefixes => mergeChildren childPrefixes n2.Sections s1.Vaults)
        = .ok (m3, s1.Vaults ++ D.flatMap (vaultsAt n2.Sections)) := by
    cases hsib : n2.Sections.get (p ++ [!b]) with
    | some sib =>
      have hsk : p ++ [!b] ∈ n2.Sections.keys := by
        rw [← SectionMap.get_isSome_iff, hsib]; rfl
      refine ⟨[p ++ [!b]], n2.Sections.delete (p ++ [!b]), by simp, ?_,
        SectionMap.nodup_delete _ _ hnd, ?_, ?_⟩
      · intro k
        simp only [List.mem_singleton]
        constructor
        · intro hk; rw [hk]; exact ⟨hsk, List.prefix_rfl⟩
        · rintro ⟨hk, hpre⟩
          exact (hpf _ hsk _ hk hpre).symm
      · intro k
        rw [SectionMap.get_delete]
        by_cases hk : p ++ [!b] = k
        · simp [hk]
        · have hk2 : ¬ k = p ++ [!b] := fun he => hk he.symm
          simp [hk, hk2]
      · simp [vaultsAt, hsib]
    | none =>
      have hnk : p ++ [!b] ∉ n2.Sections.keys := (SectionMap.get_eq_none_iff _ _).mp hsib
      obtain ⟨cps, hcps⟩ := getChildPrefixes_total
        { n2 with TotalMerges := wrapInt (n2.TotalMerges + 1) } ⟨p ++ [!b]⟩
      have hsound := getChildPrefixesFuel_sound _ _ _ _ hcps
      have hcomplete := getChildPrefixesFuel_complete
        { n2 with TotalMerges := wrapInt (n2.TotalMerges + 1) } hpf hpart.1 _ _ _ hcps
      have hnodup := getChildPrefixesFuel_nodup _ _ _ _ hcps
      have hinj : Function.Injective Prefix.Key := by
        intro a c hac
        cases a; cases c
        simp only [Prefix.Key] at hac
        rw [hac]
      have hDnd : (cps.map Prefix.Key).Nodup := List.Nodup.map hinj hnodup
      obtain ⟨m3, hrun, hget, hnd3⟩ := mergeChildren_spec cps n2.Sections s1.Vaults hDnd
        (fun c hc => (hsound c hc).1)
      refine ⟨cps.map Prefix.Key, m3, hDnd, ?_, hnd3 hnd, hget, ?_⟩
      · intro k
        constructor
        · intro hk
          obtain ⟨c, hc, hck⟩ := List.mem_map.mp hk
          have := hsound c hc
          rw [← hck]
          exact ⟨this.1, this.2.1⟩
        · rintro ⟨hk, hpre⟩
          have hne : (p ++ [!b]) ≠ k := by
            intro he; rw [← he] at hk; exact hnk hk
          have := hcomplete k hk hpre hne
          exact List.mem_map.mpr ⟨⟨k⟩, this, rfl⟩
      · simp only [hcps, hrun]
  obtain ⟨D, m3, hDnd, hDmem, hnd3, hget3, hgeq⟩ := hgather
  refine ⟨D, m3.delete (p ++ [b]), hDnd, hDmem, SectionMap.nodup_delete _ _ hnd3, ?_, ?_⟩
  · intro k
    rw [SectionMap.get_delete, hget3]
    have hpkey : p <+: p ++ [b] := List.prefix_append _ _
    by_cases hpk : p <+: k
    · rw [if_pos hpk]
      by_cases h1 : p ++ [b] = k
      · rw [if_pos h1]
      · rw [if_neg h1]
        by_cases h2 : k ∈ D
        · rw [if_pos h2]
        · rw [if_neg h2]
          rw [SectionMap.get_eq_none_iff]
          intro hk
          obtain ⟨t, ht⟩ := hpk
          cases t with
          | nil =>
            rw [List.append_nil] at ht
            have := hpf _ hk _ hkey2 (by rw [← ht]; exact hpkey)
            rw [← ht] at this
            have hl := congrArg List.length this
            simp at hl
          | cons c rest =>
            by_cases hc : c = b
            · apply h1
              have hpre : p ++ [b] <+: k := ⟨rest, by rw [← ht, ← hc]; simp⟩
              exact hpf _ hkey2 _ hk hpre
            · apply h2
              rw [hDmem]
              refine ⟨hk, ⟨rest, ?_⟩⟩
              have hcb : c = !b := by
                cases c <;> cases b <;> simp at hc ⊢
              rw [← ht, hcb]; simp
    · rw [if_neg hpk]
      have h1 : ¬ p ++ [b] = k := by
        intro he; rw [← he] at hpk; exact hpk hpkey
      have h2 : ¬ k ∈ D := by
        intro hk
        have := ((hDmem k).mp hk).2
        exact hpk ((List.prefix_append _ _).trans this)
      rw [if_neg h1, if_neg h2]
  · unfold mergeSection
    rw [hs1, hvp]
    simp only [parent_concat, sibling_concat]
    have hk1 : (⟨p ++ [!b]⟩ : Prefix).Key = p ++ [!b] := rfl
    have hk2 : (⟨p ++ [b]⟩ : Prefix).Key = p ++ [b] := rfl
    rw [hk1, hk2, hgeq]

/-- The members gathered over a duplicate-free list of exactly the keys that
extend `q` are the members of the sections under `q`, up to order. -/
theorem flatMap_vaultsAt_perm (m : SectionMap) (hnd : m.keys.Nodup) (q : Key)
    (D : List Key) (hD : D.Nodup) (hmem : ∀ k, k ∈ D ↔ k ∈ m.keys ∧ q <+: k) :
    List.Perm (D.flatMap (vaultsAt m)) (membersUnder m q) := by
  have hF : membersUnder m q
      = ((m.filter (fun e => decide (q <+: e.1))).map Prod.fst).flatMap (vaultsAt m) := by
    unfold membersUnder
    rw [List.flatMap_map]
    apply List.flatMap_congr
    intro e he
    have hem : e ∈ m := (List.mem_filter.mp he).1
    obtain ⟨k, sec⟩ := e
    simp only [vaultsAt, SectionMap.get_of_mem m hnd k sec hem]
  rw [hF]
  apply List.Perm.flatMap_right
  have hnd2 : ((m.filter (fun e => decide (q <+: e.1))).map Prod.fst).Nodup := by
    have : ((m.filter (fun e => decide (q <+: e.1))).map Prod.fst).Sublist m.keys :=
      List.Sublist.map _ (List.filter_sublist _)
    exact List.Nodup.sublist this hnd
  rw [List.perm_ext_iff_of_nodup hD hnd2]
  intro k
  rw [hmem]
  constructor
  · rintro ⟨hk, hq⟩
    obtain ⟨e, he, hek⟩ := List.mem_map.mp hk
    exact List.mem_map.mpr ⟨e, List.mem_filter.mpr ⟨he, by simp [hek, hq]⟩, hek⟩
  · intro hk
    obtain ⟨e, he, hek⟩ := List.mem_map.mp hk
    have := List.mem_filter.mp he
    refine ⟨List.mem_map.mpr ⟨e, this.1, hek⟩, ?_⟩
    have h2 := this.2
    simp only [decide_eq_true_eq] at h2
    rw [← hek]; exact h2

/-- The spec's `newSection` for at most `SplitSize` vaults creates one section. -/
theorem newSection_single (p : Prefix) (vs : List Vault) (h : vs.length ≤ SplitSize) :
    Section.newSection p vs
      = .ok (some { NewSections := [⟨p, vs.map (fun u => u.SetPrefix p)⟩]
                    VaultToRelocate := none }) := by
  unfold Section.newSection
  have : ¬ (vs.map (fun u => u.SetPrefix p)).length > SplitSize := by
    rw [List.length_map]; omega
  simp only [if_neg this]

end Network

/-! ## The invariant of a populated network -/

theorem Prefix.key_injective {a c : Prefix} (h : a.Key = c.Key) : a = c := by
  cases a; cases c
  simp only [Prefix.Key] at h
  rw [h]

/-- The map that holds the root section only. -/
theorem MapInv.rootOnly (s : Section) (hp : s.Prefix = NewBlankPrefix)
    (hn : ∀ u ∈ s.Vaults, u.Name.bits.length = 256) : MapInv [([], s)] := by
  refine ⟨by simp [SectionMap.keys], ?_, ?_⟩
  · exact PartitionKeys.congr (fun k => by simp [SectionMap.keys]) PartitionKeys.root
  · intro k s' h
    by_cases hk : ([] : Key) = k
    · simp only [SectionMap.get, if_pos hk] at h
      cases h
      exact ⟨by rw [hp, ← hk]; rfl, hn⟩
    · simp [SectionMap.get, hk] at h

/-- Writing a section back under its key, with the same prefix and 256-bit
members, keeps the invariant. -/
theorem MapInv.set {m : SectionMap} (h : MapInv m) (k : Key) (s s1 : Section)
    (hget : m.get k = some s) (hp : s1.Prefix = s.Prefix)
    (hn : ∀ u ∈ s1.Vaults, u.Name.bits.length = 256) : MapInv (m.set k s1) := by
  obtain ⟨hnd, hpart, hst⟩ := h
  have hkmem : k ∈ m.keys := by rw [← SectionMap.get_isSome_iff, hget]; rfl
  refine ⟨SectionMap.nodup_set _ _ _ hnd, ?_, ?_⟩
  · refine PartitionKeys.congr (fun k' => ?_) hpart
    rw [SectionMap.mem_keys_set]
    constructor
    · intro h; exact Or.inr h
    · rintro (h | h)
      · rw [h]; exact hkmem
      · exact h
  · intro k' s' h'
    rw [SectionMap.get_set] at h'
    by_cases hk : k = k'
    · rw [if_pos hk] at h'
      cases h'
      exact ⟨by rw [hp, ← hk]; exact (hst k s hget).1, hn⟩
    · rw [if_neg hk] at h'
      exact hst k' s' h'

namespace Network

/-- A split of a non-empty member list reads a bit of some member at the
depth of the split. -/
theorem splitMembers_depth (depth : Nat) (left right : Prefix) (v : Vault) (vs : List Vault)
    (r : List Vault × List Vault)
    (h : Section.splitMembers depth left right (v :: vs) = .ok r) :
    depth < v.Name.bits.length := by
  simp only [Section.splitMembers] at h
  cases hb : v.Name.bits[depth]? with
  | none => rw [hb] at h; cases h
  | some b =>
    by_contra hlt
    have : v.Name.bits[depth]? = none := List.getElem?_eq_none (by omega)
    rw [this] at hb; cases hb

/-- The members of the two parts of a split carry the identifiers of members
of the section split. -/
theorem splitMembers_names (depth : Nat) (left right : Prefix) :
    ∀ (vs ls rs : List Vault),
      Section.splitMembers depth left right vs = .ok (ls, rs) →
      ∀ u, u ∈ ls ∨ u ∈ rs → ∃ u0 ∈ vs, u.Name = u0.Name := by
  intro vs
  induction vs with
  | nil =>
    intro ls rs h u hu
    simp only [Section.splitMembers, Except.ok.injEq, Prod.mk.injEq] at h
    obtain ⟨h1, h2⟩ := h
    subst h1; subst h2
    rcases hu with hu | hu <;> cases hu
  | cons v vs ih =>
    intro ls rs h u hu
    simp only [Section.splitMembers] at h
    cases hb : v.Name.bits[depth]? with
    | none => rw [hb] at h; cases h
    | some b =>
      rw [hb] at h
      simp only at h
      cases hrec : Section.splitMembers depth left right vs with
      | error e => rw [hrec] at h; cases h
      | ok lr =>
        obtain ⟨l0, r0⟩ := lr
        rw [hrec] at h
        simp only at h
        have hrest : ∀ u, u ∈ l0 ∨ u ∈ r0 → ∃ u0 ∈ v :: vs, u.Name = u0.Name := by
          intro u hu
          obtain ⟨u0, hu0, he⟩ := ih l0 r0 hrec u hu
          exact ⟨u0, List.mem_cons_of_mem _ hu0, he⟩
        by_cases hbf : b = false
        · rw [if_pos hbf] at h
          simp only [Except.ok.injEq, Prod.mk.injEq] at h
          obtain ⟨h1, h2⟩ := h
          subst h1; subst h2
          rcases hu with hu | hu
          · rcases List.mem_cons.mp hu with hu | hu
            · exact ⟨v, List.mem_cons_self _ _, by rw [hu]; rfl⟩
            · exact hrest u (Or.inl hu)
          · exact hrest u (Or.inr hu)
        · rw [if_neg hbf] at h
          simp only [Except.ok.injEq, Prod.mk.injEq] at h
          obtain ⟨h1, h2⟩ := h
          subst h1; subst h2
          rcases hu with hu | hu
          · exact hrest u (Or.inl hu)
          · rcases List.mem_cons.mp hu with hu | hu
            · exact ⟨v, List.mem_cons_self _ _, by rw [hu]; rfl⟩
            · exact hrest u (Or.inr hu)

/-- Storing the two children of a split in place of the prefixes `K` that
extend `p`: the invariant of the resulting map, from the facts about the map
`m4` the children are stored into. -/
theorem mapInv_children (m4 : SectionMap) (K : Key → Prop) (p : List Bool)
    (hpK : PartitionKeys (fun k => (K k ∧ ¬ p <+: k) ∨ k = p))
    (hplen : p.length < 256)
    (hnd4 : m4.keys.Nodup)
    (hkeys4 : ∀ k, k ∈ m4.keys ↔ K k ∧ ¬ p <+: k)
    (hst4 : ∀ k s, m4.get k = some s →
      s.Prefix.Key = k ∧ ∀ u ∈ s.Vaults, u.Name.bits.length = 256)
    (ls rs : List Vault)
    (hn : ∀ u, u ∈ ls ∨ u ∈ rs → u.Name.bits.length = 256) :
    MapInv (storeSections m4 [⟨⟨p ++ [false]⟩, ls⟩, ⟨⟨p ++ [true]⟩, rs⟩]) := by
  have hk0 : (⟨p ++ [false]⟩ : Prefix).Key = p ++ [false] := rfl
  have hk1 : (⟨p ++ [true]⟩ : Prefix).Key = p ++ [true] := rfl
  simp only [storeSections, hk0, hk1]
  refine ⟨SectionMap.nodup_set _ _ _ (SectionMap.nodup_set _ _ _ hnd4), ?_, ?_⟩
  · refine PartitionKeys.congr (fun k => ?_) (hpK.split p (Or.inr rfl) hplen)
    rw [SectionMap.mem_keys_set, SectionMap.mem_keys_set, hkeys4]
    constructor
    · rintro (⟨h | h, hne⟩ | h | h)
      · exact Or.inr (Or.inr h)
      · exact absurd h hne
      · exact Or.inr (Or.inl h)
      · exact Or.inl h
    · rintro (h | h | h)
      · exact Or.inr (Or.inr h)
      · exact Or.inr (Or.inl h)
      · refine Or.inl ⟨Or.inl h, ?_⟩
        intro he
        exact h.2 (by rw [he])
  · intro k s h
    rw [SectionMap.get_set] at h
    by_cases h1 : p ++ [true] = k
    · rw [if_pos h1] at h
      cases h
      exact ⟨h1, fun u hu => hn u (Or.inr hu)⟩
    · rw [if_neg h1, SectionMap.get_set] at h
      by_cases h0 : p ++ [false] = k
      · rw [if_pos h0] at h
        cases h
        exact ⟨h0, fun u hu => hn u (Or.inl hu)⟩
      · rw [if_neg h0] at h
        exact hst4 k s h

end Network

/-- The invariant reads the map through `get` only. -/
theorem MapInv.of_get_eq {m m' : SectionMap} (h : MapInv m) (hnd : m'.keys.Nodup)
    (heq : ∀ k, m'.get k = m.get k) : MapInv m' := by
  refine ⟨hnd, ?_, ?_⟩
  · refine PartitionKeys.congr (fun k => ?_) h.2.1
    rw [← SectionMap.get_isSome_iff, ← SectionMap.get_isSome_iff, heq]
  · intro k s hs
    rw [heq] at hs
    exact h.2.2 k s hs

/-- The members found under a key of a map with the invariant have 256-bit
identifiers. -/
theorem MapInv.vaultsAt_names {m : SectionMap} (h : MapInv m) (k : Key) :
    ∀ u ∈ vaultsAt m k, u.Name.bits.length = 256 := by
  intro u hu
  unfold vaultsAt at hu
  cases hg : m.get k with
  | none => rw [hg] at hu; cases hu
  | some s => rw [hg] at hu; exact (h.2.2 k s hg).2 u hu

namespace Network

/-- `SetBit` keeps the number of bits. -/
theorem renameLoop_length :
    ∀ (bs : List Bool) (i : Nat) (x x' : XorName),
      renameLoop bs i x = .ok x' → x'.bits.length = x.bits.length := by
  intro bs
  induction bs with
  | nil => intro i x x' h; simp only [renameLoop, Except.ok.injEq] at h; rw [h]
  | cons b bs ih =>
    intro i x x' h
    simp only [renameLoop] at h
    cases hs : x.SetBit i b with
    | error e => rw [hs] at h; cases h
    | ok x1 =>
      rw [hs] at h
      simp only at h
      have h1 := ih _ _ _ h
      unfold XorName.SetBit at hs
      by_cases hi : i < x.bits.length
      · rw [if_pos hi] at hs
        simp only [Except.ok.injEq] at hs
        rw [h1, ← hs]
        simp
      · rw [if_neg hi] at hs; cases hs

/-- Lines 40-53 of `AddVault` from the empty network or a network with the
invariant: a section is found or created, and the invariant holds. -/
theorem locateSection_inv (pol : Policy) (n n1 : Network) (v : Vault)
    (o : Option (Key × Section))
    (hgood : n.Sections = [] ∨ n.Inv) (hv : v.Name.bits.length = 256)
    (hloc : locateSection (specOps pol) n v = .ok (n1, o)) :
    ∃ k sec, o = some (k, sec) ∧ n1.Inv ∧ n1.Sections.get k = some sec := by
  unfold locateSection at hloc
  simp only at hloc
  have hsame : getPrefixForXorname { n with TotalJoins := wrapInt (n.TotalJoins + 1) } v.Name
      = getPrefixForXorname n v.Name :=
    getPrefixForXorname_congr _ _ _ rfl
  rw [hsame] at hloc
  cases hget : n.Sections.get (getPrefixForXorname n v.Name).Key with
  | some s0 =>
    rw [hget] at hloc
    simp only [Except.ok.injEq, Prod.mk.injEq] at hloc
    obtain ⟨hn, ho⟩ := hloc
    subst hn; subst ho
    refine ⟨_, _, rfl, ?_, hget⟩
    rcases hgood with h | h
    · rw [h] at hget; simp [SectionMap.get] at hget
    · exact h
  | none =>
    rw [hget] at hloc
    have hns : (specOps pol).newSection NewBlankPrefix [] = .ok (some
        { NewSections := [⟨NewBlankPrefix, []⟩], VaultToRelocate := none }) :=
      newSection_blank
    rw [hns] at hloc
    simp only [storeSections, List.getLast?_singleton, Option.map_some',
      Except.ok.injEq, Prod.mk.injEq] at hloc
    obtain ⟨hn, ho⟩ := hloc
    subst hn; subst ho
    rcases hgood with h | h
    · refine ⟨_, _, rfl, ?_, ?_⟩
      · show MapInv (n.Sections.set _ _)
        rw [h]
        exact MapInv.rootOnly _ rfl (fun u hu => by cases hu)
      · show (n.Sections.set _ _).get _ = _
        rw [SectionMap.get_set, if_pos rfl]
    · exfalso
      obtain ⟨j, hj, hjs⟩ := h.2.1.covers v.Name.bits hv
      have := (getPrefixForXorname_shortest n v.Name ⟨j, by rw [hv]; exact hj, hjs⟩).1
      rw [hget] at this
      cases this

end Network

namespace Network

/-- The split handling of `AddVault` keeps the invariant: the section `s1`
(stored under `k`, with at least one member) is replaced by its children. -/
theorem applySplit_inv (m : SectionMap) (h : MapInv m) (k : Key) (s s1 : Section)
    (e : NetworkEvent) (hget : m.get k = some s) (hp : s1.Prefix = s.Prefix)
    (hn : ∀ u ∈ s1.Vaults, u.Name.bits.length = 256) (hne : s1.Vaults ≠ [])
    (hsplit : Section.split s1 = .ok e) :
    MapInv ((storeSections (m.set k s1) e.NewSections).delete s1.Prefix.Key) := by
  obtain ⟨hnd, hpart, hst⟩ := h
  have hk : s1.Prefix.Key = k := by rw [hp]; exact (hst k s hget).1
  have hkb : s1.Prefix.bits = k := hk
  have hkmem : k ∈ m.keys := by rw [← SectionMap.get_isSome_iff, hget]; rfl
  obtain ⟨ls, rs, he, hsm, _⟩ := split_eq s1 e hsplit
  have hdepth : k.length < 256 := by
    cases hvs : s1.Vaults with
    | nil => exact absurd hvs hne
    | cons u rest =>
      rw [hvs] at hsm
      have := splitMembers_depth _ _ _ _ _ _ hsm
      rw [hn u (by rw [hvs]; exact List.mem_cons_self _ _), hkb] at this
      exact this
  have hnames : ∀ u, u ∈ ls ∨ u ∈ rs → u.Name.bits.length = 256 := by
    intro u hu
    obtain ⟨u0, hu0, hne0⟩ := splitMembers_names _ _ _ _ _ _ hsm u hu
    rw [hne0]; exact hn u0 hu0
  have hL : s1.Prefix.extendLeft = ⟨k ++ [false]⟩ := by
    simp only [Prefix.extendLeft, hkb]
  have hR : s1.Prefix.extendRight = ⟨k ++ [true]⟩ := by
    simp only [Prefix.extendRight, hkb]
  have hpf := Partitions.keysPrefixFree hpart
  have hbase : MapInv (storeSections (m.delete k)
      [⟨⟨k ++ [false]⟩, ls⟩, ⟨⟨k ++ [true]⟩, rs⟩]) := by
    refine mapInv_children (m.delete k) (fun k' => k' ∈ m.keys) k ?_ hdepth
      (SectionMap.nodup_delete _ _ hnd) ?_ ?_ ls rs hnames
    · refine PartitionKeys.congr (fun k' => ?_) hpart
      constructor
      · intro h'
        by_cases hkk : k <+: k'
        · exact Or.inr (hpf k hkmem k' h' hkk).symm
        · exact Or.inl ⟨h', hkk⟩
      · rintro (h' | h')
        · exact h'.1
        · rw [h']; exact hkmem
    · intro k'
      rw [SectionMap.mem_keys_delete]
      constructor
      · rintro ⟨h1, h2⟩
        exact ⟨h1, fun hkk => h2 (hpf k hkmem k' h1 hkk).symm⟩
      · rintro ⟨h1, h2⟩
        exact ⟨h1, fun he => h2 (by rw [he])⟩
    · intro k' s' hs'
      rw [SectionMap.get_delete] at hs'
      by_cases hkk : k = k'
      · rw [if_pos hkk] at hs'; cases hs'
      · rw [if_neg hkk] at hs'; exact hst k' s' hs'
  rw [he]
  simp only [hL, hR]
  refine hbase.of_get_eq
    (SectionMap.nodup_delete _ _ (nodup_storeSections _ _ (SectionMap.nodup_set _ _ _ hnd))) ?_
  intro k'
  rw [SectionMap.get_delete, hk]
  by_cases hkk : k = k'
  · rw [if_pos hkk]
    subst hkk
    rw [storeSections_get_other, SectionMap.get_delete, if_pos rfl]
    intro t ht
    simp only [List.mem_cons, List.mem_singleton, List.not_mem_nil, or_false] at ht
    rcases ht with ht | ht <;> subst ht <;> simp [Prefix.Key]
  · rw [if_neg hkk]
    apply storeSections_get_congr
    rw [SectionMap.get_set, SectionMap.get_delete, if_neg hkk, if_neg hkk]

/-- `AddVault` under the spec's Section operations, from the empty network or
a network with the invariant, ends in a network with the invariant. -/
theorem AddVaultWith_inv (pol : Policy) (hpol : pol.Sound)
    (relocate : Network → NetworkEvent → Except Fault Network) (hrel : KeepsInv relocate)
    (n n' : Network) (v : Vault) (d : Bool)
    (hgood : n.Sections = [] ∨ n.Inv) (hv : v.Name.bits.length = 256)
    (h : AddVaultWith (specOps pol) relocate n v = .ok (n', d)) : n'.Inv := by
  unfold AddVaultWith at h
  cases hloc : locateSection (specOps pol) n v with
  | error e => rw [hloc] at h; cases h
  | ok r =>
    obtain ⟨n1, o⟩ := r
    obtain ⟨k, sec, ho, hinv1, hget1⟩ := locateSection_inv pol n n1 v o hgood hv hloc
    subst ho
    rw [hloc] at h
    simp only at h
    have hsecn := (hinv1.2.2 k sec hget1).2
    have hadd : (specOps pol).addVault sec v = Section.addVault pol sec v := rfl
    rw [hadd] at h
    unfold Section.addVault at h
    by_cases hd : pol.disallow sec v = true
    · rw [if_pos hd] at h
      simp only [applySplit, relocateIfFlagged, Except.ok.injEq, Prod.mk.injEq] at h
      rw [← h.1]
      exact MapInv.set hinv1 k sec sec hget1 rfl hsecn
    · rw [if_neg hd] at h
      simp only at h
      have hn1 : ∀ u ∈ sec.Vaults ++ [v.SetPrefix sec.Prefix], u.Name.bits.length = 256 := by
        intro u hu
        rcases List.mem_append.mp hu with hu | hu
        · exact hsecn u hu
        · simp only [List.mem_singleton] at hu
          rw [hu]; exact hv
      by_cases hs : (sec.Vaults ++ [v.SetPrefix sec.Prefix]).length ≥ SplitSize
      · rw [if_pos hs] at h
        cases hsp : Section.split
            ⟨sec.Prefix, sec.Vaults ++ [v.SetPrefix sec.Prefix]⟩ with
        | error err => rw [hsp] at h; cases h
        | ok e =>
          rw [hsp] at h
          simp only at h
          obtain ⟨ls, rs, he, _, _⟩ := split_eq _ _ hsp
          have hlen : e.NewSections.length > 0 := by rw [he]; simp
          have hflag : e.VaultToRelocate = none := by rw [he]
          simp only [applySplit, if_pos hlen, relocateIfFlagged, hflag, Option.isSome_none,
            Bool.false_eq_true, if_false, Except.ok.injEq, Prod.mk.injEq] at h
          rw [← h.1]
          exact applySplit_inv n1.Sections hinv1 k sec
            ⟨sec.Prefix, sec.Vaults ++ [v.SetPrefix sec.Prefix]⟩ e hget1 rfl hn1 (by simp) hsp
      · rw [if_neg hs] at h
        have hinv2 : Inv { n1 with
            Sections := (n1.Sections.set k ⟨sec.Prefix, sec.Vaults ++ [v.SetPrefix sec.Prefix]⟩) } :=
          MapInv.set hinv1 k sec _ hget1 rfl hn1
        simp only [applySplit, List.length_nil, gt_iff_lt, lt_self_iff_false, if_false,
          relocateIfFlagged] at h
        cases hf : pol.relocateOnJoin
            ⟨sec.Prefix, sec.Vaults ++ [v.SetPrefix sec.Prefix]⟩
            (v.SetPrefix sec.Prefix) with
        | none =>
          rw [hf] at h
          simp only [Option.isSome_none, Bool.false_eq_true, if_false, Except.ok.injEq,
            Prod.mk.injEq] at h
          rw [← h.1]; exact hinv2
        | some r =>
          rw [hf] at h
          simp only [Option.isSome_some, if_true] at h
          cases hr : relocate { n1 with
            Sections := (n1.Sections.set k ⟨sec.Prefix, sec.Vaults ++ [v.SetPrefix sec.Prefix]⟩) }
              { NewSections := [], VaultToRelocate := some r } with
          | error err => rw [hr] at h; cases h
          | ok n4 =>
            rw [hr] at h
            simp only [Except.ok.injEq, Prod.mk.injEq] at h
            rw [← h.1]
            refine hrel _ _ _ hinv2 ?_ hr
            intro r' hr'
            simp only [Option.some.injEq] at hr'
            rw [← hr']
            exact hn1 r (hpol.1 _ _ _ hf)

/-- The merge of `RemoveVault` under the spec's Section operations keeps the
invariant. -/
theorem mergeSection_inv (pol : Policy) (n2 n' : Network) (s1 : Section) (v : Vault)
    (hinv : n2.Inv) (hget : n2.Sections.get v.Prefix.Key = some s1)
    (h : mergeSection (specOps pol) n2 s1 v = .ok n') : n'.Inv := by
  obtain ⟨hnd, hpart, hst⟩ := hinv
  have hs1 : s1.Prefix = v.Prefix := Prefix.key_injective (hst _ _ hget).1
  have hkmem : v.Prefix.Key ∈ n2.Sections.keys := by
    rw [← SectionMap.get_isSome_iff, hget]; rfl
  have hshape : ∃ p b, v.Prefix.bits = p ++ [b] := by
    rcases List.eq_nil_or_concat v.Prefix.bits with h0 | ⟨p, b, hpb⟩
    · exfalso
      unfold mergeSection at h
      rw [hs1] at h
      simp only [Prefix.parent, h0, if_true] at h
      cases h
    · exact ⟨p, b, by rw [hpb, List.concat_eq_append]⟩
  obtain ⟨p, b, hv⟩ := hshape
  have hvp : v.Prefix.Key = p ++ [b] := hv
  obtain ⟨D, m4, hDnd, hDmem, hnd4, hget4, hmerge⟩ :=
    mergeSection_spec (specOps pol) n2 s1 v p b hv hs1 hnd hpart hkmem
  rw [hmerge] at h
  have hKpb : p ++ [b] ∈ n2.Sections.keys := by rw [← hvp]; exact hkmem
  have hplen : p.length < 256 := by
    have := hpart.1 _ hKpb
    simp only [List.length_append, List.length_singleton] at this
    omega
  have hpK := PartitionKeys.merge hpart p b hKpb
  have hkeys4 : ∀ k, k ∈ m4.keys ↔ k ∈ n2.Sections.keys ∧ ¬ p <+: k := by
    intro k
    rw [← SectionMap.get_isSome_iff, hget4]
    by_cases hpk : p <+: k
    · simp [hpk]
    · rw [if_neg hpk, SectionMap.get_isSome_iff]
      exact ⟨fun h' => ⟨h', hpk⟩, fun h' => h'.1⟩
  have hst4 : ∀ k s, m4.get k = some s →
      s.Prefix.Key = k ∧ ∀ u ∈ s.Vaults, u.Name.bits.length = 256 := by
    intro k s hs
    rw [hget4] at hs
    by_cases hpk : p <+: k
    · rw [if_pos hpk] at hs; cases hs
    · rw [if_neg hpk] at hs; exact hst k s hs
  have hpv : ∀ u ∈ s1.Vaults ++ D.flatMap (vaultsAt n2.Sections),
      u.Name.bits.length = 256 := by
    intro u hu
    rcases List.mem_append.mp hu with hu | hu
    · exact (hst _ _ hget).2 u hu
    · obtain ⟨k, _, huk⟩ := List.mem_flatMap.mp hu
      exact MapInv.vaultsAt_names ⟨hnd, hpart, hst⟩ k u huk
  have hnew : (specOps pol).newSection ⟨p⟩ (s1.Vaults ++ D.flatMap (vaultsAt n2.Sections))
      = Section.newSection ⟨p⟩ (s1.Vaults ++ D.flatMap (vaultsAt n2.Sections)) := rfl
  rw [hnew] at h
  unfold Section.newSection at h
  simp only at h
  by_cases hbig : ((s1.Vaults ++ D.flatMap (vaultsAt n2.Sections)).map
      (fun u => u.SetPrefix ⟨p⟩)).length > SplitSize
  · -- the parent re-splits
    rw [if_pos hbig] at h
    cases hsp : Section.split ⟨⟨p⟩, (s1.Vaults ++ D.flatMap (vaultsAt n2.Sections)).map
        (fun u => u.SetPrefix ⟨p⟩)⟩ with
    | error err => rw [hsp] at h; cases h
    | ok e =>
      rw [hsp] at h
      simp only [Except.ok.injEq] at h
      rw [← h]
      obtain ⟨ls, rs, he, hsm, _⟩ := split_eq _ _ hsp
      rw [he]
      show MapInv (storeSections m4 _)
      refine mapInv_children m4 (fun k => k ∈ n2.Sections.keys) p hpK hplen hnd4 hkeys4 hst4
        ls rs ?_
      intro u hu
      obtain ⟨u0, hu0, hne0⟩ := splitMembers_names _ _ _ _ _ _ hsm u hu
      rw [hne0]
      obtain ⟨u1, hu1, hu01⟩ := List.mem_map.mp hu0
      rw [← hu01]
      exact hpv u1 hu1
  · rw [if_neg hbig] at h
    simp only [Except.ok.injEq] at h
    rw [← h]
    show MapInv (storeSections m4 _)
    simp only [storeSections]
    have hkp : (⟨p⟩ : Prefix).Key = p := rfl
    rw [hkp]
    refine ⟨SectionMap.nodup_set _ _ _ hnd4, ?_, ?_⟩
    · refine PartitionKeys.congr (fun k => ?_) hpK
      rw [SectionMap.mem_keys_set, hkeys4]
      constructor
      · rintro (h' | h')
        · exact Or.inr h'
        · exact Or.inl h'
      · rintro (h' | h')
        · exact Or.inr h'
        · exact Or.inl h'
    · intro k s hs
      rw [SectionMap.get_set] at hs
      by_cases hk : p = k
      · rw [if_pos hk] at hs
        cases hs
        refine ⟨hk, ?_⟩
        intro u hu
        obtain ⟨u1, hu1, hu01⟩ := List.mem_map.mp hu
        rw [← hu01]
        exact hpv u1 hu1
      · rw [if_neg hk] at hs
        exact hst4 k s hs

/-- `RemoveVault` under the spec's Section operations keeps the invariant. -/
theorem RemoveVaultWith_inv (pol : Policy) (hpol : pol.Sound)
    (relocate : Network → NetworkEvent → Except Fault Network) (hrel : KeepsInv relocate)
    (n n' : Network) (v : Vault) (hinv : n.Inv)
    (h : RemoveVaultWith (specOps pol) relocate n v = .ok n') : n'.Inv := by
  unfold RemoveVaultWith at h
  simp only at h
  cases hget : n.Sections.get v.Prefix.Key with
  | none =>
    rw [hget] at h
    simp only [Except.ok.injEq] at h
    rw [← h]; exact hinv
  | some sec =>
    rw [hget] at h
    have hrem : (specOps pol).removeVault sec v
        = .ok (⟨sec.Prefix, sec.Vaults.erase v⟩,
            some { NewSections := []
                   VaultToRelocate :=
                     pol.relocateOnDeparture ⟨sec.Prefix, sec.Vaults.erase v⟩ v }) := rfl
    simp only [hrem] at h
    have hn1 : ∀ u ∈ sec.Vaults.erase v, u.Name.bits.length = 256 := by
      intro u hu
      exact (hinv.2.2 _ _ hget).2 u (List.mem_of_mem_erase hu)
    have hinv2 : Inv { n with
        TotalDepartures := wrapInt (n.TotalDepartures + 1)
        Sections := n.Sections.set v.Prefix.Key ⟨sec.Prefix, sec.Vaults.erase v⟩ } :=
      MapInv.set hinv _ sec _ hget rfl hn1
    split at h
    · refine mergeSection_inv pol _ n' _ v hinv2 ?_ h
      show (n.Sections.set _ _).get _ = _
      rw [SectionMap.get_set, if_pos rfl]
    · simp only [relocateIfFlagged] at h
      cases hf : pol.relocateOnDeparture ⟨sec.Prefix, sec.Vaults.erase v⟩ v with
      | none =>
        rw [hf] at h
        simp only [Option.isSome_none, Bool.false_eq_true, if_false, Except.ok.injEq] at h
        rw [← h]; exact hinv2
      | some r =>
        rw [hf] at h
        simp only [Option.isSome_some, if_true] at h
        refine hrel _ _ _ hinv2 ?_ h
        intro r' hr'
        simp only [Option.some.injEq] at hr'
        rw [← hr']
        exact hn1 r (hpol.2 _ _ _ hf)

/-- `relocateVault` under the spec's Section operations keeps the invariant,
whatever the relocation budget. -/
theorem relocateVault_inv (pol : Policy) (hpol : pol.Sound) :
    ∀ fuel, KeepsInv (relocateVault (specOps pol) fuel) := by
  intro fuel
  induction fuel with
  | zero =>
    intro n e n' _ _ h
    simp [relocateVault] at h
  | succ fuel ih =>
    intro n e n' hinv hflag h
    simp only [relocateVault, relocateVaultWith] at h
    cases hr : e.VaultToRelocate with
    | none => rw [hr] at h; cases h
    | some r =>
      rw [hr] at h
      simp only at h
      have hr256 := hflag r hr
      cases hc : chooseNeighbour { n with TotalRelocations := wrapInt (n.TotalRelocations + 1) } r with
      | error err => rw [hc] at h; cases h
      | ok c =>
        rw [hc] at h
        simp only at h
        cases hrm : RemoveVaultWith (specOps pol) (relocateVault (specOps pol) fuel)
            { n with TotalRelocations := wrapInt (n.TotalRelocations + 1) } r with
        | error err => rw [hrm] at h; cases h
        | ok n2 =>
          rw [hrm] at h
          simp only at h
          have hinv2 : n2.Inv := RemoveVaultWith_inv pol hpol _ ih
            { n with TotalRelocations := wrapInt (n.TotalRelocations + 1) } n2 r hinv hrm
          cases hd : c.smallestNeighbour with
          | none => rw [hd] at h; cases h
          | some dest =>
            rw [hd] at h
            simp only at h
            have hren : (specOps pol).renameWithPrefix r dest.Prefix
                = Vault.renameWithPrefix r dest.Prefix := rfl
            rw [hren] at h
            unfold Vault.renameWithPrefix at h
            cases hl : renameLoop dest.Prefix.bits 0 r.Name with
            | error err => rw [hl] at h; cases h
            | ok x =>
              rw [hl] at h
              simp only at h
              have hx : x.bits.length = 256 := by
                rw [renameLoop_length _ _ _ _ hl]; exact hr256
              cases ha : AddVaultWith (specOps pol) (relocateVault (specOps pol) fuel) n2
                  ((specOps pol).IncrementAge { r with Name := x }) with
              | error err => rw [ha] at h; cases h
              | ok res =>
                obtain ⟨n3, d⟩ := res
                rw [ha] at h
                simp only [Except.ok.injEq] at h
                rw [← h]
                exact AddVaultWith_inv pol hpol _ ih n2 n3 _ d (Or.inr hinv2) hx ha

/-- An admissible sequence of calls from a network with the invariant ends,
when it completes, in a network with the invariant. -/
theorem run_inv (pol : Policy) (hpol : pol.Sound) (fuel : Nat) :
    ∀ (ops : List Op) (n n' : Network), n.Inv →
      admissible (specOps pol) fuel n ops = true →
      run (specOps pol) fuel n ops = .ok n' → n'.Inv := by
  intro ops
  induction ops with
  | nil =>
    intro n n' hinv _ h
    simp only [run, Except.ok.injEq] at h
    rw [← h]; exact hinv
  | cons op rest ih =>
    intro n n' hinv hadm h
    simp only [run] at h
    simp only [admissible, Bool.and_eq_true] at hadm
    cases hs : step (specOps pol) fuel n op with
    | error err => rw [hs] at h; cases h
    | ok n1 =>
      rw [hs] at h hadm
      simp only at h hadm
      refine ih n1 n' ?_ hadm.2 h
      cases op with
      | add v =>
        simp only [decide_eq_true_eq] at hadm
        simp only [step, AddVault] at hs
        cases ha : AddVaultWith (specOps pol) (relocateVault (specOps pol) fuel) n v with
        | error err => rw [ha] at hs; cases hs
        | ok res =>
          obtain ⟨n1', d⟩ := res
          rw [ha] at hs
          simp only [Except.ok.injEq] at hs
          rw [← hs]
          exact AddVaultWith_inv pol hpol _ (relocateVault_inv pol hpol fuel) n n1' v d
            (Or.inr hinv) hadm.1 ha
      | remove v =>
        simp only [step, RemoveVault] at hs
        exact RemoveVaultWith_inv pol hpol _ (relocateVault_inv pol hpol fuel) n n1 v hinv hs

end Network

/-! ## Termination and lookup safety -/

namespace Network

theorem maxKeyLength_le (m : SectionMap) (b : Nat) (h : ∀ k ∈ m.keys, k.length ≤ b) :
    maxKeyLength m ≤ b := by
  induction m with
  | nil => simp [maxKeyLength]
  | cons e m ih =>
    obtain ⟨k1, s1⟩ := e
    simp only [maxKeyLength]
    refine max_le (h k1 (by simp [SectionMap.keys])) (ih ?_)
    intro k hk
    exact h k (by simp only [SectionMap.keys, List.map_cons, List.mem_cons]; exact Or.inr hk)

/-- With keys of at most 256 bits, every call of the descendant search is on a
prefix of at most 256 bits, or on the prefix the search started from. -/
theorem childSearchVisits_length (n : Network)
    (hlen : ∀ k ∈ n.Sections.keys, k.length ≤ 256) :
    ∀ (fuel : Nat) (pfx : Prefix), ∀ q ∈ childSearchVisits n fuel pfx,
      q.bits.length ≤ max pfx.bits.length 256 := by
  intro fuel
  induction fuel with
  | zero => intro pfx q hq; simp [childSearchVisits] at hq
  | succ fuel ih =>
    intro pfx q hq
    have hl := extendLeft_length pfx
    have hr := extendRight_length pfx
    have hchild : ∀ c : Prefix, c.bits.length = pfx.bits.length + 1 →
        pfx.bits.length < 256 → q ∈ childSearchVisits n fuel c →
        q.bits.length ≤ max pfx.bits.length 256 := by
      intro c hc hlt hqc
      have := ih c q hqc
      rw [hc] at this
      omega
    have hkey : ∀ c : Prefix, c.bits.length = pfx.bits.length + 1 →
        (n.Sections.get c.Key).isSome = true → pfx.bits.length < 256 := by
      intro c hc hex
      have := hlen _ ((SectionMap.get_isSome_iff _ _).mp hex)
      have hck : c.Key.length = c.bits.length := rfl
      omega
    simp only [childSearchVisits] at hq
    by_cases h1 : (n.Sections.get pfx.extendLeft.Key).isSome = true
    · by_cases h2 : (n.Sections.get pfx.extendRight.Key).isSome = true
      · simp only [h1, h2, Bool.and_self, if_true, List.mem_singleton] at hq
        rw [hq]; exact le_max_left _ _
      · simp only [h1, h2, Bool.and_false, Bool.false_eq_true, if_false, if_true,
          List.mem_cons] at hq
        rcases hq with hq | hq
        · rw [hq]; exact le_max_left _ _
        · exact hchild _ hr (hkey _ hl h1) hq
    · by_cases h2 : (n.Sections.get pfx.extendRight.Key).isSome = true
      · simp only [h1, h2, Bool.false_and, Bool.false_eq_true, if_false, if_true,
          List.mem_cons] at hq
        rcases hq with hq | hq
        · rw [hq]; exact le_max_left _ _
        · exact hchild _ hl (hkey _ hr h2) hq
      · simp only [h1, h2, Bool.false_and, Bool.false_eq_true, if_false] at hq
        by_cases h3 : pfx.bits.length < 256
        · rw [if_pos h3] at hq
          simp only [List.mem_cons, List.mem_append] at hq
          rcases hq with hq | hq | hq
          · rw [hq]; exact le_max_left _ _
          · exact hchild _ hl h3 hq
          · exact hchild _ hr h3 hq
        · rw [if_neg h3] at hq
          simp only [List.mem_singleton] at hq
          rw [hq]; exact le_max_left _ _

/-- The loop over the candidates of one neighbour completes when the
candidates are keys of the map. -/
theorem considerPrefixes_ok (n : Network) :
    ∀ (ps : List Prefix) (c : Choice), (∀ p ∈ ps, p.Key ∈ n.Sections.keys) →
      ∃ c1, considerPrefixes n ps c = .ok c1 := by
  intro ps
  induction ps with
  | nil => intro c _; exact ⟨c, rfl⟩
  | cons p ps ih =>
    intro c hps
    obtain ⟨sec, hsec⟩ : ∃ sec, n.Sections.get p.Key = some sec :=
      Option.isSome_iff_exists.mp
        ((SectionMap.get_isSome_iff _ _).mpr (hps p (List.mem_cons_self _ _)))
    have hstep : ∃ c1, considerPrefix n c p = .ok c1 := by
      unfold considerPrefix
      simp only [hsec]
      by_cases h1 : p.bits.length < c.minNeighbourPrefix
      · rw [if_pos h1]; exact ⟨_, rfl⟩
      · rw [if_neg h1]
        by_cases h2 : p.bits.length = c.minNeighbourPrefix
        · rw [if_pos h2]
          by_cases h3 : sec.Vaults.length < c.minNeighbourVaults
          · rw [if_pos h3]; exact ⟨_, rfl⟩
          · rw [if_neg h3]; exact ⟨_, rfl⟩
        · rw [if_neg h2]; exact ⟨_, rfl⟩
    obtain ⟨c1, hc1⟩ := hstep
    obtain ⟨c2, hc2⟩ := ih c1 (fun q hq => hps q (List.mem_cons_of_mem _ hq))
    exact ⟨c2, by simp only [considerPrefixes, hc1]; exact hc2⟩

/-- The destination search of `relocateVault` completes in every network. -/
theorem neighbourSearch_ok (n : Network) (r : Vault) :
    ∀ (idx : List Nat) (c : Choice), ∃ c1, neighbourSearch n r idx c = .ok c1 := by
  intro idx
  induction idx with
  | nil => intro c; exact ⟨c, rfl⟩
  | cons i idx ih =>
    intro c
    obtain ⟨ps, hps, hkeys⟩ := getMatchingPrefixes_keys n (neighbourPrefix r.Prefix i)
    obtain ⟨c1, hc1⟩ := considerPrefixes_ok n ps c hkeys
    obtain ⟨c2, hc2⟩ := ih c1
    exact ⟨c2, by simp only [neighbourSearch, hps, hc1]; exact hc2⟩

end Network

/-! ## The neighbour prefixes -/

namespace Network

/-- The inner loop of `relocateVault` copies the bits it reads, negating the
one at index `i`. -/
theorem neighbourLoop_bits (i : Nat) :
    ∀ (bs : List Bool) (j : Nat) (np : Prefix),
      (neighbourLoop i bs j np).bits
        = np.bits ++ (if i < j then bs else bs.set (i - j) (!(bs.getD (i - j) false))) := by
  intro bs
  induction bs with
  | nil => intro j np; simp [neighbourLoop]
  | cons b bs ih =>
    intro j np
    simp only [neighbourLoop]
    rw [ih]
    rcases Nat.lt_trichotomy i j with hlt | heq | hgt
    · have h1 : i < j + 1 := by omega
      have h2 : ¬ j = i := by omega
      rw [if_pos h1, if_pos hlt]
      simp only [h2, if_false]
      cases b <;> simp [Prefix.extendLeft, Prefix.extendRight]
    · subst heq
      have h1 : i < i + 1 := by omega
      rw [if_pos h1, if_neg (Nat.lt_irrefl i)]
      simp only [if_true, Nat.sub_self, List.set_cons_zero, List.getD_cons_zero]
      cases b <;> simp [Prefix.extendLeft, Prefix.extendRight]
    · have h1 : ¬ i < j + 1 := by omega
      have h2 : ¬ j = i := by omega
      have h3 : ¬ i < j := by omega
      rw [if_neg h1, if_neg h3]
      have hsub : i - j = (i - (j + 1)) + 1 := by omega
      rw [hsub]
      simp only [h2, if_false, List.set_cons_succ, List.getD_cons_succ]
      cases b <;> simp [Prefix.extendLeft, Prefix.extendRight]

/-- The neighbour prefix of iteration `i` is the prefix with bit `i` negated. -/
theorem neighbourPrefix_bits (p : Prefix) (i : Nat) :
    (neighbourPrefix p i).bits = p.bits.set i (!(p.bits.getD i false)) := by
  unfold neighbourPrefix
  rw [neighbourLoop_bits]
  simp [NewBlankPrefix]

end Network

/-! ## Go int arithmetic -/

/-- A value of a Go `int` is what the `int` holds. -/
theorem wrapInt_of_isInt64 (z : Int) (h : IsInt64 z) : wrapInt z = z := by
  unfold IsInt64 MinInt64 MaxInt64 at h
  unfold wrapInt
  omega

/-- Below the largest `int`, `c + 1` is exact. -/
theorem wrapInt_succ (c : Int) (h1 : MinInt64 ≤ c) (h2 : c < MaxInt64) :
    wrapInt (c + 1) = c + 1 := by
  unfold MinInt64 at h1
  unfold MaxInt64 at h2
  unfold wrapInt
  omega

/-- What a Go `int` holds is a value of a Go `int`. -/
theorem isInt64_wrapInt (z : Int) : IsInt64 (wrapInt z) := by
  unfold IsInt64 MinInt64 MaxInt64 wrapInt
  omega

/-- Executions of `c = c + 1` add up. -/
theorem incrTimes_add (a b : Nat) : ∀ c, incrTimes (a + b) c = incrTimes b (incrTimes a c) := by
  induction a with
  | zero => intro c; simp [incrTimes]
  | succ a ih =>
    intro c
    rw [Nat.succ_add]
    simp only [incrTimes]
    exact ih _

/-- One execution of `c = c + 1`. -/
theorem incrTimes_one (c : Int) : incrTimes 1 c = wrapInt (c + 1) := rfl

/-- One more execution of `c = c + 1`, after the others. -/
theorem incrTimes_succ (k : Nat) (c : Int) :
    incrTimes (k + 1) c = wrapInt (incrTimes k c + 1) := by
  rw [incrTimes_add k 1 c]
  rfl

/-- While the counter stays below the largest `int`, `k` executions of
`c = c + 1` add exactly `k`. -/
theorem incrTimes_exact (k : Nat) : ∀ c : Int, MinInt64 ≤ c → c + k ≤ MaxInt64 →
    incrTimes k c = c + k := by
  induction k with
  | zero => intro c _ _; simp [incrTimes]
  | succ k ih =>
    intro c h1 h2
    have hs : wrapInt (c + 1) = c + 1 := wrapInt_succ c h1 (by push_cast at h2; omega)
    simp only [incrTimes]
    rw [hs, ih (c + 1) (by omega) (by push_cast at h2 ⊢; omega)]
    push_cast
    omega

/-! ## The counters -/

namespace Network

/-- Lines 40-53 of `AddVault` count one join and nothing else. -/
theorem locateSection_counters (ops : SectionOps) (n n1 : Network) (v : Vault)
    (o : Option (Key × Section)) (h : locateSection ops n v = .ok (n1, o)) :
    n1.TotalJoins = wrapInt (n.TotalJoins + 1) ∧ n1.TotalDepartures = n.TotalDepartures ∧
    n1.TotalRelocations = n.TotalRelocations := by
  unfold locateSection at h
  simp only at h
  cases hget : n.Sections.get
      (getPrefixForXorname { n with TotalJoins := wrapInt (n.TotalJoins + 1) } v.Name).Key with
  | some s0 =>
    rw [hget] at h
    simp only [Except.ok.injEq, Prod.mk.injEq] at h
    rw [← h.1]
    exact ⟨rfl, rfl, rfl⟩
  | none =>
    rw [hget] at h
    simp only at h
    cases hns : ops.newSection NewBlankPrefix [] with
    | error e => rw [hns] at h; cases h
    | ok one =>
      rw [hns] at h
      cases one with
      | none =>
        simp only [Except.ok.injEq, Prod.mk.injEq] at h
        rw [← h.1]
        exact ⟨rfl, rfl, rfl⟩
      | some ne =>
        simp only [Except.ok.injEq, Prod.mk.injEq] at h
        rw [← h.1]
        exact ⟨rfl, rfl, rfl⟩

/-- The split handling changes neither joins, departures nor relocations. -/
theorem applySplit_counters (n : Network) (sec : Section) (ne : Option NetworkEvent) :
    (applySplit n sec ne).TotalJoins = n.TotalJoins ∧
    (applySplit n sec ne).TotalDepartures = n.TotalDepartures ∧
    (applySplit n sec ne).TotalRelocations = n.TotalRelocations := by
  unfold applySplit
  cases ne with
  | none => exact ⟨rfl, rfl, rfl⟩
  | some e =>
    by_cases h : e.NewSections.length > 0
    · simp only [if_pos h, and_self]
    · simp only [if_neg h, and_self]

/-- `AddVault` over a relocation procedure that increments the counters of
relocations, joins and departures the same number of times (at most `B`):
one increment more for the joins than for the other two. -/
theorem AddVaultWith_counters (ops : SectionOps)
    (relocate : Network → NetworkEvent → Except Fault Network) (B : Nat)
    (hrel : ∀ n e n', relocate n e = .ok n' →
      ∃ k : Nat, 1 ≤ k ∧ k ≤ B ∧ n'.TotalRelocations = incrTimes k n.TotalRelocations ∧
        n'.TotalJoins = incrTimes k n.TotalJoins ∧
        n'.TotalDepartures = incrTimes k n.TotalDepartures)
    (n n' : Network) (v : Vault) (d : Bool)
    (h : AddVaultWith ops relocate n v = .ok (n', d)) :
    ∃ k : Nat, k ≤ B ∧ n'.TotalJoins = incrTimes (k + 1) n.TotalJoins ∧
      n'.TotalDepartures = incrTimes k n.TotalDepartures ∧
      n'.TotalRelocations = incrTimes k n.TotalRelocations := by
  unfold AddVaultWith at h
  cases hloc : locateSection ops n v with
  | error e => rw [hloc] at h; cases h
  | ok r =>
    obtain ⟨n1, o⟩ := r
    obtain ⟨hj, hd, hr⟩ := locateSection_counters ops n n1 v o hloc
    rw [hloc] at h
    cases o with
    | none => cases h
    | some ks =>
      obtain ⟨k, sec⟩ := ks
      simp only at h
      cases hadd : ops.addVault sec v with
      | error e => rw [hadd] at h; cases h
      | ok res =>
        obtain ⟨sec1, ne, dis⟩ := res
        rw [hadd] at h
        simp only at h
        obtain ⟨aj, ad, ar⟩ := applySplit_counters
          { n1 with Sections := n1.Sections.set k sec1 } sec1 ne
        simp only at aj ad ar
        have hplain : ∀ n4, n4 = applySplit { n1 with Sections := n1.Sections.set k sec1 }
            sec1 ne → ∃ k : Nat, k ≤ B ∧ n4.TotalJoins = incrTimes (k + 1) n.TotalJoins ∧
              n4.TotalDepartures = incrTimes k n.TotalDepartures ∧
              n4.TotalRelocations = incrTimes k n.TotalRelocations := by
          intro n4 h4
          refine ⟨0, Nat.zero_le _, ?_, ?_, ?_⟩
          · rw [h4, aj, hj]; rfl
          · rw [h4, ad, hd]; rfl
          · rw [h4, ar, hr]; rfl
        cases hrl : relocateIfFlagged relocate
            (applySplit { n1 with Sections := n1.Sections.set k sec1 } sec1 ne) ne with
        | error e => rw [hrl] at h; cases h
        | ok n4 =>
          rw [hrl] at h
          simp only [Except.ok.injEq, Prod.mk.injEq] at h
          rw [← h.1]
          unfold relocateIfFlagged at hrl
          cases ne with
          | none =>
            simp only [Except.ok.injEq] at hrl
            exact hplain n4 hrl.symm
          | some e =>
            simp only at hrl
            by_cases hf : e.VaultToRelocate.isSome = true
            · rw [if_pos hf] at hrl
              obtain ⟨c, _, hcB, b2, b3, b4⟩ := hrel _ _ _ hrl
              refine ⟨c, hcB, ?_, ?_, ?_⟩
              · rw [b3, aj, hj]; rfl
              · rw [b4, ad, hd]
              · rw [b2, ar, hr]
            · rw [if_neg hf] at hrl
              simp only [Except.ok.injEq] at hrl
              exact hplain n4 hrl.symm

/-- `RemoveVault` over a relocation procedure that increments the counters of
relocations, joins and departures the same number of times (at most `B`):
one increment more for the departures than for the other two. -/
theorem RemoveVaultWith_counters (ops : SectionOps)
    (relocate : Network → NetworkEvent → Except Fault Network) (B : Nat)
    (hrel : ∀ n e n', relocate n e = .ok n' →
      ∃ k : Nat, 1 ≤ k ∧ k ≤ B ∧ n'.TotalRelocations = incrTimes k n.TotalRelocations ∧
        n'.TotalJoins = incrTimes k n.TotalJoins ∧
        n'.TotalDepartures = incrTimes k n.TotalDepartures)
    (n n' : Network) (v : Vault)
    (h : RemoveVaultWith ops relocate n v = .ok n') :
    ∃ k : Nat, k ≤ B ∧ n'.TotalDepartures = incrTimes (k + 1) n.TotalDepartures ∧
      n'.TotalJoins = incrTimes k n.TotalJoins ∧
      n'.TotalRelocations = incrTimes k n.TotalRelocations := by
  unfold RemoveVaultWith at h
  simp only at h
  cases hget : n.Sections.get v.Prefix.Key with
  | none =>
    simp only [hget, Except.ok.injEq] at h
    rw [← h]
    exact ⟨0, Nat.zero_le _, rfl, rfl, rfl⟩
  | some sec =>
    simp only [hget] at h
    cases hrem : ops.removeVault sec v with
    | error e => rw [hrem] at h; cases h
    | ok res =>
      obtain ⟨sec1, ne⟩ := res
      simp only [hrem] at h
      by_cases hm : (ops.shouldMerge sec1 &&
          HasMoreThanOneSection { n with
            TotalDepartures := wrapInt (n.TotalDepartures + 1)
            Sections := n.Sections.set v.Prefix.Key sec1 }) = true
      · rw [if_pos hm] at h
        obtain ⟨_, _, c3, c4, c5⟩ := mergeSection_counters _ _ _ _ _ h
        simp only at c3 c4 c5
        exact ⟨0, Nat.zero_le _, by rw [c4]; rfl, by rw [c3]; rfl, by rw [c5]; rfl⟩
      · rw [if_neg hm] at h
        unfold relocateIfFlagged at h
        cases ne with
        | none =>
          simp only [Except.ok.injEq] at h
          rw [← h]
          exact ⟨0, Nat.zero_le _, rfl, rfl, rfl⟩
        | some e =>
          simp only at h
          by_cases hf : e.VaultToRelocate.isSome = true
          · rw [if_pos hf] at h
            obtain ⟨c, _, hcB, b2, b3, b4⟩ := hrel _ _ _ h
            simp only at b2 b3 b4
            exact ⟨c, hcB, by rw [b4]; rfl, b3, b2⟩
          · rw [if_neg hf] at h
            simp only [Except.ok.injEq] at h
            rw [← h]
            exact ⟨0, Nat.zero_le _, rfl, rfl, rfl⟩

/-- A completed `relocateVault` increments the counters of relocations, joins
and departures the same number of times, at least once and fewer than
`2 ^ fuel` times for relocations nested at most `fuel` deep. -/
theorem relocateVault_counters (ops : SectionOps) :
    ∀ (fuel : Nat) (n : Network) (e : NetworkEvent) (n' : Network),
      relocateVault ops fuel n e = .ok n' →
      ∃ k : Nat, 1 ≤ k ∧ k ≤ 2 ^ fuel - 1 ∧
        n'.TotalRelocations = incrTimes k n.TotalRelocations ∧
        n'.TotalJoins = incrTimes k n.TotalJoins ∧
        n'.TotalDepartures = incrTimes k n.TotalDepartures := by
  intro fuel
  induction fuel with
  | zero => intro n e n' h; simp [relocateVault] at h
  | succ fuel ih =>
    intro n e n' h
    simp only [relocateVault, relocateVaultWith] at h
    cases hr : e.VaultToRelocate with
    | none => rw [hr] at h; cases h
    | some r =>
      simp only [hr] at h
      cases hc : chooseNeighbour
          { n with TotalRelocations := wrapInt (n.TotalRelocations + 1) } r with
      | error err => rw [hc] at h; cases h
      | ok c =>
        simp only [hc] at h
        cases hrm : RemoveVaultWith ops (relocateVault ops fuel)
            { n with TotalRelocations := wrapInt (n.TotalRelocations + 1) } r with
        | error err => rw [hrm] at h; cases h
        | ok n2 =>
          simp only [hrm] at h
          obtain ⟨k1, hk1, r1, r2, r3⟩ :=
            RemoveVaultWith_counters ops _ (2 ^ fuel - 1) ih _ n2 r hrm
          simp only at r1 r2 r3
          cases hd : c.smallestNeighbour with
          | none => rw [hd] at h; cases h
          | some dest =>
            simp only [hd] at h
            cases hren : ops.renameWithPrefix r dest.Prefix with
            | error err => rw [hren] at h; cases h
            | ok r1v =>
              simp only [hren] at h
              cases ha : AddVaultWith ops (relocateVault ops fuel) n2
                  (ops.IncrementAge r1v) with
              | error err => rw [ha] at h; cases h
              | ok res =>
                obtain ⟨n3, d⟩ := res
                simp only [ha, Except.ok.injEq] at h
                obtain ⟨k2, hk2, a1, a2, a3⟩ :=
                  AddVaultWith_counters ops _ (2 ^ fuel - 1) ih n2 n3 _ d ha
                have hpow : 1 ≤ 2 ^ fuel := Nat.one_le_two_pow
                refine ⟨k1 + 1 + k2, by omega, ?_, ?_, ?_, ?_⟩
                · rw [pow_succ]; omega
                · rw [← h, a3, r3, incrTimes_add (k1 + 1) k2]
                  have : incrTimes (k1 + 1) n.TotalRelocations
                      = incrTimes k1 (wrapInt (n.TotalRelocations + 1)) := rfl
                  rw [this]
                · rw [← h, a1, r2]
                  have : k1 + 1 + k2 = k1 + (k2 + 1) := by omega
                  rw [this, incrTimes_add k1 (k2 + 1)]
                · rw [← h, a2, r1, incrTimes_add (k1 + 1) k2]

/-- With one entry per key and prefix-free keys, a map that holds the root key
has no second entry. -/
theorem length_le_one_of_root (m : SectionMap) (hnd : m.keys.Nodup) (hpf : PrefixFree m)
    (hroot : ([] : Key) ∈ m.keys) : m.length ≤ 1 := by
  have hall : ∀ k ∈ m.keys, k = [] := by
    intro k hk
    exact (hpf [] hroot k hk List.nil_prefix).symm
  have hlen : m.keys.length ≤ 1 := by
    cases hks : m.keys with
    | nil => simp
    | cons k1 rest =>
      cases rest with
      | nil => simp
      | cons k2 rest2 =>
        exfalso
        rw [hks] at hnd hall
        have e1 := hall k1 (by simp)
        have e2 := hall k2 (by simp)
        simp only [List.nodup_cons, List.mem_cons] at hnd
        exact hnd.1 (Or.inl (by rw [e1, e2]))
  simpa [SectionMap.keys] using hlen

end Network

/-! ## The ancestor walk -/

namespace Network

/-- The ancestor walk of `getMatchingPrefixes` appends, in the order of their
length, the extensions of the current test prefix that are keys. -/
theorem matchingLoop_eq (n : Network) :
    ∀ (bs : List Bool) (t : Prefix) (acc : List Prefix),
      matchingLoop n bs t acc
        = acc ++ ((List.range bs.length).map
            (fun j => (⟨t.bits ++ bs.take (j + 1)⟩ : Prefix))).filter
            (fun q => (n.Sections.get q.Key).isSome) := by
  intro bs
  induction bs with
  | nil => intro t acc; simp [matchingLoop]
  | cons b bs ih =>
    intro t acc
    have ht : (if b = false then t.extendLeft else t.extendRight) = ⟨t.bits ++ [b]⟩ := by
      cases b <;> rfl
    rw [matchingLoop_cons, ih, ht]
    have hmap : (List.range (b :: bs).length).map
          (fun j => (⟨t.bits ++ (b :: bs).take (j + 1)⟩ : Prefix))
        = (⟨t.bits ++ [b]⟩ : Prefix) :: (List.range bs.length).map
            (fun j => (⟨(t.bits ++ [b]) ++ bs.take (j + 1)⟩ : Prefix)) := by
      rw [List.length_cons, List.range_succ_eq_map, List.map_cons, List.map_map]
      simp
    rw [hmap, List.filter_cons]
    by_cases hex : (n.Sections.get (⟨t.bits ++ [b]⟩ : Prefix).Key).isSome = true
    · rw [if_pos hex, if_pos hex, List.append_assoc]
      rfl
    · rw [if_neg hex, if_neg hex]

/-- The ancestor walk, started at the root with the root itself if it is a key,
collects the leading prefixes of `pfx` that are keys. -/
theorem matchingLoop_ancestors (n : Network) (pfx : Prefix) :
    matchingLoop n pfx.bits NewBlankPrefix
        (if (n.Sections.get NewBlankPrefix.Key).isSome then [NewBlankPrefix] else [])
      = matchingAncestors n pfx := by
  rw [matchingLoop_eq]
  unfold matchingAncestors
  rw [List.range_succ_eq_map, List.map_cons, List.map_map, List.filter_cons]
  have hb : (⟨pfx.bits.take 0⟩ : Prefix) = NewBlankPrefix := rfl
  rw [hb]
  have hm : (List.range pfx.bits.length).map
        (fun j => (⟨NewBlankPrefix.bits ++ pfx.bits.take (j + 1)⟩ : Prefix))
      = (List.range pfx.bits.length).map
        ((fun j => (⟨pfx.bits.take j⟩ : Prefix)) ∘ Nat.succ) := by
    apply List.map_congr_left
    intro j _
    rfl
  rw [hm]
  by_cases hex : (n.Sections.get NewBlankPrefix.Key).isSome = true
  · rw [if_pos hex, if_pos hex]; rfl
  · rw [if_neg hex, if_neg hex]; rfl

/-- `getMatchingPrefixes` returns the leading prefixes of its argument that are
keys, and the result of the descendant search when there is none. -/
theorem getMatchingPrefixes_eq (n : Network) (pfx : Prefix) :
    getMatchingPrefixes n pfx
      = if matchingAncestors n pfx = [] then getChildPrefixes n pfx
        else .ok (matchingAncestors n pfx) := by
  unfold getMatchingPrefixes
  simp only
  rw [matchingLoop_ancestors]
  by_cases h : matchingAncestors n pfx = []
  · rw [if_pos h, if_pos (by rw [h]; rfl)]
  · rw [if_neg h, if_neg (fun h0 => h (List.length_eq_zero.mp h0))]

/-- The members of `matchingAncestors`: the keys that are leading prefixes. -/
theorem mem_matchingAncestors (n : Network) (p q : Prefix) :
    q ∈ matchingAncestors n p ↔ (q.bits <+: p.bits ∧ q.Key ∈ n.Sections.keys) := by
  unfold matchingAncestors
  rw [List.mem_filter, List.mem_map, SectionMap.get_isSome_iff]
  constructor
  · rintro ⟨⟨j, _, hj⟩, hk⟩
    refine ⟨?_, hk⟩
    rw [← hj]
    exact List.take_prefix j p.bits
  · rintro ⟨hpre, hk⟩
    refine ⟨⟨q.bits.length, ?_, ?_⟩, hk⟩
    · rw [List.mem_range]
      exact Nat.lt_succ_of_le hpre.length_le
    · cases q with
      | mk qb =>
        simp only
        rw [← List.prefix_iff_eq_take.mp hpre]

/-- The prefixes of `matchingAncestors` come in the order of their length. -/
theorem matchingAncestors_sorted (n : Network) (p : Prefix) :
    (matchingAncestors n p).Pairwise (fun a b => a.bits.length < b.bits.length) := by
  unfold matchingAncestors
  apply List.Pairwise.filter
  rw [List.pairwise_map]
  have hr : (List.range (p.bits.length + 1)).Pairwise (fun a b => a < b) :=
    List.pairwise_lt_range _
  refine List.Pairwise.imp_of_mem ?_ hr
  intro a b ha hb hab
  rw [List.mem_range] at ha hb
  simp only [List.length_take]
  omega

/-- With prefix-free keys, at most one leading prefix is a key. -/
theorem matchingAncestors_single (n : Network) (p : Prefix) (hpf : PrefixFree n.Sections)
    (hne : matchingAncestors n p ≠ []) : ∃ q, matchingAncestors n p = [q] := by
  have hs := matchingAncestors_sorted n p
  cases hl : matchingAncestors n p with
  | nil => exact absurd hl hne
  | cons a rest =>
    cases rest with
    | nil => exact ⟨a, rfl⟩
    | cons b rest2 =>
      exfalso
      rw [hl] at hs
      have hlt : a.bits.length < b.bits.length := by
        have := (List.pairwise_cons.mp hs).1 b (by simp)
        exact this
      have ha := (mem_matchingAncestors n p a).mp (by rw [hl]; simp)
      have hb := (mem_matchingAncestors n p b).mp (by rw [hl]; simp)
      have hab : a.bits <+: b.bits :=
        List.prefix_of_prefix_length_le ha.1 hb.1 (Nat.le_of_lt hlt)
      have := hpf a.Key ha.2 b.Key hb.2 hab
      have hlen : a.bits.length = b.bits.length := congrArg List.length this
      omega

end Network

/-! ## Identifiers -/

/-- The little-endian value of `n` bits is below `2 ^ n`. -/
theorem littleEndian_lt (bits : List Bool) : littleEndian bits < 2 ^ bits.length := by
  induction bits with
  | nil => simp [littleEndian]
  | cons b bs ih =>
    simp only [littleEndian, List.length_cons, pow_succ]
    cases b <;> simp <;> omega

/-- Binary digit `i` of the little-endian value is bit `i` of the sequence. -/
theorem testBit_littleEndian (bits : List Bool) :
    ∀ i, (littleEndian bits).testBit i = bits.getD i false := by
  induction bits with
  | nil => intro i; simp [littleEndian]
  | cons b bs ih =>
    intro i
    cases i with
    | zero =>
      simp only [littleEndian, Nat.testBit_zero, List.getD_cons_zero]
      cases b <;> simp
    | succ i =>
      rw [Nat.testBit_succ, List.getD_cons_succ, ← ih i]
      congr 1
      simp only [littleEndian]
      cases b
      · simp
      · simp only [if_true]; omega

/-- Writing bit `i` moves the little-endian value by `2 ^ i`, in the direction
of the change. -/
theorem littleEndian_set_add (b : Bool) (bits : List Bool) :
    ∀ i, i < bits.length →
      littleEndian (bits.set i b) + (if bits.getD i false = true then 2 ^ i else 0)
        = littleEndian bits + (if b = true then 2 ^ i else 0) := by
  induction bits with
  | nil => intro i hi; simp at hi
  | cons c cs ih =>
    intro i hi
    cases i with
    | zero =>
      simp only [List.set_cons_zero, littleEndian, List.getD_cons_zero, pow_zero]
      cases b <;> cases c <;> simp <;> omega
    | succ i =>
      have hi2 : i < cs.length := by simpa using hi
      have := ih i hi2
      simp only [List.set_cons_succ, littleEndian, List.getD_cons_succ, pow_succ]
      split_ifs at this ⊢ <;> omega

/-- A list is unchanged by writing the bit it already has. -/
theorem set_getD_self (bits : List Bool) :
    ∀ i, i < bits.length → bits.set i (bits.getD i false) = bits := by
  induction bits with
  | nil => intro i hi; simp at hi
  | cons c cs ih =>
    intro i hi
    cases i with
    | zero => rfl
    | succ i =>
      have hi2 : i < cs.length := by simpa using hi
      simp only [List.set_cons_succ, List.getD_cons_succ, ih i hi2]

/-- On the little-endian value of a bit sequence, `big.Int.SetBit` at an index
of the sequence is the write of that bit. -/
theorem bigSetBit_littleEndian (bits : List Bool) (i : Nat) (b : Bool) (hi : i < bits.length) :
    bigSetBit (littleEndian bits) i b = littleEndian (bits.set i b) := by
  unfold bigSetBit
  rw [testBit_littleEndian]
  have hadd := littleEndian_set_add b bits i hi
  by_cases hsame : bits.getD i false = b
  · rw [if_pos hsame, ← hsame, set_getD_self bits i hi]
  · rw [if_neg hsame]
    cases b with
    | true =>
      have hf : bits.getD i false = false := by
        cases hg : bits.getD i false with
        | false => rfl
        | true => exact absurd hg hsame
      rw [hf] at hadd
      simp only [if_true, Bool.false_eq_true, if_false, add_zero] at hadd
      simp only [if_true]
      exact hadd.symm
    | false =>
      have hf : bits.getD i false = true := by
        cases hg : bits.getD i false with
        | true => rfl
        | false => exact absurd hg hsame
      rw [hf] at hadd
      simp only [if_true, Bool.false_eq_true, if_false, add_zero] at hadd
      simp only [Bool.false_eq_true, if_false]
      omega

/-- Bit sequences of one length with the same little-endian value are equal. -/
theorem littleEndian_injective (a b : List Bool) (hlen : a.length = b.length)
    (h : littleEndian a = littleEndian b) : a = b := by
  apply List.ext_getElem hlen
  intro i h1 h2
  have ha := testBit_littleEndian a i
  have hb := testBit_littleEndian b i
  rw [h] at ha
  rw [ha] at hb
  rw [List.getD_eq_getElem _ _ h1, List.getD_eq_getElem _ _ h2] at hb
  exact hb

/-- The little-endian value of zero bits only is zero. -/
theorem littleEndian_replicate (k : Nat) : littleEndian (List.replicate k false) = 0 := by
  induction k with
  | zero => rfl
  | succ k ih => simp [List.replicate_succ, littleEndian, ih]

/-- An identifier is consistent exactly if it has 256 bits and its numeric view
is their little-endian value. -/
theorem XorName.consistent_iff (x : XorName) :
    x.Consistent ↔ x.bits.length = 256 ∧ x.bigint = littleEndian x.bits := by
  constructor
  · rintro ⟨hlen, hlt, hbits⟩
    refine ⟨hlen, ?_⟩
    apply Nat.eq_of_testBit_eq
    intro i
    rw [testBit_littleEndian]
    by_cases hi : i < 256
    · exact hbits i hi
    · have h1 : x.bigint.testBit i = false := by
        apply Nat.testBit_lt_two_pow
        calc x.bigint < 2 ^ 256 := hlt
          _ ≤ 2 ^ i := Nat.pow_le_pow_right (by decide) (by omega)
      have h2 : x.bits.getD i false = false := by
        apply List.getD_eq_default
        omega
      rw [h1, h2]
  · rintro ⟨hlen, hval⟩
    refine ⟨hlen, ?_, ?_⟩
    · rw [hval, ← hlen]; exact littleEndian_lt _
    · intro i _
      rw [hval]; exact testBit_littleEndian _ i

/-- One iteration of the loop of `NewXorName`, at an index of the sequence,
keeps the numeric view equal to the little-endian value of the bits. -/
theorem newXorNameStep_spec (bit i : Nat) (x : XorName) (hi : i < x.bits.length)
    (hval : x.bigint = littleEndian x.bits) :
    (newXorNameStep bit i x).bits.length = x.bits.length ∧
    (newXorNameStep bit i x).bigint = littleEndian (newXorNameStep bit i x).bits := by
  unfold newXorNameStep
  by_cases h0 : bit = 0
  · rw [if_pos h0]
    simp only [List.length_set, true_and]
    rw [hval, bigSetBit_littleEndian _ _ _ hi]
  · rw [if_neg h0]
    by_cases h1 : bit = 1
    · rw [if_pos h1]
      simp only [List.length_set, true_and]
      rw [hval, bigSetBit_littleEndian _ _ _ hi]
    · rw [if_neg h1]
      exact ⟨rfl, hval⟩

/-- The loop of `NewXorName` over indices of the sequence keeps the numeric
view equal to the little-endian value of the bits. -/
theorem newXorNameLoop_spec (draw : Nat → Nat) :
    ∀ (l : List Nat) (x : XorName), (∀ i ∈ l, i < x.bits.length) →
      x.bigint = littleEndian x.bits →
      (newXorNameLoop draw l x).bits.length = x.bits.length ∧
      (newXorNameLoop draw l x).bigint = littleEndian (newXorNameLoop draw l x).bits := by
  intro l
  induction l with
  | nil => intro x _ hval; exact ⟨rfl, hval⟩
  | cons i rest ih =>
    intro x hl hval
    obtain ⟨s1, s2⟩ := newXorNameStep_spec (draw i) i x (hl i (by simp)) hval
    have := ih (newXorNameStep (draw i) i x)
      (by intro j hj; rw [s1]; exact hl j (by simp [hj])) s2
    simp only [newXorNameLoop]
    rw [s1] at this
    exact this

/-- The identifiers of `NewXorName` are consistent. -/
theorem NewXorName_consistent (draw : Nat → Nat) : (NewXorName draw).Consistent := by
  rw [XorName.consistent_iff]
  have := newXorNameLoop_spec draw (List.range xornameBits)
    ⟨0, List.replicate xornameBits false⟩
    (by intro i hi; simpa using hi)
    (by simp only; rw [littleEndian_replicate])
  unfold NewXorName
  refine ⟨?_, this.2⟩
  rw [this.1]
  exact List.length_replicate _ _

/-- `SetBit` at an index below 256 completes on a consistent identifier and
leaves it consistent. -/
theorem XorName.SetBit_consistent (x : XorName) (i : Nat) (b : Bool) (hx : x.Consistent)
    (hi : i < 256) :
    x.SetBit i b = .ok ⟨bigSetBit x.bigint i b, x.bits.set i b⟩ ∧
    (⟨bigSetBit x.bigint i b, x.bits.set i b⟩ : XorName).Consistent := by
  have hc := (XorName.consistent_iff x).mp hx
  have hil : i < x.bits.length := by rw [hc.1]; exact hi
  refine ⟨?_, ?_⟩
  · unfold XorName.SetBit
    rw [if_pos hil]
  · rw [XorName.consistent_iff]
    simp only [List.length_set]
    refine ⟨hc.1, ?_⟩
    rw [hc.2, bigSetBit_littleEndian _ _ _ hil]

/-- Every identifier that `NewXorName` and `SetBit` produce is consistent. -/
theorem XorName.Produced.consistent (x : XorName) (h : XorName.Produced x) :
    x.Consistent := by
  induction h with
  | fresh draw => exact NewXorName_consistent draw
  | setBit x x1 i b _ hset ih =>
    have hc := (XorName.consistent_iff x).mp ih
    unfold XorName.SetBit at hset
    by_cases hil : i < x.bits.length
    · rw [if_pos hil] at hset
      simp only [Except.ok.injEq] at hset
      rw [← hset]
      exact (XorName.SetBit_consistent x i b ih (by rw [← hc.1]; exact hil)).2
    · rw [if_neg hil] at hset
      cases hset

/-! ## The age histogram -/

/-- A read after a write of the histogram. -/
theorem AgeMap.read_write (m : AgeMap) (a c b : Nat) :
    (m.set a c).get b = if a = b then some c else m.get b := by
  unfold AgeMap.set
  by_cases hab : a = b
  · simp only [AgeMap.get, hab, if_true]
  · simp only [AgeMap.get, if_neg hab]
    induction m with
    | nil => rfl
    | cons e m ih =>
      obtain ⟨a1, c1⟩ := e
      by_cases h1 : a1 = a
      · simp only [List.filter_cons, h1, ne_eq, not_true_eq_false, decide_False,
          Bool.false_eq_true, if_false, AgeMap.get, if_neg hab]
        exact ih
      · simp only [List.filter_cons, ne_eq, h1, not_false_eq_true, decide_True, if_true,
          AgeMap.get]
        rw [ih]

/-- The keys of the histogram are the ages at which the two-value read finds
a count. -/
theorem AgeMap.read_isSome_iff (m : AgeMap) (a : Nat) :
    (m.get a).isSome = true ↔ a ∈ m.keys := by
  induction m with
  | nil => simp [AgeMap.get, AgeMap.keys]
  | cons e m ih =>
    obtain ⟨a1, c1⟩ := e
    by_cases h1 : a1 = a
    · simp [AgeMap.get, AgeMap.keys, h1]
    · have h2 : ¬ a = a1 := fun h => h1 h.symm
      simp only [AgeMap.get, if_neg h1, ih, AgeMap.keys, List.map_cons, List.mem_cons, h2,
        false_or]

namespace Network

/-- One vault of the inner loop of `ReportAges`: if the state holds the counts
and the distinct ages of the ages `l` read so far, the next state holds those
of `l` followed by the age of the vault. -/
theorem reportVault_spec (st : AgeMap × List Nat) (l : List Nat) (v : Vault)
    (hget : ∀ a, st.1.get a = if a ∈ l then some (l.count a) else none)
    (hnd : st.2.Nodup) (hmem : ∀ a, a ∈ st.2 ↔ a ∈ l) :
    (∀ a, (reportVault st v).1.get a
        = if a ∈ l ++ [v.Age] then some ((l ++ [v.Age]).count a) else none) ∧
    (reportVault st v).2.Nodup ∧ (∀ a, a ∈ (reportVault st v).2 ↔ a ∈ l ++ [v.Age]) := by
  unfold reportVault
  by_cases hex : (st.1.get v.Age).isSome = true
  · have hin : v.Age ∈ l := by
      by_contra hnot
      rw [hget, if_neg hnot] at hex
      cases hex
    simp only [if_pos hex]
    refine ⟨?_, hnd, ?_⟩
    · intro a
      rw [AgeMap.read_write]
      by_cases ha : v.Age = a
      · subst ha
        simp [AgeMap.count, hget, hin]
      · have ha2 : ¬ a = v.Age := fun h => ha h.symm
        rw [if_neg ha, hget]
        simp [ha2, List.count_append]
    · intro a
      rw [hmem, List.mem_append, List.mem_singleton]
      constructor
      · exact Or.inl
      · rintro (h | h)
        · exact h
        · rw [h]; exact hin
  · have hnin : v.Age ∉ l := by
      intro hin
      rw [hget, if_pos hin] at hex
      exact hex rfl
    simp only [if_neg hex]
    refine ⟨?_, ?_, ?_⟩
    · intro a
      rw [AgeMap.read_write]
      by_cases ha : v.Age = a
      · subst ha
        simp [AgeMap.count, AgeMap.read_write, List.count_eq_zero_of_not_mem hnin]
      · have ha2 : ¬ a = v.Age := fun h => ha h.symm
        rw [if_neg ha, AgeMap.read_write, if_neg ha, hget]
        simp [ha2, List.count_append]
    · rw [List.nodup_append]
      refine ⟨hnd, List.nodup_singleton _, ?_⟩
      intro a h1 h2
      rw [List.mem_singleton] at h2
      rw [h2, hmem] at h1
      exact hnin h1
    · intro a
      simp only [List.mem_append, List.mem_singleton, hmem]

/-- The inner loop of `ReportAges` over the vaults of one section. -/
theorem reportVaults_spec :
    ∀ (vs : List Vault) (st : AgeMap × List Nat) (l : List Nat),
      (∀ a, st.1.get a = if a ∈ l then some (l.count a) else none) →
      st.2.Nodup → (∀ a, a ∈ st.2 ↔ a ∈ l) →
      (∀ a, (reportVaults vs st).1.get a
          = if a ∈ l ++ vs.map (fun v => v.Age)
            then some ((l ++ vs.map (fun v => v.Age)).count a) else none) ∧
      (reportVaults vs st).2.Nodup ∧
      (∀ a, a ∈ (reportVaults vs st).2 ↔ a ∈ l ++ vs.map (fun v => v.Age)) := by
  intro vs
  induction vs with
  | nil =>
    intro st l hget hnd hmem
    simp only [reportVaults, List.map_nil, List.append_nil]
    exact ⟨hget, hnd, hmem⟩
  | cons v vs ih =>
    intro st l hget hnd hmem
    obtain ⟨g1, n1, m1⟩ := reportVault_spec st l v hget hnd hmem
    have := ih (reportVault st v) (l ++ [v.Age]) g1 n1 m1
    simp only [reportVaults, List.map_cons]
    rw [List.append_assoc, List.singleton_append] at this
    exact this

/-- The outer loop of `ReportAges` over the entries of the map. -/
theorem reportSections_spec :
    ∀ (m : SectionMap) (st : AgeMap × List Nat) (l : List Nat),
      (∀ a, st.1.get a = if a ∈ l then some (l.count a) else none) →
      st.2.Nodup → (∀ a, a ∈ st.2 ↔ a ∈ l) →
      (∀ a, (reportSections m st).1.get a
          = if a ∈ l ++ allAges m then some ((l ++ allAges m).count a) else none) ∧
      (reportSections m st).2.Nodup ∧
      (∀ a, a ∈ (reportSections m st).2 ↔ a ∈ l ++ allAges m) := by
  intro m
  induction m with
  | nil =>
    intro st l hget hnd hmem
    simp only [reportSections, allAges, List.flatMap_nil, List.append_nil]
    exact ⟨hget, hnd, hmem⟩
  | cons e m ih =>
    intro st l hget hnd hmem
    obtain ⟨k, sec⟩ := e
    obtain ⟨g1, n1, m1⟩ := reportVaults_spec sec.Vaults st l hget hnd hmem
    have := ih (reportVaults sec.Vaults st) _ g1 n1 m1
    simp only [reportSections]
    have hall : allAges ((k, sec) :: m) = sec.Vaults.map (fun v => v.Age) ++ allAges m := by
      simp [allAges, List.flatMap_cons]
    rw [hall, ← List.append_assoc]
    exact this

/-- The state of `ReportAges` before the sort: the counts and the distinct ages
of all vaults. -/
theorem reportSections_all (m : SectionMap) :
    (∀ a, (reportSections m ([], [])).1.get a
        = if a ∈ allAges m then some ((allAges m).count a) else none) ∧
    (reportSections m ([], [])).2.Nodup ∧
    (∀ a, a ∈ (reportSections m ([], [])).2 ↔ a ∈ allAges m) := by
  have := reportSections_spec m ([], []) [] (by intro a; simp [AgeMap.get])
    List.nodup_nil (by intro a; simp)
  simpa using this

/-- The count that the histogram of `ReportAges` holds for an age. -/
theorem ReportAges_count (n : Network) (a : Nat) :
    (ReportAges n).1.count a = (allAges n.Sections).count a := by
  unfold ReportAges AgeMap.count
  simp only
  rw [(reportSections_all n.Sections).1 a]
  by_cases h : a ∈ allAges n.Sections
  · rw [if_pos h]; rfl
  · rw [if_neg h, List.count_eq_zero_of_not_mem h]; rfl

/-- The key list of `ReportAges` is strictly ascending. -/
theorem ReportAges_sorted (n : Network) :
    (ReportAges n).2.Pairwise (fun a b => a < b) := by
  unfold ReportAges
  simp only
  have hs : ((reportSections n.Sections ([], [])).2.insertionSort (fun a b => a ≤ b)).Sorted
      (fun a b => a ≤ b) := List.sorted_insertionSort _ _
  have hn : ((reportSections n.Sections ([], [])).2.insertionSort (fun a b => a ≤ b)).Nodup :=
    (List.perm_insertionSort _ _).nodup_iff.mpr (reportSections_all n.Sections).2.1
  exact List.Sorted.lt_of_le hs hn

/-- The members of the key list of `ReportAges` are the ages of the vaults. -/
theorem mem_ReportAges (n : Network) (a : Nat) :
    a ∈ (ReportAges n).2 ↔ a ∈ allAges n.Sections := by
  unfold ReportAges
  simp only
  rw [(List.perm_insertionSort _ _).mem_iff]
  exact (reportSections_all n.Sections).2.2 a

/-- The loop of `TotalVaults` adds the number of all vaults to its total. -/
theorem totalVaultsLoop_eq :
    ∀ (m : SectionMap) (acc : Nat), totalVaultsLoop m acc = acc + (allAges m).length := by
  intro m
  induction m with
  | nil => intro acc; simp [totalVaultsLoop, allAges]
  | cons e m ih =>
    intro acc
    obtain ⟨k, sec⟩ := e
    simp only [totalVaultsLoop]
    rw [ih]
    simp [allAges, List.flatMap_cons]
    omega

/-- The key list of `ReportAges` is the sorted list of the distinct ages. -/
theorem ReportAges_perm (n : Network) :
    List.Perm (ReportAges n).2 (allAges n.Sections).dedup := by
  have hn : (ReportAges n).2.Nodup := by
    have := ReportAges_sorted n
    exact this.imp (fun h => Nat.ne_of_lt h)
  rw [List.perm_ext_iff_of_nodup hn (List.nodup_dedup _)]
  intro a
  rw [mem_ReportAges, List.mem_dedup]

end Network

/-! ## The size policy -/

namespace Network

/-- An admissible sequence of calls from `NewNetwork()` ends, when it completes,
in the empty network or in a network with the invariant. -/
theorem run_good (pol : Policy) (hpol : pol.Sound) (fuel : Nat) (ops : List Op)
    (n : Network) (hadm : admissible (specOps pol) fuel NewNetwork ops = true)
    (hrun : run (specOps pol) fuel NewNetwork ops = .ok n) :
    n.Sections = [] ∨ n.Inv := by
  cases ops with
  | nil =>
    simp only [run, Except.ok.injEq] at hrun
    rw [← hrun]; exact Or.inl rfl
  | cons op rest =>
    right
    simp only [run] at hrun
    simp only [admissible, Bool.and_eq_true] at hadm
    cases hs : step (specOps pol) fuel NewNetwork op with
    | error err => rw [hs] at hrun; cases hrun
    | ok n1 =>
      rw [hs] at hrun hadm
      simp only at hrun hadm
      have hinv1 : n1.Inv := by
        cases op with
        | add v =>
          have hv := hadm.1
          simp only [decide_eq_true_eq] at hv
          simp only [step, AddVault] at hs
          cases ha : AddVaultWith (specOps pol) (relocateVault (specOps pol) fuel)
              NewNetwork v with
          | error err => rw [ha] at hs; cases hs
          | ok res =>
            obtain ⟨n1', d⟩ := res
            rw [ha] at hs
            simp only [Except.ok.injEq] at hs
            rw [← hs]
            exact AddVaultWith_inv pol hpol _ (relocateVault_inv pol hpol fuel)
              NewNetwork n1' v d (Or.inl rfl) hv ha
        | remove v =>
          have hv := hadm.1
          simp [holds, NewNetwork] at hv
      exact run_inv pol hpol fuel rest n1 n hinv1 hadm.2 hrun

/-- The three ways in which `AddVault` completes under the spec's Section
operations: the vault is refused; it is admitted and the section splits; it is
admitted without a split, and a relocation that the join flags is carried
out. -/
theorem AddVaultWith_cases (pol : Policy)
    (relocate : Network → NetworkEvent → Except Fault Network)
    (n n' : Network) (v : Vault) (d : Bool)
    (h : AddVaultWith (specOps pol) relocate n v = .ok (n', d)) :
    ∃ n1 k sec, locateSection (specOps pol) n v = .ok (n1, some (k, sec)) ∧
      ((d = true ∧ n' = { n1 with Sections := n1.Sections.set k sec }) ∨
       (d = false ∧ SplitSize ≤ sec.Vaults.length + 1 ∧
        ∃ ls rs, Section.split ⟨sec.Prefix, sec.Vaults ++ [v.SetPrefix sec.Prefix]⟩
            = .ok { NewSections := [⟨sec.Prefix.extendLeft, ls⟩, ⟨sec.Prefix.extendRight, rs⟩]
                    VaultToRelocate := none } ∧
          ls.length + rs.length = sec.Vaults.length + 1 ∧
          n' = { n1 with
            TotalSplits := wrapInt (n1.TotalSplits + 1)
            Sections := ((((n1.Sections.set k
                ⟨sec.Prefix, sec.Vaults ++ [v.SetPrefix sec.Prefix]⟩).set
                  sec.Prefix.extendLeft.Key ⟨sec.Prefix.extendLeft, ls⟩).set
                  sec.Prefix.extendRight.Key ⟨sec.Prefix.extendRight, rs⟩).delete
                    sec.Prefix.Key) }) ∨
       (d = false ∧ sec.Vaults.length + 1 < SplitSize ∧
        relocateIfFlagged relocate
          { n1 with Sections := (n1.Sections.set k
              ⟨sec.Prefix, sec.Vaults ++ [v.SetPrefix sec.Prefix]⟩) }
          (some { NewSections := []
                  VaultToRelocate := pol.relocateOnJoin
                    ⟨sec.Prefix, sec.Vaults ++ [v.SetPrefix sec.Prefix]⟩
                    (v.SetPrefix sec.Prefix) }) = .ok n')) := by
  unfold AddVaultWith at h
  cases hloc : locateSection (specOps pol) n v with
  | error e => rw [hloc] at h; cases h
  | ok r =>
    obtain ⟨n1, o⟩ := r
    rw [hloc] at h
    cases o with
    | none => cases h
    | some ks =>
      obtain ⟨k, sec⟩ := ks
      refine ⟨n1, k, sec, rfl, ?_⟩
      simp only at h
      have hadd : (specOps pol).addVault sec v = Section.addVault pol sec v := rfl
      rw [hadd] at h
      unfold Section.addVault at h
      by_cases hd : pol.disallow sec v = true
      · left
        rw [if_pos hd] at h
        simp only [applySplit, relocateIfFlagged, Except.ok.injEq, Prod.mk.injEq] at h
        exact ⟨h.2.symm, h.1.symm⟩
      · right
        rw [if_neg hd] at h
        simp only at h
        by_cases hs : (sec.Vaults ++ [v.SetPrefix sec.Prefix]).length ≥ SplitSize
        · left
          rw [if_pos hs] at h
          cases hsp : Section.split
              ⟨sec.Prefix, sec.Vaults ++ [v.SetPrefix sec.Prefix]⟩ with
          | error err => rw [hsp] at h; cases h
          | ok e =>
            rw [hsp] at h
            simp only at h
            obtain ⟨ls, rs, he, _, hlen⟩ := split_eq _ _ hsp
            subst he
            simp only [applySplit, List.length_cons, List.length_nil, relocateIfFlagged,
              Option.isSome_none, Bool.false_eq_true, if_false, Except.ok.injEq,
              Prod.mk.injEq, storeSections] at h
            have hpos : (0 + 1 + 1 > 0) := by omega
            rw [if_pos hpos] at h
            simp only [List.length_append, List.length_singleton] at hs hlen
            exact ⟨h.2.symm, hs, ls, rs, rfl, hlen, h.1.symm⟩
        · right
          rw [if_neg hs] at h
          simp only [applySplit, List.length_nil, gt_iff_lt, lt_self_iff_false, if_false] at h
          simp only [List.length_append, List.length_singleton, ge_iff_le, not_le] at hs
          cases hr : relocateIfFlagged relocate
              { n1 with Sections := (n1.Sections.set k
                  ⟨sec.Prefix, sec.Vaults ++ [v.SetPrefix sec.Prefix]⟩) }
              (some { NewSections := []
                      VaultToRelocate := pol.relocateOnJoin
                        ⟨sec.Prefix, sec.Vaults ++ [v.SetPrefix sec.Prefix]⟩
                        (v.SetPrefix sec.Prefix) }) with
          | error err => rw [hr] at h; cases h
          | ok n4 =>
            rw [hr] at h
            simp only [Except.ok.injEq, Prod.mk.injEq] at h
            exact ⟨h.2.symm, hs, by rw [h.1]⟩

/-- The three ways in which `RemoveVault` completes under the spec's Section
operations: no section is found; the section found is merged; the section
found stays, and a relocation that the departure flags is carried out. -/
theorem RemoveVaultWith_cases (pol : Policy)
    (relocate : Network → NetworkEvent → Except Fault Network)
    (n n' : Network) (v : Vault)
    (h : RemoveVaultWith (specOps pol) relocate n v = .ok n') :
    (n.Sections.get v.Prefix.Key = none ∧
      n' = { n with TotalDepartures := wrapInt (n.TotalDepartures + 1) }) ∨
    ∃ sec, n.Sections.get v.Prefix.Key = some sec ∧
      (((sec.Vaults.erase v).length < MergeThreshold ∧
        HasMoreThanOneSection { n with
          TotalDepartures := wrapInt (n.TotalDepartures + 1)
          Sections := n.Sections.set v.Prefix.Key ⟨sec.Prefix, sec.Vaults.erase v⟩ } = true ∧
        mergeSection (specOps pol) { n with
          TotalDepartures := wrapInt (n.TotalDepartures + 1)
          Sections := n.Sections.set v.Prefix.Key ⟨sec.Prefix, sec.Vaults.erase v⟩ }
          ⟨sec.Prefix, sec.Vaults.erase v⟩ v = .ok n') ∨
       ((MergeThreshold ≤ (sec.Vaults.erase v).length ∨
          HasMoreThanOneSection { n with
            TotalDepartures := wrapInt (n.TotalDepartures + 1)
            Sections := n.Sections.set v.Prefix.Key ⟨sec.Prefix, sec.Vaults.erase v⟩ }
            = false) ∧
        relocateIfFlagged relocate { n with
          TotalDepartures := wrapInt (n.TotalDepartures + 1)
          Sections := n.Sections.set v.Prefix.Key ⟨sec.Prefix, sec.Vaults.erase v⟩ }
          (some { NewSections := []
                  VaultToRelocate :=
                    pol.relocateOnDeparture ⟨sec.Prefix, sec.Vaults.erase v⟩ v }) = .ok n')) := by
  unfold RemoveVaultWith at h
  simp only at h
  cases hget : n.Sections.get v.Prefix.Key with
  | none =>
    left
    rw [hget] at h
    simp only [Except.ok.injEq] at h
    exact ⟨rfl, h.symm⟩
  | some sec =>
    right
    refine ⟨sec, rfl, ?_⟩
    rw [hget] at h
    have hrem : (specOps pol).removeVault sec v
        = .ok (⟨sec.Prefix, sec.Vaults.erase v⟩,
            some { NewSections := []
                   VaultToRelocate :=
                     pol.relocateOnDeparture ⟨sec.Prefix, sec.Vaults.erase v⟩ v }) := rfl
    simp only [hrem] at h
    by_cases hm : ((specOps pol).shouldMerge ⟨sec.Prefix, sec.Vaults.erase v⟩ &&
        HasMoreThanOneSection { n with
          TotalDepartures := wrapInt (n.TotalDepartures + 1)
          Sections := n.Sections.set v.Prefix.Key ⟨sec.Prefix, sec.Vaults.erase v⟩ }) = true
    · left
      rw [if_pos hm] at h
      simp only [Bool.and_eq_true] at hm
      have h1 : Section.shouldMerge ⟨sec.Prefix, sec.Vaults.erase v⟩ = true := hm.1
      simp only [Section.shouldMerge, decide_eq_true_eq] at h1
      exact ⟨h1, hm.2, h⟩
    · right
      rw [if_neg hm] at h
      refine ⟨?_, h⟩
      simp only [Bool.and_eq_true, not_and, Bool.not_eq_true] at hm
      by_cases h1 : Section.shouldMerge ⟨sec.Prefix, sec.Vaults.erase v⟩ = true
      · exact Or.inr (hm h1)
      · left
        simp only [Section.shouldMerge, decide_eq_true_eq, not_lt] at h1
        exact h1

/-- What `relocateIfFlagged` returns: the network itself, or the result of the
relocation of the vault flagged. -/
theorem relocateIfFlagged_cases (relocate : Network → NetworkEvent → Except Fault Network)
    (n n' : Network) (f : Option Vault)
    (h : relocateIfFlagged relocate n (some { NewSections := [], VaultToRelocate := f })
      = .ok n') :
    (f = none ∧ n' = n) ∨
    ∃ r, f = some r ∧ relocate n { NewSections := [], VaultToRelocate := some r } = .ok n' := by
  unfold relocateIfFlagged at h
  cases f with
  | none =>
    simp only [Option.isSome_none, Bool.false_eq_true, if_false, Except.ok.injEq] at h
    exact Or.inl ⟨rfl, h.symm⟩
  | some r =>
    simp only [Option.isSome_some, if_true] at h
    exact Or.inr ⟨r, rfl, h⟩

/-- The size policy at a join, under the spec's Section operations, in the empty
network or a network with the invariant: there is a network `n3`, the network
right after the join and its split handling, that has the invariant and in
which the owning section is unchanged (vault refused), or holds the new member
and has fewer than `SplitSize` members, or is replaced by its two children,
which hold all members between them; every other key holds what it held; and
the call returns `n3` or the result of relocating, from `n3`, a vault that the
join flagged. -/
theorem join_policy (pol : Policy) (hpol : pol.Sound)
    (relocate : Network → NetworkEvent → Except Fault Network)
    (n n' : Network) (v : Vault) (d : Bool)
    (hgood : n.Sections = [] ∨ n.Inv) (hv : v.Name.bits.length = 256)
    (h : AddVaultWith (specOps pol) relocate n v = .ok (n', d)) :
    ∃ n1 sec n3, locateSection (specOps pol) n v = .ok (n1, some (sec.Prefix.Key, sec)) ∧
      n3.Inv ∧
      ((d = true ∧ n3.Sections.get sec.Prefix.Key = some sec ∧
          ∀ k, k ≠ sec.Prefix.Key → n3.Sections.get k = n.Sections.get k) ∨
       (d = false ∧ sec.Vaults.length + 1 < SplitSize ∧
          n3.Sections.get sec.Prefix.Key
            = some ⟨sec.Prefix, sec.Vaults ++ [v.SetPrefix sec.Prefix]⟩ ∧
          ∀ k, k ≠ sec.Prefix.Key → n3.Sections.get k = n.Sections.get k) ∨
       (d = false ∧ SplitSize ≤ sec.Vaults.length + 1 ∧
          n3.Sections.get sec.Prefix.Key = none ∧
          (∃ l r, n3.Sections.get sec.Prefix.extendLeft.Key = some l ∧
            n3.Sections.get sec.Prefix.extendRight.Key = some r ∧
            l.Vaults.length + r.Vaults.length = sec.Vaults.length + 1) ∧
          ∀ k, k ≠ sec.Prefix.Key → k ≠ sec.Prefix.extendLeft.Key →
            k ≠ sec.Prefix.extendRight.Key → n3.Sections.get k = n.Sections.get k)) ∧
      (n' = n3 ∨ ∃ r, r.Name.bits.length = 256 ∧
        relocate n3 { NewSections := [], VaultToRelocate := some r } = .ok n') := by
  obtain ⟨n1, k, sec, hloc, hcases⟩ := AddVaultWith_cases pol relocate n n' v d h
  obtain ⟨k0, sec0, ho, hinv1, hget1⟩ := locateSection_inv pol n n1 v _ hgood hv hloc
  simp only [Option.some.injEq, Prod.mk.injEq] at ho
  obtain ⟨hk0, hs0⟩ := ho
  subst hk0; subst hs0
  have hkey : sec.Prefix.Key = k := (hinv1.2.2 k sec hget1).1
  have hsecn := (hinv1.2.2 k sec hget1).2
  obtain ⟨_, hother, _⟩ := locateSection_spec pol n n1 v k sec hloc
  subst hkey
  have hn1 : ∀ u ∈ sec.Vaults ++ [v.SetPrefix sec.Prefix], u.Name.bits.length = 256 := by
    intro u hu
    rcases List.mem_append.mp hu with hu | hu
    · exact hsecn u hu
    · simp only [List.mem_singleton] at hu
      rw [hu]; exact hv
  have hkl : ¬ sec.Prefix.Key = sec.Prefix.extendLeft.Key := by
    simp [Prefix.Key, Prefix.extendLeft]
  have hkr : ¬ sec.Prefix.Key = sec.Prefix.extendRight.Key := by
    simp [Prefix.Key, Prefix.extendRight]
  have hlr : ¬ sec.Prefix.extendRight.Key = sec.Prefix.extendLeft.Key := by
    simp [Prefix.Key, Prefix.extendLeft, Prefix.extendRight]
  rcases hcases with ⟨hd, hn'⟩ | ⟨hd, hsize, ls, rs, hsp, hlen, hn'⟩ | ⟨hd, hsize, hrel⟩
  · refine ⟨n1, sec, n', hloc, ?_, Or.inl ⟨hd, ?_, ?_⟩, Or.inl rfl⟩
    · rw [hn']
      exact MapInv.set hinv1 _ sec sec hget1 rfl hsecn
    · rw [hn']
      simp only
      rw [SectionMap.get_set, if_pos rfl]
    · intro k hk
      rw [hn']
      simp only
      rw [SectionMap.get_set, if_neg (fun he => hk he.symm)]
      exact hother k hk
  · refine ⟨n1, sec, n', hloc, ?_, Or.inr (Or.inr ⟨hd, hsize, ?_,
      ⟨⟨sec.Prefix.extendLeft, ls⟩, ⟨sec.Prefix.extendRight, rs⟩, ?_, ?_, hlen⟩, ?_⟩),
      Or.inl rfl⟩
    · rw [hn']
      have := applySplit_inv n1.Sections hinv1 _ sec
        ⟨sec.Prefix, sec.Vaults ++ [v.SetPrefix sec.Prefix]⟩ _ hget1 rfl hn1 (by simp) hsp
      simp only [storeSections] at this
      exact this
    · rw [hn']
      simp only
      rw [SectionMap.get_delete, if_pos rfl]
    · rw [hn']
      simp only
      rw [SectionMap.get_delete, if_neg hkl, SectionMap.get_set, if_neg hlr,
        SectionMap.get_set, if_pos rfl]
    · rw [hn']
      simp only
      rw [SectionMap.get_delete, if_neg hkr, SectionMap.get_set, if_pos rfl]
    · intro k hk hl hr
      rw [hn']
      simp only
      rw [SectionMap.get_delete, if_neg (fun he => hk he.symm), SectionMap.get_set,
        if_neg (fun he => hr he.symm), SectionMap.get_set, if_neg (fun he => hl he.symm),
        SectionMap.get_set, if_neg (fun he => hk he.symm)]
      exact hother k hk
  · have hinv3 : Inv { n1 with Sections := (n1.Sections.set sec.Prefix.Key
        ⟨sec.Prefix, sec.Vaults ++ [v.SetPrefix sec.Prefix]⟩) } :=
      MapInv.set hinv1 _ sec _ hget1 rfl hn1
    refine ⟨n1, sec, _, hloc, hinv3, Or.inr (Or.inl ⟨hd, hsize, ?_, ?_⟩), ?_⟩
    · simp only
      rw [SectionMap.get_set, if_pos rfl]
    · intro k hk
      simp only
      rw [SectionMap.get_set, if_neg (fun he => hk he.symm)]
      exact hother k hk
    · rcases relocateIfFlagged_cases relocate _ n' _ hrel with ⟨_, hn'⟩ | ⟨r, hf, hr⟩
      · exact Or.inl hn'
      · exact Or.inr ⟨r, hn1 r (hpol.1 _ _ _ hf), hr⟩

/-- The size policy at a merge, under the spec's Section operations, in a
network with the invariant and more than one section: the prefix of the
departing vault is `p ++ [b]`; every key that does not extend `p` holds what it
held; and with `t` the members left in the section plus the members of the
sections under the sibling `p ++ [!b]`, either `t ≤ SplitSize` and the only key
under `p` is `p`, holding a section of `t` members, or `t > SplitSize` and the
only keys under `p` are its two children, holding `t` members between them. -/
theorem merge_policy (pol : Policy) (n n' : Network) (v : Vault) (sec : Section)
    (hinv : n.Inv) (hget : n.Sections.get v.Prefix.Key = some sec)
    (hmore : HasMoreThanOneSection { n with
      TotalDepartures := wrapInt (n.TotalDepartures + 1)
      Sections := n.Sections.set v.Prefix.Key ⟨sec.Prefix, sec.Vaults.erase v⟩ } = true)
    (hm : mergeSection (specOps pol) { n with
      TotalDepartures := wrapInt (n.TotalDepartures + 1)
      Sections := n.Sections.set v.Prefix.Key ⟨sec.Prefix, sec.Vaults.erase v⟩ }
      ⟨sec.Prefix, sec.Vaults.erase v⟩ v = .ok n') :
    n.HasMoreThanOneSection = true ∧
    ∃ p b, v.Prefix.bits = p ++ [b] ∧
      (∀ k, ¬ p <+: k → n'.Sections.get k = n.Sections.get k) ∧
      (((sec.Vaults.erase v).length + (membersUnder n.Sections (p ++ [!b])).length
            ≤ SplitSize ∧
          (∃ s, n'.Sections.get p = some s ∧
            s.Vaults.length = (sec.Vaults.erase v).length
              + (membersUnder n.Sections (p ++ [!b])).length) ∧
          ∀ k, p <+: k → k ≠ p → n'.Sections.get k = none) ∨
       (SplitSize < (sec.Vaults.erase v).length
            + (membersUnder n.Sections (p ++ [!b])).length ∧
          (∃ l r, n'.Sections.get (p ++ [false]) = some l ∧
            n'.Sections.get (p ++ [true]) = some r ∧
            l.Vaults.length + r.Vaults.length = (sec.Vaults.erase v).length
              + (membersUnder n.Sections (p ++ [!b])).length) ∧
          ∀ k, p <+: k → k ≠ p ++ [false] → k ≠ p ++ [true] →
            n'.Sections.get k = none)) := by
  obtain ⟨hnd, hpart, hst⟩ := hinv
  have hSp : sec.Prefix = v.Prefix := Prefix.key_injective (hst _ _ hget).1
  have hkmem : v.Prefix.Key ∈ n.Sections.keys := by
    rw [← SectionMap.get_isSome_iff, hget]; rfl
  have hmore1 : 1 < n.Sections.length := by
    have := (HasMoreThanOneSection_iff _).mp hmore
    simp only at this
    rw [length_set_of_mem _ _ _ hnd hkmem] at this
    exact this
  have hlen1 : 1 ≤ v.Prefix.bits.length := by
    by_contra hlt
    have h0 : v.Prefix.bits = [] := by
      cases hb : v.Prefix.bits with
      | nil => rfl
      | cons b bs => rw [hb] at hlt; simp at hlt
    have hroot : ([] : Key) ∈ n.Sections.keys := by
      have : v.Prefix.Key = [] := h0
      rw [← this]; exact hkmem
    have := length_le_one_of_root _ hnd hpart.keysPrefixFree hroot
    omega
  obtain ⟨p, b, hv⟩ : ∃ p b, v.Prefix.bits = p ++ [b] := by
    rcases List.eq_nil_or_concat v.Prefix.bits with h0 | ⟨p, b, hpb⟩
    · rw [h0] at hlen1; simp at hlen1
    · exact ⟨p, b, by rw [hpb, List.concat_eq_append]⟩
  have hvp : v.Prefix = ⟨p ++ [b]⟩ := by
    cases hvv : v.Prefix
    rw [hvv] at hv
    simp only at hv
    rw [hv]
  have hvk : v.Prefix.Key = p ++ [b] := hv
  have hkeys2 : ∀ k, k ∈ (n.Sections.set v.Prefix.Key ⟨sec.Prefix, sec.Vaults.erase v⟩).keys
      ↔ k ∈ n.Sections.keys := by
    intro k
    rw [SectionMap.mem_keys_set]
    constructor
    · rintro (h | h)
      · rw [h]; exact hkmem
      · exact h
    · intro h; exact Or.inr h
  have hpart2 : Partitions (n.Sections.set v.Prefix.Key ⟨sec.Prefix, sec.Vaults.erase v⟩) :=
    PartitionKeys.congr (fun k => (hkeys2 k).symm) hpart
  obtain ⟨D, m4, hDnd, hDmem, hnd4, hget4, hmerge⟩ := mergeSection_spec (specOps pol)
    { n with
      TotalDepartures := wrapInt (n.TotalDepartures + 1)
      Sections := n.Sections.set v.Prefix.Key ⟨sec.Prefix, sec.Vaults.erase v⟩ }
    ⟨sec.Prefix, sec.Vaults.erase v⟩ v p b hv hSp (SectionMap.nodup_set _ _ _ hnd) hpart2
    ((hkeys2 _).mpr hkmem)
  simp only at hDmem hget4 hmerge
  have hDmem' : ∀ k, k ∈ D ↔ k ∈ n.Sections.keys ∧ (p ++ [!b]) <+: k := by
    intro k; rw [hDmem, hkeys2]
  have hsame : D.flatMap (vaultsAt (n.Sections.set v.Prefix.Key ⟨sec.Prefix, sec.Vaults.erase v⟩))
      = D.flatMap (vaultsAt n.Sections) := by
    apply List.flatMap_congr
    intro k hk
    have hpre := ((hDmem k).mp hk).2
    have hne : ¬ v.Prefix.Key = k := by
      intro he
      rw [← he, hvp] at hpre
      have := hpre.eq_of_length (by simp [Prefix.Key])
      simp [Prefix.Key] at this
    simp only [vaultsAt, SectionMap.get_set, if_neg hne]
  have hperm := flatMap_vaultsAt_perm n.Sections hnd (p ++ [!b]) D hDnd hDmem'
  rw [hsame, hm] at hmerge
  have hG : (sec.Vaults.erase v ++ D.flatMap (vaultsAt n.Sections)).length
      = (sec.Vaults.erase v).length + (membersUnder n.Sections (p ++ [!b])).length := by
    rw [List.length_append, hperm.length_eq]
  have hold : ∀ k, ¬ p <+: k → m4.get k = n.Sections.get k := by
    intro k hk
    rw [hget4, if_neg hk, SectionMap.get_set]
    have hne : ¬ v.Prefix.Key = k := by
      intro he
      apply hk
      rw [← he, hvk]
      exact List.prefix_append p [b]
    rw [if_neg hne]
  refine ⟨(HasMoreThanOneSection_iff n).mpr hmore1, p, b, hv, ?_⟩
  by_cases hsz : (sec.Vaults.erase v ++ D.flatMap (vaultsAt n.Sections)).length ≤ SplitSize
  · have hnew : (specOps pol).newSection ⟨p⟩
        (sec.Vaults.erase v ++ D.flatMap (vaultsAt n.Sections))
        = .ok (some { NewSections := [⟨⟨p⟩, (sec.Vaults.erase v
              ++ D.flatMap (vaultsAt n.Sections)).map (fun u => u.SetPrefix ⟨p⟩)⟩]
                      VaultToRelocate := none }) :=
      newSection_single _ _ hsz
    rw [hnew] at hmerge
    simp only [storeSections, Except.ok.injEq] at hmerge
    rw [hmerge]
    refine ⟨?_, Or.inl ⟨by rw [← hG]; exact hsz,
      ⟨⟨⟨p⟩, (sec.Vaults.erase v ++ D.flatMap (vaultsAt n.Sections)).map
        (fun u => u.SetPrefix ⟨p⟩)⟩, ?_, ?_⟩, ?_⟩⟩
    · intro k hk
      simp only
      have hne : ¬ (⟨p⟩ : Prefix).Key = k := by
        intro he; apply hk; rw [← he]; exact List.prefix_refl _
      rw [SectionMap.get_set, if_neg hne]
      exact hold k hk
    · simp only
      rw [SectionMap.get_set]
      exact if_pos rfl
    · simp only [List.length_map]
      exact hG
    · intro k hk hne
      simp only
      have hne2 : ¬ (⟨p⟩ : Prefix).Key = k := fun he => hne he.symm
      rw [SectionMap.get_set, if_neg hne2, hget4, if_pos hk]
  · have hbig : ((sec.Vaults.erase v ++ D.flatMap (vaultsAt n.Sections)).map
        (fun u => u.SetPrefix ⟨p⟩)).length > SplitSize := by
      rw [List.length_map]; omega
    have hnew : (specOps pol).newSection ⟨p⟩
        (sec.Vaults.erase v ++ D.flatMap (vaultsAt n.Sections))
        = (match Section.split ⟨⟨p⟩, (sec.Vaults.erase v
              ++ D.flatMap (vaultsAt n.Sections)).map (fun u => u.SetPrefix ⟨p⟩)⟩ with
           | .ok e => .ok (some e)
           | .error e => .error e) := by
      show Section.newSection _ _ = _
      unfold Section.newSection
      simp only [if_pos hbig]
    rw [hnew] at hmerge
    cases hsp : Section.split ⟨⟨p⟩, (sec.Vaults.erase v
        ++ D.flatMap (vaultsAt n.Sections)).map (fun u => u.SetPrefix ⟨p⟩)⟩ with
    | error err => rw [hsp] at hmerge; cases hmerge
    | ok e =>
      rw [hsp] at hmerge
      obtain ⟨ls, rs, he, _, hlen⟩ := split_eq _ _ hsp
      subst he
      simp only [storeSections, Except.ok.injEq] at hmerge
      rw [hmerge]
      have hL : (⟨p⟩ : Prefix).extendLeft.Key = p ++ [false] := rfl
      have hR : (⟨p⟩ : Prefix).extendRight.Key = p ++ [true] := rfl
      have hlr : ¬ p ++ [true] = p ++ [false] := by simp
      refine ⟨?_, Or.inr ⟨by rw [← hG]; omega,
        ⟨⟨(⟨p⟩ : Prefix).extendLeft, ls⟩, ⟨(⟨p⟩ : Prefix).extendRight, rs⟩, ?_, ?_, ?_⟩, ?_⟩⟩
      · intro k hk
        simp only
        have h1 : ¬ p ++ [true] = k := by
          intro he; apply hk; rw [← he]; exact List.prefix_append p _
        have h2 : ¬ p ++ [false] = k := by
          intro he; apply hk; rw [← he]; exact List.prefix_append p _
        rw [hL, hR, SectionMap.get_set, if_neg h1, SectionMap.get_set, if_neg h2]
        exact hold k hk
      · simp only
        rw [hL, hR, SectionMap.get_set, if_neg hlr, SectionMap.get_set, if_pos rfl]
      · simp only
        rw [hR, SectionMap.get_set, if_pos rfl]
      · simp only [List.length_map] at hlen
        simp only
        rw [hlen, hG]
      · intro k hk h1 h2
        simp only
        rw [hL, hR, SectionMap.get_set, if_neg (fun he => h2 he.symm), SectionMap.get_set,
          if_neg (fun he => h1 he.symm), hget4, if_pos hk]

/-- The size policy at a departure, under the spec's Section operations, in the
empty network or a network with the invariant: no section is found and the
map is as before; or the section found keeps at least `MergeThreshold` members
or is the only one, and stays (in the network `n3`, from which a relocation
that the departure flags is carried out); or it is merged as `merge_policy`
says. -/
theorem departure_policy (pol : Policy) (hpol : pol.Sound)
    (relocate : Network → NetworkEvent → Except Fault Network)
    (n n' : Network) (v : Vault) (hgood : n.Sections = [] ∨ n.Inv)
    (h : RemoveVaultWith (specOps pol) relocate n v = .ok n') :
    (n.Sections.get v.Prefix.Key = none ∧ n'.Sections = n.Sections) ∨
    ∃ sec, n.Sections.get v.Prefix.Key = some sec ∧
      (((MergeThreshold ≤ (sec.Vaults.erase v).length ∨ n.HasMoreThanOneSection = false) ∧
        ∃ n3, n3.Inv ∧
          n3.Sections.get v.Prefix.Key = some ⟨sec.Prefix, sec.Vaults.erase v⟩ ∧
          (∀ k, k ≠ v.Prefix.Key → n3.Sections.get k = n.Sections.get k) ∧
          (n' = n3 ∨ ∃ r, r.Name.bits.length = 256 ∧
            relocate n3 { NewSections := [], VaultToRelocate := some r } = .ok n')) ∨
       ((sec.Vaults.erase v).length < MergeThreshold ∧ n.HasMoreThanOneSection = true ∧
        ∃ p b, v.Prefix.bits = p ++ [b] ∧
          (∀ k, ¬ p <+: k → n'.Sections.get k = n.Sections.get k) ∧
          (((sec.Vaults.erase v).length + (membersUnder n.Sections (p ++ [!b])).length
                ≤ SplitSize ∧
              (∃ s, n'.Sections.get p = some s ∧
                s.Vaults.length = (sec.Vaults.erase v).length
                  + (membersUnder n.Sections (p ++ [!b])).length) ∧
              ∀ k, p <+: k → k ≠ p → n'.Sections.get k = none) ∨
           (SplitSize < (sec.Vaults.erase v).length
                + (membersUnder n.Sections (p ++ [!b])).length ∧
              (∃ l r, n'.Sections.get (p ++ [false]) = some l ∧
                n'.Sections.get (p ++ [true]) = some r ∧
                l.Vaults.length + r.Vaults.length = (sec.Vaults.erase v).length
                  + (membersUnder n.Sections (p ++ [!b])).length) ∧
              ∀ k, p <+: k → k ≠ p ++ [false] → k ≠ p ++ [true] →
                n'.Sections.get k = none)))) := by
  rcases RemoveVaultWith_cases pol relocate n n' v h with ⟨hnone, hn'⟩ | ⟨sec, hget, hc⟩
  · left
    exact ⟨hnone, by rw [hn']⟩
  · right
    refine ⟨sec, hget, ?_⟩
    have hinv : n.Inv := by
      rcases hgood with h0 | hi
      · rw [h0] at hget; cases hget
      · exact hi
    have hkmem : v.Prefix.Key ∈ n.Sections.keys := by
      rw [← SectionMap.get_isSome_iff, hget]; rfl
    rcases hc with ⟨hsmall, hmore, hm⟩ | ⟨hcond, hrel⟩
    · right
      obtain ⟨hm1, hrest⟩ := merge_policy pol n n' v sec hinv hget hmore hm
      exact ⟨hsmall, hm1, hrest⟩
    · left
      have hn1 : ∀ u ∈ sec.Vaults.erase v, u.Name.bits.length = 256 := by
        intro u hu
        exact (hinv.2.2 _ _ hget).2 u (List.mem_of_mem_erase hu)
      have hinv2 : Inv { n with
          TotalDepartures := wrapInt (n.TotalDepartures + 1)
          Sections := n.Sections.set v.Prefix.Key ⟨sec.Prefix, sec.Vaults.erase v⟩ } :=
        MapInv.set hinv _ sec _ hget rfl hn1
      refine ⟨?_, _, hinv2, ?_, ?_, ?_⟩
      · rcases hcond with hc1 | hc2
        · exact Or.inl hc1
        · right
          cases hb : n.HasMoreThanOneSection with
          | false => rfl
          | true =>
            exfalso
            have h1 := (HasMoreThanOneSection_iff n).mp hb
            have h2 : HasMoreThanOneSection { n with
                TotalDepartures := wrapInt (n.TotalDepartures + 1)
                Sections := n.Sections.set v.Prefix.Key ⟨sec.Prefix, sec.Vaults.erase v⟩ }
                = true := by
              rw [HasMoreThanOneSection_iff]
              simp only
              rw [length_set_of_mem _ _ _ hinv.1 hkmem]
              exact h1
            rw [hc2] at h2
            cases h2
      · simp only
        rw [SectionMap.get_set, if_pos rfl]
      · intro k hk
        simp only
        rw [SectionMap.get_set, if_neg (fun he => hk he.symm)]
      · rcases relocateIfFlagged_cases relocate _ n' _ hrel with ⟨_, hn'⟩ | ⟨r, hf, hr⟩
        · exact Or.inl hn'
        · exact Or.inr ⟨r, hn1 r (hpol.2 _ _ _ hf), hr⟩

/-- A completed `relocateVault` is the destination search, the `RemoveVault` of
the vault flagged and the `AddVault` of the vault renamed and aged; from a
network with the invariant and a vault with a 256-bit identifier, the
`AddVault` starts in a network with the invariant, for a vault with a 256-bit
identifier. -/
theorem relocateVault_steps (pol : Policy) (hpol : pol.Sound) (fuel : Nat)
    (n n' : Network) (e : NetworkEvent)
    (h : relocateVault (specOps pol) (fuel + 1) n e = .ok n') :
    ∃ r c dest r1 n2 d, e.VaultToRelocate = some r ∧
      chooseNeighbour { n with TotalRelocations := wrapInt (n.TotalRelocations + 1) } r
        = .ok c ∧
      c.smallestNeighbour = some dest ∧
      Vault.renameWithPrefix r dest.Prefix = .ok r1 ∧
      RemoveVault (specOps pol) fuel
        { n with TotalRelocations := wrapInt (n.TotalRelocations + 1) } r = .ok n2 ∧
      AddVault (specOps pol) fuel n2 r1.IncrementAge = .ok (n', d) ∧
      (n.Inv → r.Name.bits.length = 256 →
        n2.Inv ∧ r1.IncrementAge.Name.bits.length = 256) := by
  simp only [relocateVault, relocateVaultWith] at h
  cases hr : e.VaultToRelocate with
  | none => rw [hr] at h; cases h
  | some r =>
    simp only [hr] at h
    cases hc : chooseNeighbour
        { n with TotalRelocations := wrapInt (n.TotalRelocations + 1) } r with
    | error err => rw [hc] at h; cases h
    | ok c =>
      simp only [hc] at h
      cases hrm : RemoveVaultWith (specOps pol) (relocateVault (specOps pol) fuel)
          { n with TotalRelocations := wrapInt (n.TotalRelocations + 1) } r with
      | error err => rw [hrm] at h; cases h
      | ok n2 =>
        simp only [hrm] at h
        cases hd : c.smallestNeighbour with
        | none => rw [hd] at h; cases h
        | some dest =>
          simp only [hd] at h
          have hren0 : (specOps pol).renameWithPrefix r dest.Prefix
              = Vault.renameWithPrefix r dest.Prefix := rfl
          rw [hren0] at h
          cases hren : Vault.renameWithPrefix r dest.Prefix with
          | error err => rw [hren] at h; cases h
          | ok r1 =>
            simp only [hren] at h
            cases ha : AddVaultWith (specOps pol) (relocateVault (specOps pol) fuel) n2
                ((specOps pol).IncrementAge r1) with
            | error err => rw [ha] at h; cases h
            | ok res =>
              obtain ⟨n3, d⟩ := res
              simp only [ha, Except.ok.injEq] at h
              subst h
              refine ⟨r, c, dest, r1, n2, d, rfl, hc, hd, hren, hrm, ha, ?_⟩
              intro hinv hr256
              have hinv1 : Inv { n with
                  TotalRelocations := wrapInt (n.TotalRelocations + 1) } := hinv
              refine ⟨RemoveVaultWith_inv pol hpol _ (relocateVault_inv pol hpol fuel) _ n2 r
                hinv1 hrm, ?_⟩
              unfold Vault.renameWithPrefix at hren
              cases hl : renameLoop dest.Prefix.bits 0 r.Name with
              | error err => rw [hl] at hren; cases hren
              | ok x =>
                rw [hl] at hren
                simp only [Except.ok.injEq] at hren
                rw [← hren]
                simp only [Vault.IncrementAge]
                rw [renameLoop_length _ _ _ _ hl]
                exact hr256

end Network

/-! ## Claims -/

/-- C1 (partition invariant): under the spec's Section operations and any
policy whose relocation trigger flags members only, take any sequence of
`AddVault` / `RemoveVault` calls from `NewNetwork()`, every joining vault with
a 256-bit identifier and every departing vault at that moment a member of the
network, each call starting when the one before has completed.  After the
last call of the sequence (so after every call of a longer sequence) every
256-bit identifier has exactly one key of `Sections` among its leading-bit
prefixes. -/
theorem C1_partition_invariant (pol : Policy) (hpol : pol.Sound) (fuel : Nat)
    (ops : List Op) (n' : Network) (hne : ops ≠ [])
    (hadm : Network.admissible (specOps pol) fuel NewNetwork ops = true)
    (hrun : Network.run (specOps pol) fuel NewNetwork ops = .ok n') :
    ∀ x : List Bool, x.length = 256 → ∃! k, k ∈ n'.Sections.keys ∧ k <+: x := by
  cases ops with
  | nil => exact absurd rfl hne
  | cons op rest =>
    simp only [Network.run] at hrun
    simp only [Network.admissible, Bool.and_eq_true] at hadm
    cases hs : Network.step (specOps pol) fuel NewNetwork op with
    | error err => rw [hs] at hrun; cases hrun
    | ok n1 =>
      rw [hs] at hrun hadm
      simp only at hrun hadm
      have hinv1 : n1.Inv := by
        cases op with
        | add v =>
          have hv := hadm.1
          simp only [decide_eq_true_eq] at hv
          simp only [Network.step, Network.AddVault] at hs
          cases ha : Network.AddVaultWith (specOps pol)
              (Network.relocateVault (specOps pol) fuel) NewNetwork v with
          | error err => rw [ha] at hs; cases hs
          | ok res =>
            obtain ⟨n1', d⟩ := res
            rw [ha] at hs
            simp only [Except.ok.injEq] at hs
            rw [← hs]
            exact Network.AddVaultWith_inv pol hpol _ (Network.relocateVault_inv pol hpol fuel)
              NewNetwork n1' v d (Or.inl rfl) hv ha
        | remove v =>
          have hv := hadm.1
          simp [Network.holds, NewNetwork] at hv
      exact (Network.run_inv pol hpol fuel rest n1 n' hinv1 hadm.2 hrun).2.1.2

set_option maxRecDepth 100000 in
/-- C1 at eleven joins followed by a departure: the calls complete with the
sections 0 and 1, and the identifier 1000...0 has exactly one key among its
leading prefixes. -/
theorem C1_partition_invariant_witness :
    Network.admissible (specOps Policy.admitAll) 0 NewNetwork
      Fixture.elevenJoinsAndDeparture = true ∧
    Fixture.layoutOf (Network.run (specOps Policy.admitAll) 0 NewNetwork
      Fixture.elevenJoinsAndDeparture) = [([true], 5), ([false], 5)] ∧
    ∃ n', Network.run (specOps Policy.admitAll) 0 NewNetwork
        Fixture.elevenJoinsAndDeparture = .ok n' ∧
      ∃! k, k ∈ n'.Sections.keys ∧ k <+: (Fixture.nameOf [true]).bits :=
  ⟨by decide, by decide,
   match hrun : Network.run (specOps Policy.admitAll) 0 NewNetwork
      Fixture.elevenJoinsAndDeparture with
   | .ok n' =>
     ⟨n', rfl, C1_partition_invariant Policy.admitAll
       ⟨fun _ _ _ h => by simp [Policy.admitAll] at h,
        fun _ _ _ h => by simp [Policy.admitAll] at h⟩
       0 Fixture.elevenJoinsAndDeparture n' (by decide) (by decide) hrun
       (Fixture.nameOf [true]).bits (by decide)⟩
   | .error e =>
     absurd (show Fixture.layoutOf (Network.run (specOps Policy.admitAll) 0 NewNetwork
        Fixture.elevenJoinsAndDeparture) = [([true], 5), ([false], 5)] from by decide)
       (by rw [hrun]; simp [Fixture.layoutOf])⟩

/-- C2 (routing): if some leading prefix of the 256-bit identifier `x`, of
length 0 to 256, is a key of `n.Sections`, then `getPrefixForXorname x` is a
key of `n.Sections`, its bits are the first bits of `x`, and no leading prefix
of `x` that is a key is shorter. -/
theorem C2_routing_shortest (n : Network) (x : XorName)
    (hx : x.bits.length = 256)
    (hex : ∃ k, k ≤ 256 ∧ (n.Sections.get (x.bits.take k)).isSome = true) :
    (n.Sections.get (n.getPrefixForXorname x).Key).isSome = true ∧
    (n.getPrefixForXorname x).bits
      = x.bits.take (n.getPrefixForXorname x).bits.length ∧
    ∀ k, k ≤ 256 → (n.Sections.get (x.bits.take k)).isSome = true →
      (n.getPrefixForXorname x).bits.length ≤ k := by
  have h := Network.getPrefixForXorname_shortest n x (by rw [hx]; exact hex)
  exact ⟨h.1, h.2.1, fun k _ hk => h.2.2 k hk⟩

set_option maxRecDepth 100000 in
/-- C2 at the identifier 1000...0 in the network whose keys are 0 and 1: the
routing returns the key 1. -/
theorem C2_routing_shortest_witness :
    (Fixture.nameOf [true]).bits.length = 256 ∧
    (Network.getPrefixForXorname (Fixture.networkOf [([false], 5), ([true], 4)])
      (Fixture.nameOf [true])).bits = [true] ∧
    ((Fixture.networkOf [([false], 5), ([true], 4)]).Sections.get
      (Network.getPrefixForXorname (Fixture.networkOf [([false], 5), ([true], 4)])
        (Fixture.nameOf [true])).Key).isSome = true :=
  ⟨by decide, by decide,
   (C2_routing_shortest (Fixture.networkOf [([false], 5), ([true], 4)])
      (Fixture.nameOf [true]) (by decide) ⟨1, by decide, by decide⟩).1⟩

set_option maxRecDepth 100000 in
/-- C9 as stated fails where `TotalDepartures` holds the largest `int`: in the
network with no section and `TotalDepartures = MaxInt64`, the removal of a
vault (whose prefix key is not in the mapping) completes with
`TotalDepartures = MinInt64`, which is not one greater. -/
theorem C9_unknown_vault_removal_counterexample :
    (Fixture.vaultOf [true] [true] 0).Prefix.Key
      ∉ ({ NewNetwork with TotalDepartures := MaxInt64 } : Network).Sections.keys ∧
    Network.RemoveVault (specOps Policy.admitAll) 0
        { NewNetwork with TotalDepartures := MaxInt64 } (Fixture.vaultOf [true] [true] 0)
      = .ok { NewNetwork with TotalDepartures := MinInt64 } ∧
    ¬ (MinInt64 = MaxInt64 + 1) := by
  decide

/-- C9, amended (unknown-vault removal): when the key of the vault's recorded
prefix is not a key of `n.Sections`, `RemoveVault` completes, whatever the
Section operations and the relocation budget are, and its result is `n` with
`TotalDepartures` incremented as a Go `int`: the mapping, every section in it
and the other four counters are as they were, and `TotalDepartures` is exactly
one greater when it was an `int` below `MaxInt64`, and is `MinInt64` when it was
`MaxInt64`. -/
theorem C9_unknown_vault_removal (ops : SectionOps) (fuel : Nat) (n : Network) (v : Vault)
    (h : v.Prefix.Key ∉ n.Sections.keys) :
    Network.RemoveVault ops fuel n v
      = .ok { Sections := n.Sections
              TotalMerges := n.TotalMerges
              TotalSplits := n.TotalSplits
              TotalJoins := n.TotalJoins
              TotalDepartures := wrapInt (n.TotalDepartures + 1)
              TotalRelocations := n.TotalRelocations } ∧
    (MinInt64 ≤ n.TotalDepartures → n.TotalDepartures < MaxInt64 →
      wrapInt (n.TotalDepartures + 1) = n.TotalDepartures + 1) ∧
    (n.TotalDepartures = MaxInt64 → wrapInt (n.TotalDepartures + 1) = MinInt64) := by
  have hg : n.Sections.get v.Prefix.Key = none := (SectionMap.get_eq_none_iff _ _).mpr h
  refine ⟨by simp [Network.RemoveVault, Network.RemoveVaultWith, hg], wrapInt_succ _, ?_⟩
  intro hmax
  rw [hmax]
  decide

set_option maxRecDepth 100000 in
/-- C9, amended, at a vault that records the prefix 11 in the network whose
keys are 0 and 1 and whose counters are 0: the mapping is as before and
`TotalDepartures` is 1. -/
theorem C9_unknown_vault_removal_witness :
    (Fixture.vaultOf [true, true] [true, true] 0).Prefix.Key
      ∉ (Fixture.networkOf [([false], 5), ([true], 4)]).Sections.keys ∧
    Network.RemoveVault (specOps Policy.admitAll) 0
        (Fixture.networkOf [([false], 5), ([true], 4)])
        (Fixture.vaultOf [true, true] [true, true] 0)
      = .ok { Fixture.networkOf [([false], 5), ([true], 4)] with TotalDepartures := 1 } :=
  ⟨by decide, by
    rw [(C9_unknown_vault_removal (specOps Policy.admitAll) 0
      (Fixture.networkOf [([false], 5), ([true], 4)])
      (Fixture.vaultOf [true, true] [true, true] 0) (by decide)).1]
    rfl⟩

/-- C6 (relocation, shortest-prefix rule): in a network whose keys are shorter
than `math.MaxUint32` bits (as every Prefix, of 0 to 256 bits, is), the
destination search of `relocateVault` for the vault `r` completes; when the
neighbour prefixes of `r` resolve to at least one candidate, the destination is
the section stored under one of the candidates and no candidate has a shorter
prefix; when they resolve to none (as for a zero-length prefix) the destination
is the section stored under the key of the prefix of `r`. -/
theorem C6_relocation_shortest (n : Network) (r : Vault)
    (hk : ∀ k ∈ n.Sections.keys, k.length < Network.MaxUint32) :
    ∃ cands c,
      Network.candidatePrefixes n r (List.range r.Prefix.bits.length) = .ok cands ∧
      Network.chooseNeighbour n r = .ok c ∧
      (cands ≠ [] → ∃ p ∈ cands, c.smallestNeighbour = n.Sections.get p.Key ∧
        (n.Sections.get p.Key).isSome = true ∧
        ∀ q ∈ cands, p.bits.length ≤ q.bits.length) ∧
      (cands = [] → c.smallestNeighbour = n.Sections.get r.Prefix.Key) ∧
      (r.Prefix.bits.length = 0 → cands = []) := by
  obtain ⟨cands, c, hcands, hc, hinv⟩ :=
    Network.neighbourSearch_chosen n r (n.Sections.get r.Prefix.Key) hk
      (List.range r.Prefix.bits.length) []
      { smallestNeighbour := n.Sections.get r.Prefix.Key
        minNeighbourPrefix := Network.MaxUint32
        minNeighbourVaults := Network.MaxUint32 }
      (Or.inl ⟨rfl, rfl, rfl⟩)
  have hsound : ∀ q ∈ cands, q.Key ∈ n.Sections.keys := by
    have : ∀ (idx : List Nat) (l : List Prefix),
        Network.candidatePrefixes n r idx = .ok l → ∀ q ∈ l, q.Key ∈ n.Sections.keys := by
      intro idx
      induction idx with
      | nil => intro l hl q hq; simp [Network.candidatePrefixes] at hl; subst hl; cases hq
      | cons i idx ih =>
        intro l hl q hq
        obtain ⟨ps, hps, hkeys⟩ :=
          Network.getMatchingPrefixes_keys n (Network.neighbourPrefix r.Prefix i)
        simp only [Network.candidatePrefixes, hps] at hl
        cases hrec : Network.candidatePrefixes n r idx with
        | error e => rw [hrec] at hl; cases hl
        | ok qs =>
          rw [hrec] at hl
          cases hl
          rcases List.mem_append.mp hq with hq | hq
          · exact hkeys q hq
          · exact ih qs hrec q hq
    exact this _ _ hcands
  refine ⟨cands, c, hcands, hc, ?_, ?_, ?_⟩
  · intro hne
    rcases hinv with ⟨hs, _, _⟩ | ⟨p, hp, hsm, hl, hmin⟩
    · simp only [List.nil_append] at hs; exact absurd hs hne
    · simp only [List.nil_append] at hp hmin
      refine ⟨p, hp, hsm, (SectionMap.get_isSome_iff _ _).mpr (hsound p hp), ?_⟩
      intro q hq
      rw [hl]; exact hmin q hq
  · intro he
    rcases hinv with ⟨_, _, hd⟩ | ⟨p, hp, _⟩
    · exact hd
    · simp only [List.nil_append, he] at hp; cases hp
  · intro h0
    rw [h0] at hcands
    simp [Network.candidatePrefixes] at hcands
    exact hcands

set_option maxRecDepth 100000 in
/-- C6 at a member of the section 00 in the network with the sections 00, 01,
1 of 4, 9, 5 members: the candidates are 1 and 01, and the destination is the
section stored under 1. -/
theorem C6_relocation_shortest_witness :
    (∀ k ∈ (Fixture.networkOf [([false, false], 4), ([false, true], 9), ([true], 5)]
        ).Sections.keys, k.length < Network.MaxUint32) ∧
    Network.candidateBits (Network.candidatePrefixes
      (Fixture.networkOf [([false, false], 4), ([false, true], 9), ([true], 5)])
      (Fixture.vaultOf [false, false] [false, false] 0) (List.range 2))
      = [[true], [false, true]] ∧
    Network.destinationOf (Network.chooseNeighbour
      (Fixture.networkOf [([false, false], 4), ([false, true], 9), ([true], 5)])
      (Fixture.vaultOf [false, false] [false, false] 0)) = some ([true], 5) ∧
    (∃ cands c,
      Network.candidatePrefixes
        (Fixture.networkOf [([false, false], 4), ([false, true], 9), ([true], 5)])
        (Fixture.vaultOf [false, false] [false, false] 0)
        (List.range (Fixture.vaultOf [false, false] [false, false] 0).Prefix.bits.length)
          = .ok cands ∧
      Network.chooseNeighbour
        (Fixture.networkOf [([false, false], 4), ([false, true], 9), ([true], 5)])
        (Fixture.vaultOf [false, false] [false, false] 0) = .ok c) :=
  ⟨by decide, by decide, by decide,
   (C6_relocation_shortest
      (Fixture.networkOf [([false, false], 4), ([false, true], 9), ([true], 5)])
      (Fixture.vaultOf [false, false] [false, false] 0) (by decide)).imp
     (fun _ h => h.imp (fun _ h2 => ⟨h2.1, h2.2.1⟩))⟩

set_option maxRecDepth 100000 in
/-- C5 (relocation tie-break), the code at a failing input: the vault is a
member of the section 00 of the network with the sections 00, 01, 10, 11 of 4,
9, 5, 4 members.  The candidates are 10 and 01, both of prefix length 2, and
the destination chosen is the section 01 with 9 members, although the
candidate 10 has 5. -/
theorem C5_tie_break_failing_input :
    Network.candidateBits (Network.candidatePrefixes
      (Fixture.networkOf
        [([false, false], 4), ([false, true], 9), ([true, false], 5), ([true, true], 4)])
      (Fixture.vaultOf [false, false] [false, false] 0) (List.range 2))
      = [[true, false], [false, true]] ∧
    Network.destinationOf (Network.chooseNeighbour
      (Fixture.networkOf
        [([false, false], 4), ([false, true], 9), ([true, false], 5), ([true, true], 4)])
      (Fixture.vaultOf [false, false] [false, false] 0)) = some ([false, true], 9) ∧
    ((Fixture.networkOf
        [([false, false], 4), ([false, true], 9), ([true, false], 5), ([true, true], 4)]
      ).Sections.get [true, false]).map (fun s => s.Vaults.length) = some 5 := by
  decide

set_option maxRecDepth 100000 in
/-- C4 as stated fails where the owning section is not stored under its own
prefix key.  The map holds one section, of prefix 0 and 10 members, under the
key 1; a vault whose identifier starts with 1 joins.  The section's `addVault`
reports a split (two new sections, no relocation), the new sections go to the
keys 00 and 01, and `delete` removes the key 0: the old section's entry, at the
key 1, is still in the map.  It also fails where `TotalSplits` holds the
largest `int`: the split of a root of ten vaults leaves it at `MinInt64`, which
is not one greater. -/
theorem C4_split_handling_counterexample :
    (match Section.addVault Policy.admitAll (Fixture.sectionOf [false] 10)
        (Fixture.vaultOf [true] [] 0) with
     | .ok (_, some e, _) =>
       decide (e.NewSections.length = 2 ∧ e.VaultToRelocate = none)
     | _ => false) = true ∧
    (Fixture.layoutOf ((Network.AddVault (specOps Policy.admitAll) 0
        { NewNetwork with Sections := [([true], Fixture.sectionOf [false] 10)] }
        (Fixture.vaultOf [true] [] 0)).map Prod.fst))
      = [([false, true], 0), ([false, false], 11), ([true], 11)] ∧
    Fixture.countersOf ((Network.AddVault (specOps Policy.admitAll) 0
        { Fixture.networkOf [([], 10)] with TotalSplits := MaxInt64 }
        (Fixture.vaultOf [true] [] 10)).map Prod.fst) = [1, 0, MinInt64, 0, 0] ∧
    ¬ (MinInt64 = MaxInt64 + 1) := by
  decide

/-- C4 (split handling), amended: under the spec's Section operations, let the
owning section of `v` (the one routing finds, or the root created for an empty
map) be stored under its own prefix key, and let its `addVault` return an
event with new sections and no relocation flag.  Then `AddVault` completes;
`TotalSplits` is incremented once as a Go `int` (exactly one greater when it
was an `int` below `MaxInt64`); every new section is stored under its own
prefix key; the key of the old section holds nothing; and every other key holds
what it held before.  In all, the map is the old map with the entry of the old
section removed and the new sections stored. -/
theorem C4_split_handling (pol : Policy) (fuel : Nat) (n n1 : Network) (v : Vault)
    (k : Key) (sec sec1 : Section) (e : NetworkEvent) (d : Bool)
    (hloc : Network.locateSection (specOps pol) n v = .ok (n1, some (k, sec)))
    (hstored : sec.Prefix.Key = k)
    (hadd : Section.addVault pol sec v = .ok (sec1, some e, d))
    (hne : e.NewSections ≠ [])
    (hrel : e.VaultToRelocate = none) :
    ∃ n', Network.AddVault (specOps pol) fuel n v = .ok (n', d) ∧
      n'.TotalSplits = wrapInt (n.TotalSplits + 1) ∧
      (MinInt64 ≤ n.TotalSplits → n.TotalSplits < MaxInt64 →
        n'.TotalSplits = n.TotalSplits + 1) ∧
      (∀ s ∈ e.NewSections, n'.Sections.get s.Prefix.Key = some s) ∧
      n'.Sections.get sec.Prefix.Key = none ∧
      (∀ k', k' ≠ sec.Prefix.Key → (∀ s ∈ e.NewSections, s.Prefix.Key ≠ k') →
        n'.Sections.get k' = n.Sections.get k') ∧
      ∀ k', n'.Sections.get k'
        = (Network.storeSections (n.Sections.delete sec.Prefix.Key) e.NewSections).get k' := by
  obtain ⟨hp, _, _, _, _, _, ls, rs, hns⟩ := Network.addVault_split pol sec sec1 v e d hadd hne
  obtain ⟨_, hother, hsplits, _, _, _, _, _⟩ := Network.locateSection_spec pol n n1 v k sec hloc
  have hadd2 : (specOps pol).addVault sec v = .ok (sec1, some e, d) := hadd
  have hlen : e.NewSections.length > 0 := by
    cases hl : e.NewSections with
    | nil => exact absurd hl hne
    | cons a l => simp
  have hrun : Network.AddVault (specOps pol) fuel n v
      = .ok (Network.applySplit { n1 with Sections := n1.Sections.set k sec1 } sec1 (some e),
          d) := by
    simp only [Network.AddVault, Network.AddVaultWith, hloc, hadd2,
      Network.relocateIfFlagged, hrel, Option.isSome_none, Bool.false_eq_true, if_false]
  have hnot : ∀ s ∈ e.NewSections, s.Prefix.Key ≠ sec.Prefix.Key := by
    intro s hs
    rw [hns] at hs
    simp only [List.mem_cons, List.mem_singleton, List.not_mem_nil, or_false] at hs
    rcases hs with hs | hs <;> subst hs <;>
      simp [Prefix.Key, Prefix.extendLeft, Prefix.extendRight]
  have hsp : (Network.applySplit { n1 with Sections := n1.Sections.set k sec1 } sec1
      (some e)).TotalSplits = wrapInt (n.TotalSplits + 1) := by
    simp only [Network.applySplit, if_pos hlen, hsplits]
  have hmap : ∀ k', (Network.applySplit { n1 with Sections := n1.Sections.set k sec1 } sec1
      (some e)).Sections.get k'
      = (Network.storeSections (n.Sections.delete sec.Prefix.Key) e.NewSections).get k' := by
    intro k'
    simp only [Network.applySplit, if_pos hlen]
    rw [SectionMap.get_delete, hp]
    by_cases hk : sec.Prefix.Key = k'
    · rw [if_pos hk]
      subst hk
      rw [Network.storeSections_get_other _ _ _ hnot, SectionMap.get_delete, if_pos rfl]
    · rw [if_neg hk]
      apply Network.storeSections_get_congr
      rw [SectionMap.get_set, SectionMap.get_delete, if_neg hk, hstored.symm, if_neg hk]
      exact hother k' (by rw [← hstored]; exact fun he => hk he.symm)
  refine ⟨_, hrun, hsp, ?_, ?_, ?_, ?_, hmap⟩
  · intro h1 h2
    rw [hsp]
    exact wrapInt_succ _ h1 h2
  · intro s hs
    rw [hmap, hns]
    rw [hns] at hs
    have hlr : ¬ sec.Prefix.extendRight.Key = sec.Prefix.extendLeft.Key := by
      simp [Prefix.Key, Prefix.extendLeft, Prefix.extendRight]
    simp only [List.mem_cons, List.mem_singleton, List.not_mem_nil, or_false] at hs
    rcases hs with hs | hs
    · subst hs
      simp only [Network.storeSections]
      rw [SectionMap.get_set, if_neg hlr, SectionMap.get_set, if_pos rfl]
    · subst hs
      simp only [Network.storeSections]
      rw [SectionMap.get_set, if_pos rfl]
  · rw [hmap, Network.storeSections_get_other _ _ _ hnot, SectionMap.get_delete, if_pos rfl]
  · intro k' hk hnew
    rw [hmap, Network.storeSections_get_other _ _ _ hnew, SectionMap.get_delete,
      if_neg (fun he => hk he.symm)]

set_option maxRecDepth 100000 in
/-- C4 at the eleventh join: eleven joins into the empty network, the eleventh
of which splits the root, leave exactly the two sections at the prefixes 0 and
1; and so does the theorem at a join into a root that holds ten vaults. -/
theorem C4_split_handling_witness :
    Fixture.layoutOf (Network.run (specOps Policy.admitAll) 0 NewNetwork
        ((List.range 10).map (fun i => Op.add (Fixture.vaultOf [false] [] i))
          ++ [Op.add (Fixture.vaultOf [true] [] 10)]))
      = [([true], 1), ([false], 10)] ∧
    Fixture.layoutOf ((Network.AddVault (specOps Policy.admitAll) 0
        (Fixture.networkOf [([], 10)]) (Fixture.vaultOf [true] [] 10)).map Prod.fst)
      = [([true], 1), ([false], 10)] ∧
    ∃ n', Network.AddVault (specOps Policy.admitAll) 0 (Fixture.networkOf [([], 10)])
        (Fixture.vaultOf [true] [] 10) = .ok (n', false) ∧
      n'.TotalSplits = (Fixture.networkOf [([], 10)]).TotalSplits + 1 ∧
      n'.Sections.get [] = none ∧
      n'.Sections.get [true] = some ⟨⟨[true]⟩, [Fixture.vaultOf [true] [true] 10]⟩ :=
  ⟨by decide, by decide,
   (C4_split_handling Policy.admitAll 0 (Fixture.networkOf [([], 10)])
      { Fixture.networkOf [([], 10)] with TotalJoins := 1 } (Fixture.vaultOf [true] [] 10)
      [] (Fixture.sectionOf [] 10)
      ⟨⟨[]⟩, (Fixture.sectionOf [] 10).Vaults ++ [Fixture.vaultOf [true] [] 10]⟩
      { NewSections :=
          [⟨⟨[false]⟩, (Fixture.sectionOf [false] 10).Vaults.map
              (fun u => Fixture.vaultOf [] [false] u.Age)⟩,
           ⟨⟨[true]⟩, [Fixture.vaultOf [true] [true] 10]⟩]
        VaultToRelocate := none }
      false (by decide) (by decide) (by decide) (by decide) (by decide)).imp
     (fun _ h => ⟨h.1, h.2.2.1 (by decide) (by decide), h.2.2.2.2.1,
       h.2.2.2.1 ⟨⟨[true]⟩, [Fixture.vaultOf [true] [true] 10]⟩ (by simp)⟩)⟩

set_option maxRecDepth 100000 in
/-- C10 (re-split during merge), the code at a failing input: the network has
the sections 0 and 1 of 4 and 10 members, and a member of the section 0
departs.  The section falls to 3 members and is merged with its sibling; the
parent, of 13 members, re-splits at once into the sections 0 and 1 of 3 and 10
members, which are stored under their keys.  `TotalMerges` goes from 0 to 1 and
`TotalSplits` stays 0. -/
theorem C10_resplit_not_counted :
    Fixture.layoutOf (Network.RemoveVault (specOps Policy.admitAll) 0
        (Fixture.networkOf [([false], 4), ([true], 10)])
        (Fixture.vaultOf [false] [false] 0))
      = [([true], 10), ([false], 3)] ∧
    (match Network.RemoveVault (specOps Policy.admitAll) 0
        (Fixture.networkOf [([false], 4), ([true], 10)])
        (Fixture.vaultOf [false] [false] 0) with
     | .ok n => (n.TotalMerges, n.TotalSplits)
     | .error _ => (0, 0)) = (1, 0) ∧
    (match Section.newSection ⟨[]⟩
        ((Fixture.sectionOf [false] 4).Vaults.erase (Fixture.vaultOf [false] [false] 0)
          ++ (Fixture.sectionOf [true] 10).Vaults) with
     | .ok (some e) => e.NewSections.map (fun s => (s.Prefix.bits, s.Vaults.length))
     | _ => []) = [([false], 3), ([true], 10)] := by
  decide

set_option maxRecDepth 100000 in
/-- C8 as stated fails in four ways.  (a) In the empty network the join
creates the root section, and the departure leaves it in the map: the keys go
from none to the root key.  (b) The join of the eleventh vault splits the
root, and after the departure the two children of 5 and 5 members remain.
(c) In a network with the sections 0 and 1 of 3 and 5 members, a vault joins
the section 0 and departs; the section is then below `MergeThreshold` and is
merged: one section of 8 members remains.  (d) Under a policy that flags the
joining vault for relocation, the relocation counts a departure and a join of
its own: after join and departure both counters are two greater.  (e) Where
`TotalJoins` holds the largest `int`, the join leaves it at `MinInt64`, which is
not one greater. -/
theorem C8_round_trip_counterexample :
    (NewNetwork.Sections.keys = [] ∧
     Fixture.layoutOf (Network.run (specOps Policy.admitAll) 0 NewNetwork
       [.add (Fixture.vaultOf [] [] 0), .remove (Fixture.vaultOf [] [] 0)])
       = [([], 0)]) ∧
    (Fixture.mixedRoot.Sections.keys = [[]] ∧
     Fixture.layoutOf (Network.run (specOps Policy.admitAll) 0 Fixture.mixedRoot
       [.add (Fixture.vaultOf [true] [] 10), .remove (Fixture.vaultOf [true] [true] 10)])
       = [([true], 5), ([false], 5)]) ∧
    (Fixture.layoutOf (Network.run (specOps Policy.admitAll) 0
       (Fixture.networkOf [([false], 3), ([true], 5)])
       [.add (Fixture.vaultOf [false] [] 10), .remove (Fixture.vaultOf [false] [false] 10)])
       = [([], 8)]) ∧
    (Fixture.countersOf (Network.run (specOps Fixture.relocateYoung) 1
       (Fixture.networkOf [([false], 5), ([true], 5)])
       [.add (Fixture.vaultOf [false, true] [] 0),
        .remove (Fixture.vaultOf [true, true] [true] 1)])
       = [2, 2, 0, 0, 1] ∧
     Fixture.layoutOf (Network.run (specOps Fixture.relocateYoung) 1
       (Fixture.networkOf [([false], 5), ([true], 5)])
       [.add (Fixture.vaultOf [false, true] [] 0),
        .remove (Fixture.vaultOf [true, true] [true] 1)])
       = [([true], 5), ([false], 5)]) ∧
    (Fixture.countersOf (Network.run (specOps Policy.admitAll) 0
       { Fixture.networkOf [([false], 5), ([true], 4)] with TotalJoins := MaxInt64 }
       [.add (Fixture.vaultOf [true, true] [] 7),
        .remove (Fixture.vaultOf [true, true] [true] 7)])
       = [MinInt64, 1, 0, 0, 0] ∧
     ¬ (MinInt64 = MaxInt64 + 1)) := by
  decide

/-- C8 (add/remove round trip), amended: under the spec's Section operations,
let the identifier of `v` route to a section `sec` that is stored under its own
prefix key and does not hold `v`; let the join be admitted, leave the section
below `SplitSize`, and flag no relocation; let the departure flag no
relocation; and let `sec` have at least `MergeThreshold` members unless it is
the only section.  Then `AddVault v` followed by `RemoveVault` of the vault as
the join recorded it completes, `TotalJoins` and `TotalDepartures` are each
incremented once as a Go `int` (exactly one greater for a counter that was an
`int` below `MaxInt64`), the other counters are unchanged, and every key holds
the section it held before. -/
theorem C8_round_trip (pol : Policy) (fuel : Nat) (n : Network) (v : Vault) (sec : Section)
    (hnd : n.Sections.keys.Nodup)
    (hsec : n.Sections.get (n.getPrefixForXorname v.Name).Key = some sec)
    (hstored : sec.Prefix.Key = (n.getPrefixForXorname v.Name).Key)
    (hnew : v.SetPrefix sec.Prefix ∉ sec.Vaults)
    (hallow : pol.disallow sec v = false)
    (hsize : sec.Vaults.length + 1 < SplitSize)
    (hjoin : pol.relocateOnJoin ⟨sec.Prefix, sec.Vaults ++ [v.SetPrefix sec.Prefix]⟩
      (v.SetPrefix sec.Prefix) = none)
    (hleave : pol.relocateOnDeparture sec (v.SetPrefix sec.Prefix) = none)
    (hmerge : MergeThreshold ≤ sec.Vaults.length ∨ n.HasMoreThanOneSection = false) :
    ∃ n1 n2, Network.AddVault (specOps pol) fuel n v = .ok (n1, false) ∧
      Network.RemoveVault (specOps pol) fuel n1 (v.SetPrefix sec.Prefix) = .ok n2 ∧
      n2.TotalJoins = wrapInt (n.TotalJoins + 1) ∧
      n2.TotalDepartures = wrapInt (n.TotalDepartures + 1) ∧
      n2.TotalSplits = n.TotalSplits ∧ n2.TotalMerges = n.TotalMerges ∧
      n2.TotalRelocations = n.TotalRelocations ∧
      (∀ k, n2.Sections.get k = n.Sections.get k) ∧
      (MinInt64 ≤ n.TotalJoins → n.TotalJoins < MaxInt64 →
        n2.TotalJoins = n.TotalJoins + 1) ∧
      (MinInt64 ≤ n.TotalDepartures → n.TotalDepartures < MaxInt64 →
        n2.TotalDepartures = n.TotalDepartures + 1) := by
  have hkmem : sec.Prefix.Key ∈ n.Sections.keys := by
    rw [hstored, ← SectionMap.get_isSome_iff, hsec]; rfl
  have hloc : Network.locateSection (specOps pol) n v
      = .ok ({ n with TotalJoins := wrapInt (n.TotalJoins + 1) }, some (sec.Prefix.Key, sec)) := by
    unfold Network.locateSection
    have hsame : Network.getPrefixForXorname
        { n with TotalJoins := wrapInt (n.TotalJoins + 1) } v.Name
        = Network.getPrefixForXorname n v.Name :=
      Network.getPrefixForXorname_congr _ _ _ rfl
    simp only [hsame, hsec]
    rw [hstored]
  have haddv : (specOps pol).addVault sec v
      = .ok (⟨sec.Prefix, sec.Vaults ++ [v.SetPrefix sec.Prefix]⟩,
          some { NewSections := [], VaultToRelocate := none }, false) := by
    show Section.addVault pol sec v = _
    unfold Section.addVault
    have hns : ¬ (sec.Vaults ++ [v.SetPrefix sec.Prefix]).length ≥ SplitSize := by
      simp only [List.length_append, List.length_singleton]; omega
    simp only [hallow, Bool.false_eq_true, if_false, if_neg hns, hjoin]
  have hrun1 : Network.AddVault (specOps pol) fuel n v
      = .ok ({ n with
          TotalJoins := wrapInt (n.TotalJoins + 1)
          Sections := n.Sections.set sec.Prefix.Key
            ⟨sec.Prefix, sec.Vaults ++ [v.SetPrefix sec.Prefix]⟩ }, false) := by
    simp [Network.AddVault, Network.AddVaultWith, hloc, haddv, Network.applySplit,
      Network.relocateIfFlagged]
  have herase : (sec.Vaults ++ [v.SetPrefix sec.Prefix]).erase (v.SetPrefix sec.Prefix)
      = sec.Vaults := by
    rw [List.erase_append_right _ hnew]
    simp
  have hrem : (specOps pol).removeVault
      ⟨sec.Prefix, sec.Vaults ++ [v.SetPrefix sec.Prefix]⟩ (v.SetPrefix sec.Prefix)
      = .ok (sec, some { NewSections := [], VaultToRelocate := none }) := by
    show Section.removeVault pol _ _ = _
    unfold Section.removeVault
    simp only [herase, hleave]
  have hnomerge : ((specOps pol).shouldMerge sec &&
      Network.HasMoreThanOneSection
        { n with
          TotalJoins := wrapInt (n.TotalJoins + 1)
          TotalDepartures := wrapInt (n.TotalDepartures + 1)
          Sections := (n.Sections.set sec.Prefix.Key
            ⟨sec.Prefix, sec.Vaults ++ [v.SetPrefix sec.Prefix]⟩).set sec.Prefix.Key sec })
      = false := by
    rcases hmerge with h | h
    · have : (specOps pol).shouldMerge sec = false := by
        show Section.shouldMerge sec = false
        simp [Section.shouldMerge]; omega
      rw [this]; rfl
    · have hlen : ((n.Sections.set sec.Prefix.Key
          ⟨sec.Prefix, sec.Vaults ++ [v.SetPrefix sec.Prefix]⟩).set sec.Prefix.Key sec).length
          = n.Sections.length := by
        rw [Network.length_set_of_mem _ _ _ (SectionMap.nodup_set _ _ _ hnd)
          ((SectionMap.mem_keys_set _ _ _ _).mpr (Or.inl rfl)),
          Network.length_set_of_mem _ _ _ hnd hkmem]
      have h2 : ¬ (1 < n.Sections.length) := by
        intro hc
        have := (Network.HasMoreThanOneSection_iff n).mpr hc
        rw [h] at this; cases this
      have h3 : Network.HasMoreThanOneSection
          { n with
            TotalJoins := wrapInt (n.TotalJoins + 1)
            TotalDepartures := wrapInt (n.TotalDepartures + 1)
            Sections := (n.Sections.set sec.Prefix.Key
              ⟨sec.Prefix, sec.Vaults ++ [v.SetPrefix sec.Prefix]⟩).set sec.Prefix.Key sec }
          = false := by
        cases hb : Network.HasMoreThanOneSection _ with
        | false => rfl
        | true =>
          exfalso
          have := (Network.HasMoreThanOneSection_iff _).mp hb
          simp only at this
          rw [hlen] at this
          exact h2 this
      rw [h3]; simp
  have hget1 : (n.Sections.set sec.Prefix.Key
      ⟨sec.Prefix, sec.Vaults ++ [v.SetPrefix sec.Prefix]⟩).get
        (v.SetPrefix sec.Prefix).Prefix.Key
      = some ⟨sec.Prefix, sec.Vaults ++ [v.SetPrefix sec.Prefix]⟩ := by
    rw [SectionMap.get_set]
    simp [Vault.SetPrefix]
  have hrun2 : Network.RemoveVault (specOps pol) fuel
      { n with
        TotalJoins := wrapInt (n.TotalJoins + 1)
        Sections := n.Sections.set sec.Prefix.Key
          ⟨sec.Prefix, sec.Vaults ++ [v.SetPrefix sec.Prefix]⟩ }
      (v.SetPrefix sec.Prefix)
      = .ok { n with
          TotalJoins := wrapInt (n.TotalJoins + 1)
          TotalDepartures := wrapInt (n.TotalDepartures + 1)
          Sections := (n.Sections.set sec.Prefix.Key
            ⟨sec.Prefix, sec.Vaults ++ [v.SetPrefix sec.Prefix]⟩).set sec.Prefix.Key sec } := by
    simp only [Network.RemoveVault, Network.RemoveVaultWith, hget1, hrem]
    have hk : (v.SetPrefix sec.Prefix).Prefix.Key = sec.Prefix.Key := rfl
    rw [hk, hnomerge]
    simp [Network.relocateIfFlagged]
  refine ⟨_, _, hrun1, hrun2, rfl, rfl, rfl, rfl, rfl, ?_, wrapInt_succ _, wrapInt_succ _⟩
  intro k
  simp only
  rw [SectionMap.get_set, SectionMap.get_set]
  by_cases hk : sec.Prefix.Key = k
  · rw [if_pos hk, ← hk, hstored, hsec]
  · rw [if_neg hk, if_neg hk]

set_option maxRecDepth 100000 in
/-- C8 at a vault that joins the section 1 (of 4 members) of the network with
the sections 0 and 1, and departs again. -/
theorem C8_round_trip_witness :
    Fixture.layoutOf (Network.run (specOps Policy.admitAll) 0
      (Fixture.networkOf [([false], 5), ([true], 4)])
      [.add (Fixture.vaultOf [true, true] [] 7),
       .remove (Fixture.vaultOf [true, true] [true] 7)]) = [([true], 4), ([false], 5)] ∧
    ∃ n1 n2, Network.AddVault (specOps Policy.admitAll) 0
        (Fixture.networkOf [([false], 5), ([true], 4)])
        (Fixture.vaultOf [true, true] [] 7) = .ok (n1, false) ∧
      Network.RemoveVault (specOps Policy.admitAll) 0 n1
        (Fixture.vaultOf [true, true] [true] 7) = .ok n2 ∧
      n2.TotalJoins = 1 ∧ n2.TotalDepartures = 1 :=
  ⟨by decide,
   (C8_round_trip Policy.admitAll 0 (Fixture.networkOf [([false], 5), ([true], 4)])
      (Fixture.vaultOf [true, true] [] 7) (Fixture.sectionOf [true] 4)
      (by decide) (by decide) (by decide) (by decide) (by decide) (by decide) (by decide)
      (by decide) (by decide)).imp
     (fun _ h => h.imp (fun _ h2 => ⟨h2.1, h2.2.1,
       h2.2.2.2.2.2.2.2.2.1 (by decide) (by decide),
       h2.2.2.2.2.2.2.2.2.2 (by decide) (by decide)⟩))⟩

set_option maxRecDepth 100000 in
/-- C7 as stated fails after a split, after a merge and after a relocation, in
sequences of admissible calls from `NewNetwork()`.  (a) Eleven joins of vaults
whose identifiers all start with 0: the eleventh join splits the root by the
first bit, and the call completes with the section 1 empty (below
`MergeThreshold`, with two sections) and the section 0 holding all eleven
vaults (not below `SplitSize`).  (b) Twelve joins that leave the sections 0 and
1 with 4 and 8 members, and a departure from the section 0: the merge creates
the root with 3 + 8 = 11 members, which is not more than `SplitSize`, so the
root stays with eleven members.  (c) Fourteen joins that leave the sections 0
and 1 with 4 and 10 members, and a departure from the section 0: the merge
gathers 13 members, the parent re-splits at once, and the section 0 is left
with 3 members beside the section 1.  (d) Under a policy that relocates a
joining vault of age 0, a vault joins the section 0 (of 4 members beside the
section 1 of 10) and is relocated to the section 1, which splits: the section
that the call acted on has 4 members, and the sections 10 and 11 are left with
11 and 0 members. -/
theorem C7_size_bounds_counterexample :
    (Network.admissible (specOps Policy.admitAll) 0 NewNetwork
        ((List.range 11).map (fun i => Op.add (Fixture.vaultOf [false] [] i))) = true ∧
      Fixture.layoutOf (Network.run (specOps Policy.admitAll) 0 NewNetwork
        ((List.range 11).map (fun i => Op.add (Fixture.vaultOf [false] [] i))))
        = [([true], 0), ([false], 11)]) ∧
    (Network.admissible (specOps Policy.admitAll) 0 NewNetwork
        ((List.range 4).map (fun i => Op.add (Fixture.vaultOf [false] [] i))
          ++ (List.range 8).map (fun i => Op.add (Fixture.vaultOf [true] [] (4 + i)))
          ++ [Op.remove (Fixture.vaultOf [false] [false] 0)]) = true ∧
      Fixture.layoutOf (Network.run (specOps Policy.admitAll) 0 NewNetwork
        ((List.range 4).map (fun i => Op.add (Fixture.vaultOf [false] [] i))
          ++ (List.range 8).map (fun i => Op.add (Fixture.vaultOf [true] [] (4 + i)))))
        = [([true], 8), ([false], 4)] ∧
      Fixture.layoutOf (Network.run (specOps Policy.admitAll) 0 NewNetwork
        ((List.range 4).map (fun i => Op.add (Fixture.vaultOf [false] [] i))
          ++ (List.range 8).map (fun i => Op.add (Fixture.vaultOf [true] [] (4 + i)))
          ++ [Op.remove (Fixture.vaultOf [false] [false] 0)]))
        = [([], 11)]) ∧
    (Network.admissible (specOps Policy.admitAll) 0 NewNetwork
        ((List.range 4).map (fun i => Op.add (Fixture.vaultOf [false] [] i))
          ++ (List.range 10).map (fun i => Op.add (Fixture.vaultOf [true] [] (4 + i)))
          ++ [Op.remove (Fixture.vaultOf [false] [false] 0)]) = true ∧
      Fixture.layoutOf (Network.run (specOps Policy.admitAll) 0 NewNetwork
        ((List.range 4).map (fun i => Op.add (Fixture.vaultOf [false] [] i))
          ++ (List.range 10).map (fun i => Op.add (Fixture.vaultOf [true] [] (4 + i)))
          ++ [Op.remove (Fixture.vaultOf [false] [false] 0)]))
        = [([true], 10), ([false], 3)]) ∧
    (Network.admissible (specOps Fixture.relocateYoung) 1 NewNetwork
        ((List.range 4).map (fun i => Op.add (Fixture.vaultOf [false, false] [] (1 + i)))
          ++ (List.range 10).map (fun i => Op.add (Fixture.vaultOf [true, false] [] (5 + i)))
          ++ [Op.add (Fixture.vaultOf [false, false] [] 0)]) = true ∧
      Fixture.layoutOf (Network.run (specOps Fixture.relocateYoung) 1 NewNetwork
        ((List.range 4).map (fun i => Op.add (Fixture.vaultOf [false, false] [] (1 + i)))
          ++ (List.range 10).map (fun i => Op.add (Fixture.vaultOf [true, false] [] (5 + i)))))
        = [([true], 10), ([false], 4)] ∧
      Fixture.layoutOf (Network.run (specOps Fixture.relocateYoung) 1 NewNetwork
        ((List.range 4).map (fun i => Op.add (Fixture.vaultOf [false, false] [] (1 + i)))
          ++ (List.range 10).map (fun i => Op.add (Fixture.vaultOf [true, false] [] (5 + i)))
          ++ [Op.add (Fixture.vaultOf [false, false] [] 0)]))
        = [([true, true], 0), ([true, false], 11), ([false], 4)]) ∧
    SplitSize = 11 ∧ MergeThreshold = 4 := by
  decide!

/-- C7 (size bounds), amended to a policy of the single join and departure,
under the spec's Section operations and any policy whose relocation trigger
flags members only.

(1) Every admissible sequence of calls from `NewNetwork()` that completes ends
in the empty network or in a network with the invariant (one entry per key, the
keys partition the identifier space, every section under its own key, 256-bit
identifiers).  In every such network `n`:

(2) Join: when `AddVault v` (256-bit identifier) completes, there is a network
`n3`, again with the invariant, that is the network right after the join and
its split handling: in `n3` the owning section `sec` is as before (vault
refused); or it holds the new member and has fewer than `SplitSize` members; or
it had at least `SplitSize - 1` members, its key is gone and its two children
hold all the members between them (either may hold them all); every other key
holds in `n3` what it held in `n`.  The call returns `n3`, or the result of
`relocateVault` from `n3` for a vault (256-bit identifier) that the join
flagged.

(3) Departure: when `RemoveVault v` completes, either no section is stored
under the prefix key of `v` and the map is as before; or the section found,
without `v`, has at least `MergeThreshold` members or is the only section, and
in a network `n3` with the invariant it is stored without `v`, every other key
as before, the call returning `n3` or the result of `relocateVault` from `n3`
for a vault flagged; or the section found, without `v`, has fewer than
`MergeThreshold` members, there is more than one section, and the section is
merged: the prefix of `v` is `p ++ [b]`, every key that does not extend `p`
holds what it held, and with `t` the number of members left in the section plus
the members of all sections under the sibling `p ++ [!b]`, either
`t ≤ SplitSize` and the only key under `p` is `p`, holding a section of `t`
members, or `t > SplitSize` and the only keys under `p` are the two children of
`p`, holding `t` members between them.

(4) Relocation: a completed `relocateVault` is the destination search, the
`RemoveVault` of the vault flagged and the `AddVault` of the vault renamed and
aged, to which (2) and (3) apply: the `AddVault` starts in a network with the
invariant, for a vault with a 256-bit identifier. -/
theorem C7_size_policy (pol : Policy) (hpol : pol.Sound) :
    (∀ (fuel : Nat) (ops : List Op) (n : Network),
      Network.admissible (specOps pol) fuel NewNetwork ops = true →
      Network.run (specOps pol) fuel NewNetwork ops = .ok n →
      n.Sections = [] ∨ n.Inv) ∧
    (∀ (fuel : Nat) (n n' : Network) (v : Vault) (d : Bool),
      (n.Sections = [] ∨ n.Inv) → v.Name.bits.length = 256 →
      Network.AddVault (specOps pol) fuel n v = .ok (n', d) →
      ∃ n1 sec n3,
        Network.locateSection (specOps pol) n v = .ok (n1, some (sec.Prefix.Key, sec)) ∧
        n3.Inv ∧
        ((d = true ∧ n3.Sections.get sec.Prefix.Key = some sec ∧
            ∀ k, k ≠ sec.Prefix.Key → n3.Sections.get k = n.Sections.get k) ∨
         (d = false ∧ sec.Vaults.length + 1 < SplitSize ∧
            n3.Sections.get sec.Prefix.Key
              = some ⟨sec.Prefix, sec.Vaults ++ [v.SetPrefix sec.Prefix]⟩ ∧
            ∀ k, k ≠ sec.Prefix.Key → n3.Sections.get k = n.Sections.get k) ∨
         (d = false ∧ SplitSize ≤ sec.Vaults.length + 1 ∧
            n3.Sections.get sec.Prefix.Key = none ∧
            (∃ l r, n3.Sections.get sec.Prefix.extendLeft.Key = some l ∧
              n3.Sections.get sec.Prefix.extendRight.Key = some r ∧
              l.Vaults.length + r.Vaults.length = sec.Vaults.length + 1) ∧
            ∀ k, k ≠ sec.Prefix.Key → k ≠ sec.Prefix.extendLeft.Key →
              k ≠ sec.Prefix.extendRight.Key → n3.Sections.get k = n.Sections.get k)) ∧
        (n' = n3 ∨ ∃ r, r.Name.bits.length = 256 ∧
          Network.relocateVault (specOps pol) fuel n3
            { NewSections := [], VaultToRelocate := some r } = .ok n')) ∧
    (∀ (fuel : Nat) (n n' : Network) (v : Vault),
      (n.Sections = [] ∨ n.Inv) →
      Network.RemoveVault (specOps pol) fuel n v = .ok n' →
      (n.Sections.get v.Prefix.Key = none ∧ n'.Sections = n.Sections) ∨
      ∃ sec, n.Sections.get v.Prefix.Key = some sec ∧
        (((MergeThreshold ≤ (sec.Vaults.erase v).length ∨
              n.HasMoreThanOneSection = false) ∧
          ∃ n3, n3.Inv ∧
            n3.Sections.get v.Prefix.Key = some ⟨sec.Prefix, sec.Vaults.erase v⟩ ∧
            (∀ k, k ≠ v.Prefix.Key → n3.Sections.get k = n.Sections.get k) ∧
            (n' = n3 ∨ ∃ r, r.Name.bits.length = 256 ∧
              Network.relocateVault (specOps pol) fuel n3
                { NewSections := [], VaultToRelocate := some r } = .ok n')) ∨
         ((sec.Vaults.erase v).length < MergeThreshold ∧
          n.HasMoreThanOneSection = true ∧
          ∃ p b, v.Prefix.bits = p ++ [b] ∧
            (∀ k, ¬ p <+: k → n'.Sections.get k = n.Sections.get k) ∧
            (((sec.Vaults.erase v).length + (membersUnder n.Sections (p ++ [!b])).length
                  ≤ SplitSize ∧
                (∃ s, n'.Sections.get p = some s ∧
                  s.Vaults.length = (sec.Vaults.erase v).length
                    + (membersUnder n.Sections (p ++ [!b])).length) ∧
                ∀ k, p <+: k → k ≠ p → n'.Sections.get k = none) ∨
             (SplitSize < (sec.Vaults.erase v).length
                  + (membersUnder n.Sections (p ++ [!b])).length ∧
                (∃ l r, n'.Sections.get (p ++ [false]) = some l ∧
                  n'.Sections.get (p ++ [true]) = some r ∧
                  l.Vaults.length + r.Vaults.length = (sec.Vaults.erase v).length
                    + (membersUnder n.Sections (p ++ [!b])).length) ∧
                ∀ k, p <+: k → k ≠ p ++ [false] → k ≠ p ++ [true] →
                  n'.Sections.get k = none))))) ∧
    (∀ (fuel : Nat) (n n' : Network) (e : NetworkEvent),
      Network.relocateVault (specOps pol) (fuel + 1) n e = .ok n' →
      ∃ r c dest r1 n2 d, e.VaultToRelocate = some r ∧
        Network.chooseNeighbour
          { n with TotalRelocations := wrapInt (n.TotalRelocations + 1) } r = .ok c ∧
        c.smallestNeighbour = some dest ∧
        Vault.renameWithPrefix r dest.Prefix = .ok r1 ∧
        Network.RemoveVault (specOps pol) fuel
          { n with TotalRelocations := wrapInt (n.TotalRelocations + 1) } r = .ok n2 ∧
        Network.AddVault (specOps pol) fuel n2 r1.IncrementAge = .ok (n', d) ∧
        (n.Inv → r.Name.bits.length = 256 →
          n2.Inv ∧ r1.IncrementAge.Name.bits.length = 256)) := by
  refine ⟨?_, ?_, ?_, ?_⟩
  · intro fuel ops n hadm hrun
    exact Network.run_good pol hpol fuel ops n hadm hrun
  · intro fuel n n' v d hgood hv h
    exact Network.join_policy pol hpol _ n n' v d hgood hv h
  · intro fuel n n' v hgood h
    exact Network.departure_policy pol hpol _ n n' v hgood h
  · intro fuel n n' e h
    exact Network.relocateVault_steps pol hpol fuel n n' e h

set_option maxRecDepth 100000 in
/-- C7, amended, in the network that eleven joins from `NewNetwork()` reach
(sections 1 and 0 with 7 and 4 members, one split): the network has the
invariant; a join into the section 1 is located there and leaves a network
with the invariant; and the departure of a member of the section 0 leaves 3
members there, below `MergeThreshold`, so the section is merged with its
sibling into the root, which holds the 3 + 7 = 10 members; and the relocation
of that member is its `RemoveVault` followed by the `AddVault` of the vault
renamed and aged, in a network with the invariant. -/
theorem C7_size_policy_witness :
    Network.run (specOps Policy.admitAll) 0 NewNetwork
        ((List.range 4).map (fun i => Op.add (Fixture.vaultOf [false] [] i))
          ++ (List.range 7).map (fun i => Op.add (Fixture.vaultOf [true] [] i)))
      = .ok { Fixture.networkOf [([true], 7), ([false], 4)] with
              TotalSplits := 1, TotalJoins := 11 } ∧
    (({ Fixture.networkOf [([true], 7), ([false], 4)] with
          TotalSplits := 1, TotalJoins := 11 } : Network).Sections = [] ∨
      Network.Inv { Fixture.networkOf [([true], 7), ([false], 4)] with
          TotalSplits := 1, TotalJoins := 11 }) ∧
    (∃ (n1 : Network) (sec : Section) (n3 : Network),
      Network.locateSection (specOps Policy.admitAll)
        { Fixture.networkOf [([true], 7), ([false], 4)] with
          TotalSplits := 1, TotalJoins := 11 }
        (Fixture.vaultOf [true] [] 20) = .ok (n1, some (sec.Prefix.Key, sec)) ∧
      n3.Inv) ∧
    (∃ n2 s, Network.RemoveVault (specOps Policy.admitAll) 0
        { Fixture.networkOf [([true], 7), ([false], 4)] with
          TotalSplits := 1, TotalJoins := 11 }
        (Fixture.vaultOf [false] [false] 0) = .ok n2 ∧
      n2.Sections.get [] = some s ∧ s.Vaults.length = 10) ∧
    (∃ (n' n2 : Network) (r1 : Vault) (d : Bool),
      Network.relocateVault (specOps Policy.admitAll) 1
        { Fixture.networkOf [([true], 7), ([false], 4)] with
          TotalSplits := 1, TotalJoins := 11 }
        { NewSections := [], VaultToRelocate := some (Fixture.vaultOf [false] [false] 0) }
        = .ok n' ∧
      Network.RemoveVault (specOps Policy.admitAll) 0
        { Fixture.networkOf [([true], 7), ([false], 4)] with
          TotalSplits := 1, TotalJoins := 11, TotalRelocations := 1 }
        (Fixture.vaultOf [false] [false] 0) = .ok n2 ∧
      n2.Inv ∧
      Network.AddVault (specOps Policy.admitAll) 0 n2 r1.IncrementAge = .ok (n', d)) := by
  have hsound : Policy.admitAll.Sound :=
    ⟨fun _ _ _ h => by simp [Policy.admitAll] at h,
     fun _ _ _ h => by simp [Policy.admitAll] at h⟩
  have hrun : Network.run (specOps Policy.admitAll) 0 NewNetwork
        ((List.range 4).map (fun i => Op.add (Fixture.vaultOf [false] [] i))
          ++ (List.range 7).map (fun i => Op.add (Fixture.vaultOf [true] [] i)))
      = .ok { Fixture.networkOf [([true], 7), ([false], 4)] with
              TotalSplits := 1, TotalJoins := 11 } := by decide
  have hgood := (C7_size_policy Policy.admitAll hsound).1 0 _ _ (by decide) hrun
  refine ⟨hrun, hgood, ?_, ?_, ?_⟩
  · cases hadd : Network.AddVault (specOps Policy.admitAll) 0
        { Fixture.networkOf [([true], 7), ([false], 4)] with
          TotalSplits := 1, TotalJoins := 11 } (Fixture.vaultOf [true] [] 20) with
    | error err =>
      exfalso
      have hl : Fixture.layoutOf ((Network.AddVault (specOps Policy.admitAll) 0
          { Fixture.networkOf [([true], 7), ([false], 4)] with
            TotalSplits := 1, TotalJoins := 11 }
          (Fixture.vaultOf [true] [] 20)).map Prod.fst) = [([true], 8), ([false], 4)] := by
        decide
      rw [hadd] at hl
      cases hl
    | ok res =>
      obtain ⟨n', d⟩ := res
      obtain ⟨n1, sec, n3, h1, h2, _⟩ := (C7_size_policy Policy.admitAll hsound).2.1 0 _ n'
        (Fixture.vaultOf [true] [] 20) d hgood (by decide) hadd
      exact ⟨n1, sec, n3, h1, h2⟩
  · cases hrem : Network.RemoveVault (specOps Policy.admitAll) 0
        { Fixture.networkOf [([true], 7), ([false], 4)] with
          TotalSplits := 1, TotalJoins := 11 } (Fixture.vaultOf [false] [false] 0) with
    | error err =>
      exfalso
      have hl : Fixture.layoutOf (Network.RemoveVault (specOps Policy.admitAll) 0
          { Fixture.networkOf [([true], 7), ([false], 4)] with
            TotalSplits := 1, TotalJoins := 11 }
          (Fixture.vaultOf [false] [false] 0)) = [([], 10)] := by
        decide
      rw [hrem] at hl
      cases hl
    | ok n2 =>
      rcases (C7_size_policy Policy.admitAll hsound).2.2.1 0 _ n2
          (Fixture.vaultOf [false] [false] 0) hgood hrem with ⟨hnone, _⟩ | ⟨sec, hget, hc⟩
      · exact absurd hnone (by decide)
      · have hsec : sec = Fixture.sectionOf [false] 4 := by
          have hg : ({ Fixture.networkOf [([true], 7), ([false], 4)] with
              TotalSplits := 1, TotalJoins := 11 } : Network).Sections.get
                (Fixture.vaultOf [false] [false] 0).Prefix.Key
              = some (Fixture.sectionOf [false] 4) := by decide
          rw [hg] at hget
          exact (Option.some.inj hget).symm
        subst hsec
        rcases hc with ⟨hcond, _⟩ | ⟨_, _, p, b, hpb, _, hsz⟩
        · exfalso
          rcases hcond with h1 | h1
          · exact absurd h1 (by decide)
          · exact absurd h1 (by decide)
        · have hpb2 : [false] = p ++ [b] := hpb
          have hp : p = [] := by
            cases p with
            | nil => rfl
            | cons x xs =>
              have := congrArg List.length hpb2
              simp at this
          subst hp
          have hb : b = false := by
            simp only [List.nil_append, List.cons.injEq, and_true] at hpb2
            exact hpb2.symm
          subst hb
          rcases hsz with ⟨_, ⟨s, hs, hlen⟩, _⟩ | ⟨hbig, _⟩
          · exact ⟨n2, s, rfl, hs, by rw [hlen]; decide⟩
          · exact absurd hbig (by decide)
  · have hinv : Network.Inv { Fixture.networkOf [([true], 7), ([false], 4)] with
        TotalSplits := 1, TotalJoins := 11 } := by
      rcases hgood with h0 | hi
      · exact absurd h0 (by decide)
      · exact hi
    cases hrel : Network.relocateVault (specOps Policy.admitAll) 1
        { Fixture.networkOf [([true], 7), ([false], 4)] with
          TotalSplits := 1, TotalJoins := 11 }
        { NewSections := [], VaultToRelocate := some (Fixture.vaultOf [false] [false] 0) } with
    | error err =>
      exfalso
      have hl : Fixture.layoutOf (Network.relocateVault (specOps Policy.admitAll) 1
          { Fixture.networkOf [([true], 7), ([false], 4)] with
            TotalSplits := 1, TotalJoins := 11 }
          { NewSections := []
            VaultToRelocate := some (Fixture.vaultOf [false] [false] 0) })
          = [([true], 8), ([false], 3)] := by
        decide
      rw [hrel] at hl
      cases hl
    | ok n' =>
      obtain ⟨r, c, dest, r1, n2, d, hr, _, _, _, hrm, hadd, hkeep⟩ :=
        (C7_size_policy Policy.admitAll hsound).2.2.2 0 _ n' _ hrel
      simp only [Option.some.injEq] at hr
      subst hr
      exact ⟨n', n2, r1, d, rfl, hrm, (hkeep hinv (by decide)).1, hadd⟩

/-- C3 (merge correctness): under the spec's Section operations, in a network
with more than one section whose keys partition the identifier space, let the
vault `v` be a member of the section `S` that has the prefix of `v` (of bits
`p ++ [b]`, so not the root) and is stored under its key.  If `S` without `v`
has fewer than `MergeThreshold` members, and these together with all members
of the sections whose key equals or extends the sibling `p ++ [!b]` are fewer
than `SplitSize`, then `RemoveVault v` completes, `p` is the parent and
`p ++ [!b]` the sibling of the prefix of `S`, the only key that extends `p` is
`p` itself, and the section stored there has prefix `p` and holds exactly
those vaults (each recording the prefix `p`). -/
theorem C3_merge_correctness (pol : Policy) (fuel : Nat) (n : Network) (v : Vault)
    (S : Section) (p : List Bool) (b : Bool)
    (hnd : n.Sections.keys.Nodup)
    (hmore : n.HasMoreThanOneSection = true)
    (hpart : Partitions n.Sections)
    (hS : n.Sections.get v.Prefix.Key = some S) (hSp : S.Prefix = v.Prefix)
    (hv : v.Prefix.bits = p ++ [b])
    (_hmem : v ∈ S.Vaults)
    (hsmall : (S.Vaults.erase v).length < MergeThreshold)
    (hunion : (S.Vaults.erase v ++ membersUnder n.Sections (p ++ [!b])).length < SplitSize) :
    ∃ n' P, Network.RemoveVault (specOps pol) fuel n v = .ok n' ∧
      S.Prefix.parent = .ok ⟨p⟩ ∧ S.Prefix.sibling = .ok ⟨p ++ [!b]⟩ ∧
      (∀ k ∈ n'.Sections.keys, p <+: k → k = p) ∧
      n'.Sections.get p = some P ∧ P.Prefix = ⟨p⟩ ∧
      List.Perm P.Vaults
        ((S.Vaults.erase v ++ membersUnder n.Sections (p ++ [!b])).map
          (fun u => u.SetPrefix ⟨p⟩)) ∧
      n'.TotalMerges = wrapInt (n.TotalMerges + 1) := by
  have hvp : v.Prefix = ⟨p ++ [b]⟩ := by
    cases hvv : v.Prefix
    rw [hvv] at hv
    simp only at hv
    rw [hv]
  have hkmem : v.Prefix.Key ∈ n.Sections.keys := by
    rw [← SectionMap.get_isSome_iff, hS]; rfl
  have hrem : (specOps pol).removeVault S v
      = .ok (⟨S.Prefix, S.Vaults.erase v⟩,
          some { NewSections := []
                 VaultToRelocate := pol.relocateOnDeparture ⟨S.Prefix, S.Vaults.erase v⟩ v }) :=
    rfl
  have hshould : (specOps pol).shouldMerge ⟨S.Prefix, S.Vaults.erase v⟩ = true := by
    show Section.shouldMerge _ = true
    simp only [Section.shouldMerge, decide_eq_true_eq]
    exact hsmall
  have hmore2 : Network.HasMoreThanOneSection
      { n with
        TotalDepartures := wrapInt (n.TotalDepartures + 1)
        Sections := n.Sections.set v.Prefix.Key ⟨S.Prefix, S.Vaults.erase v⟩ } = true := by
    rw [Network.HasMoreThanOneSection_iff]
    simp only
    rw [Network.length_set_of_mem _ _ _ hnd hkmem]
    exact (Network.HasMoreThanOneSection_iff n).mp hmore
  have hkeys2 : ∀ k, k ∈ (n.Sections.set v.Prefix.Key ⟨S.Prefix, S.Vaults.erase v⟩).keys
      ↔ k ∈ n.Sections.keys := by
    intro k
    rw [SectionMap.mem_keys_set]
    constructor
    · rintro (h | h)
      · rw [h]; exact hkmem
      · exact h
    · intro h; exact Or.inr h
  have hpart2 : Partitions (n.Sections.set v.Prefix.Key ⟨S.Prefix, S.Vaults.erase v⟩) :=
    PartitionKeys.congr (fun k => (hkeys2 k).symm) hpart
  obtain ⟨D, m4, hDnd, hDmem, hnd4, hget4, hmerge⟩ := Network.mergeSection_spec (specOps pol)
    { n with
      TotalDepartures := wrapInt (n.TotalDepartures + 1)
      Sections := n.Sections.set v.Prefix.Key ⟨S.Prefix, S.Vaults.erase v⟩ }
    ⟨S.Prefix, S.Vaults.erase v⟩ v p b hv hSp (SectionMap.nodup_set _ _ _ hnd) hpart2
    ((hkeys2 _).mpr hkmem)
  simp only at hDmem hget4 hmerge
  -- the members gathered are the members under the sibling in the old map
  have hDmem' : ∀ k, k ∈ D ↔ k ∈ n.Sections.keys ∧ (p ++ [!b]) <+: k := by
    intro k; rw [hDmem, hkeys2]
  have hsame : D.flatMap (vaultsAt (n.Sections.set v.Prefix.Key ⟨S.Prefix, S.Vaults.erase v⟩))
      = D.flatMap (vaultsAt n.Sections) := by
    apply List.flatMap_congr
    intro k hk
    have hpre := ((hDmem k).mp hk).2
    have hne : ¬ v.Prefix.Key = k := by
      intro he
      rw [← he, hvp] at hpre
      have := hpre.eq_of_length (by simp [Prefix.Key])
      simp [Prefix.Key] at this
    simp only [vaultsAt, SectionMap.get_set, if_neg hne]
  have hperm := Network.flatMap_vaultsAt_perm n.Sections hnd (p ++ [!b]) D hDnd hDmem'
  rw [hsame] at hmerge
  have hlen : (S.Vaults.erase v ++ D.flatMap (vaultsAt n.Sections)).length ≤ SplitSize := by
    have := (List.Perm.append_left (S.Vaults.erase v) hperm).length_eq
    rw [this]; omega
  have hnew : (specOps pol).newSection ⟨p⟩
      (S.Vaults.erase v ++ D.flatMap (vaultsAt n.Sections))
      = .ok (some { NewSections := [⟨⟨p⟩, (S.Vaults.erase v
            ++ D.flatMap (vaultsAt n.Sections)).map (fun u => u.SetPrefix ⟨p⟩)⟩]
                    VaultToRelocate := none }) :=
    Network.newSection_single _ _ hlen
  rw [hnew] at hmerge
  simp only [Network.storeSections] at hmerge
  have hrun : Network.RemoveVault (specOps pol) fuel n v = .ok
      { n with
        TotalDepartures := wrapInt (n.TotalDepartures + 1)
        TotalMerges := wrapInt (n.TotalMerges + 1)
        Sections := m4.set p ⟨⟨p⟩, (S.Vaults.erase v
            ++ D.flatMap (vaultsAt n.Sections)).map (fun u => u.SetPrefix ⟨p⟩)⟩ } := by
    simp only [Network.RemoveVault, Network.RemoveVaultWith, hS, hrem, hshould, hmore2,
      Bool.and_self, if_true, hmerge]
    rfl
  refine ⟨_, ⟨⟨p⟩, (S.Vaults.erase v
      ++ D.flatMap (vaultsAt n.Sections)).map (fun u => u.SetPrefix ⟨p⟩)⟩,
    hrun, ?_, ?_, ?_, ?_, rfl, ?_, rfl⟩
  · rw [hSp, hvp]; exact Network.parent_concat p b
  · rw [hSp, hvp]; exact Network.sibling_concat p b
  · intro k hk hpk
    simp only at hk
    rw [SectionMap.mem_keys_set] at hk
    rcases hk with hk | hk
    · exact hk
    · exfalso
      rw [← SectionMap.get_isSome_iff, hget4, if_pos hpk] at hk
      cases hk
  · simp only
    rw [SectionMap.get_set, if_pos rfl]
  · exact List.Perm.map _ (List.Perm.append_left _ hperm)

set_option maxRecDepth 100000 in
/-- C3 at sibling sections of 5 and 3 members: the removal of a vault from the
section of 3 leaves exactly one section, with 7 members. -/
theorem C3_merge_correctness_witness :
    Fixture.layoutOf (Network.RemoveVault (specOps Policy.admitAll) 0
      (Fixture.networkOf [([false], 5), ([true], 3)])
      (Fixture.vaultOf [true] [true] 0)) = [([], 7)] ∧
    ∃ n' P, Network.RemoveVault (specOps Policy.admitAll) 0
        (Fixture.networkOf [([false], 5), ([true], 3)])
        (Fixture.vaultOf [true] [true] 0) = .ok n' ∧
      (∀ k ∈ n'.Sections.keys, [] <+: k → k = []) ∧
      n'.Sections.get [] = some P ∧
      P.Vaults.length = 7 :=
  ⟨by decide,
   (C3_merge_correctness Policy.admitAll 0 (Fixture.networkOf [([false], 5), ([true], 3)])
      (Fixture.vaultOf [true] [true] 0) (Fixture.sectionOf [true] 3) [] true
      (by decide) (by decide)
      ⟨by decide, fun x hx => by
        cases x with
        | nil => simp at hx
        | cons c rest =>
          refine ⟨[c], ⟨by cases c <;> decide, ⟨rest, rfl⟩⟩, ?_⟩
          rintro k ⟨hk, hpre⟩
          have hk2 : k = [false] ∨ k = [true] := by
            simpa [Fixture.networkOf, SectionMap.keys] using hk
          rcases hk2 with h | h <;> subst h <;>
            · obtain ⟨t, ht⟩ := hpre
              simp only [List.singleton_append, List.cons.injEq] at ht
              rw [ht.1]⟩
      (by decide) (by decide) (by decide) (by decide) (by decide) (by decide)).imp
     (fun _ h => h.imp (fun _ h2 =>
       ⟨h2.1, h2.2.2.2.1, h2.2.2.2.2.1, by
         rw [h2.2.2.2.2.2.2.1.length_eq]; decide⟩))⟩

/-- C15 (descendant collection): in a network whose keys are prefix-free and
at most 256 bits long, `getChildPrefixes p` returns, and returns every key that
strictly extends `p`, each exactly once, and nothing else. -/
theorem C15_descendant_collection (n : Network) (p : Prefix)
    (hpf : PrefixFree n.Sections) (hlen : ∀ k ∈ n.Sections.keys, k.length ≤ 256) :
    ∃ l, Network.getChildPrefixes n p = .ok l ∧ l.Nodup ∧
      ∀ q : Prefix, q ∈ l ↔ (q.Key ∈ n.Sections.keys ∧ p.bits <+: q.bits ∧ p.bits ≠ q.bits) := by
  obtain ⟨l, hl⟩ := Network.getChildPrefixes_total n p
  refine ⟨l, hl, Network.getChildPrefixesFuel_nodup n _ _ _ hl, ?_⟩
  intro q
  constructor
  · exact Network.getChildPrefixesFuel_sound n _ _ _ hl q
  · rintro ⟨hk, hpre, hne⟩
    have := Network.getChildPrefixesFuel_complete n hpf hlen _ _ _ hl q.Key hk hpre hne
    cases q
    exact this

set_option maxRecDepth 100000 in
/-- C15 at the root prefix in the network with the keys 00, 01 and 1: the
search returns 1, 00 and 01. -/
theorem C15_descendant_collection_witness :
    Network.candidateBits (Network.getChildPrefixes
      (Fixture.networkOf [([false, false], 4), ([false, true], 9), ([true], 5)]) ⟨[]⟩)
      = [[true], [false, false], [false, true]] ∧
    ∃ l, Network.getChildPrefixes
        (Fixture.networkOf [([false, false], 4), ([false, true], 9), ([true], 5)]) ⟨[]⟩
        = .ok l ∧ l.Nodup :=
  ⟨by decide,
   (C15_descendant_collection
      (Fixture.networkOf [([false, false], 4), ([false, true], 9), ([true], 5)]) ⟨[]⟩
      (by unfold PrefixFree; decide) (by decide)).imp (fun _ h => ⟨h.1, h.2.1⟩)⟩

/-- C17 (termination of the descendant search): for every network and every
prefix `p`, of any length, `getChildPrefixes p` returns: the recursion budget
`childSearchDepth`, computed from the finite map, is never exhausted.  When
the keys are at most 256 bits long, a budget of `256 - len(p) + 1` nested calls
is enough, and every call is on a prefix of at most 256 bits or on `p` itself. -/
theorem C17_descendant_search_terminates (n : Network) (p : Prefix) :
    (∃ l, Network.getChildPrefixes n p = .ok l) ∧
    ((∀ k ∈ n.Sections.keys, k.length ≤ 256) →
      (∃ l, Network.getChildPrefixesFuel n (256 - p.bits.length + 1) p = .ok l ∧
        Network.getChildPrefixes n p = .ok l) ∧
      ∀ q ∈ Network.childSearchVisits n (256 - p.bits.length + 1) p,
        q.bits.length ≤ max p.bits.length 256) := by
  refine ⟨Network.getChildPrefixes_total n p, ?_⟩
  intro hlen
  have hmax : max 256 (Network.maxKeyLength n.Sections) = 256 :=
    max_eq_left (Network.maxKeyLength_le _ _ hlen)
  have hfuel : Network.childSearchDepth n p = 256 - p.bits.length + 1 := by
    unfold Network.childSearchDepth
    rw [hmax]
  refine ⟨?_, Network.childSearchVisits_length n hlen _ p⟩
  obtain ⟨l, hl⟩ := Network.getChildPrefixes_total n p
  refine ⟨l, ?_, hl⟩
  unfold Network.getChildPrefixes at hl
  rw [hfuel] at hl
  exact hl

set_option maxRecDepth 100000 in
/-- C17 at the root prefix in the network with the keys 00, 01 and 1: the
search returns within 257 nested calls, and returns 1, 00 and 01. -/
theorem C17_descendant_search_terminates_witness :
    (∀ k ∈ (Fixture.networkOf [([false, false], 4), ([false, true], 9),
      ([true], 5)]).Sections.keys, k.length ≤ 256) ∧
    ∃ l, Network.getChildPrefixesFuel
        (Fixture.networkOf [([false, false], 4), ([false, true], 9), ([true], 5)])
        (256 - (⟨[]⟩ : Prefix).bits.length + 1) ⟨[]⟩ = .ok l ∧
      Network.getChildPrefixes
        (Fixture.networkOf [([false, false], 4), ([false, true], 9), ([true], 5)]) ⟨[]⟩
        = .ok l :=
  ⟨by decide,
   ((C17_descendant_search_terminates
      (Fixture.networkOf [([false, false], 4), ([false, true], 9), ([true], 5)]) ⟨[]⟩).2
      (by decide)).1⟩

/-- C19 (lookup safety): in every network, every prefix that
`getChildPrefixes p` or `getMatchingPrefixes p` returns is a key of
`n.Sections`; hence the merge loop of `RemoveVault` over the prefixes of
`getChildPrefixes p` finds a section at every lookup and completes, and the
destination search of `relocateVault` finds a section for every candidate and
completes. -/
theorem C19_lookup_safety (n : Network) (p : Prefix) :
    (∀ l, Network.getChildPrefixes n p = .ok l →
      ∀ q ∈ l, (n.Sections.get q.Key).isSome = true) ∧
    (∀ l, Network.getMatchingPrefixes n p = .ok l →
      ∀ q ∈ l, (n.Sections.get q.Key).isSome = true) ∧
    (∀ l parentVaults, Network.getChildPrefixes n p = .ok l →
      ∃ m vs, Network.mergeChildren l n.Sections parentVaults = .ok (m, vs)) ∧
    (∀ r : Vault, ∃ c, Network.chooseNeighbour n r = .ok c) := by
  refine ⟨?_, ?_, ?_, ?_⟩
  · intro l hl q hq
    exact (SectionMap.get_isSome_iff _ _).mpr
      (Network.getChildPrefixesFuel_sound n _ _ _ hl q hq).1
  · intro l hl q hq
    obtain ⟨l2, hl2, hkeys⟩ := Network.getMatchingPrefixes_keys n p
    rw [hl] at hl2
    cases hl2
    exact (SectionMap.get_isSome_iff _ _).mpr (hkeys q hq)
  · intro l pv hl
    have hinj : Function.Injective Prefix.Key := fun _ _ h => Prefix.key_injective h
    obtain ⟨m, hm, _⟩ := Network.mergeChildren_spec l n.Sections pv
      (List.Nodup.map hinj (Network.getChildPrefixesFuel_nodup n _ _ _ hl))
      (fun c hc => (Network.getChildPrefixesFuel_sound n _ _ _ hl c hc).1)
    exact ⟨m, _, hm⟩
  · intro r
    exact Network.neighbourSearch_ok n r _ _

set_option maxRecDepth 100000 in
/-- C19 at the prefix 0 in the network with the keys 00, 01 and 1: the
descendant search returns 00 and 01, and the lookup of 01 finds a section. -/
theorem C19_lookup_safety_witness :
    Network.getChildPrefixes
      (Fixture.networkOf [([false, false], 4), ([false, true], 9), ([true], 5)]) ⟨[false]⟩
      = .ok [⟨[false, false]⟩, ⟨[false, true]⟩] ∧
    ((Fixture.networkOf [([false, false], 4), ([false, true], 9),
      ([true], 5)]).Sections.get (⟨[false, true]⟩ : Prefix).Key).isSome = true :=
  ⟨by decide,
   (C19_lookup_safety
      (Fixture.networkOf [([false, false], 4), ([false, true], 9), ([true], 5)])
      ⟨[false]⟩).1 [⟨[false, false]⟩, ⟨[false, true]⟩] (by decide) ⟨[false, true]⟩
      (by decide)⟩

/-- C16 (neighbour enumeration): for a vault prefix `P` of length `L`, the loop
of `relocateVault` constructs exactly `L` neighbour prefixes, and for each
`i < L` the `i`-th of them has length `L`, has bit `i` equal to the negation of
bit `i` of `P`, and agrees with `P` at every other position. -/
theorem C16_neighbour_enumeration (P : Prefix) :
    (Network.neighbourPrefixes P).length = P.bits.length ∧
    ∀ i, i < P.bits.length →
      (Network.neighbourPrefixes P)[i]? = some (Network.neighbourPrefix P i) ∧
      (Network.neighbourPrefix P i).bits.length = P.bits.length ∧
      (Network.neighbourPrefix P i).bits[i]? = (P.bits[i]?).map (fun b => !b) ∧
      ∀ j, j ≠ i → (Network.neighbourPrefix P i).bits[j]? = P.bits[j]? := by
  refine ⟨by simp [Network.neighbourPrefixes], ?_⟩
  intro i hi
  refine ⟨?_, ?_, ?_, ?_⟩
  · simp [Network.neighbourPrefixes, hi]
  · rw [Network.neighbourPrefix_bits]; simp
  · rw [Network.neighbourPrefix_bits]
    simp [hi, List.getD_eq_getElem?_getD]
  · intro j hj
    rw [Network.neighbourPrefix_bits]
    rw [List.getElem?_set_ne (fun h => hj h.symm)]

set_option maxRecDepth 100000 in
/-- C16 at the prefix 010: the neighbours are 110, 000 and 011. -/
theorem C16_neighbour_enumeration_witness :
    (Network.neighbourPrefixes ⟨[false, true, false]⟩).map (fun q => q.bits)
      = [[true, true, false], [false, false, false], [false, true, true]] ∧
    (Network.neighbourPrefix ⟨[false, true, false]⟩ 1).bits.length = 3 :=
  ⟨by decide,
   ((C16_neighbour_enumeration ⟨[false, true, false]⟩).2 1 (by decide)).2.1⟩

/-- C18 (parent and sibling are not taken at the root): in a network with one
entry per key, prefix-free keys and every section stored under its own prefix
key, let `RemoveVault v` find the section `sec`, let `removeVault` leave it as
`sec1` with its prefix unchanged, and let the merge condition hold
(`shouldMerge()` and `HasMoreThanOneSection()`).  Then `RemoveVault` is the
merge of `sec1`, whose prefix is the prefix of `v` and has at least one bit,
and `parent()` and `sibling()` are defined there. -/
theorem C18_merge_not_at_root (ops : SectionOps) (fuel : Nat) (n : Network) (v : Vault)
    (sec sec1 : Section) (ne : Option NetworkEvent)
    (hnd : n.Sections.keys.Nodup) (hpf : PrefixFree n.Sections)
    (hstored : ∀ k s, n.Sections.get k = some s → s.Prefix.Key = k)
    (hget : n.Sections.get v.Prefix.Key = some sec)
    (hrem : ops.removeVault sec v = .ok (sec1, ne)) (hsame : sec1.Prefix = sec.Prefix)
    (hmerge : (ops.shouldMerge sec1 && Network.HasMoreThanOneSection
      { n with
        TotalDepartures := wrapInt (n.TotalDepartures + 1)
        Sections := n.Sections.set v.Prefix.Key sec1 }) = true) :
    Network.RemoveVault ops fuel n v
      = Network.mergeSection ops
          { n with
            TotalDepartures := wrapInt (n.TotalDepartures + 1)
            Sections := n.Sections.set v.Prefix.Key sec1 } sec1 v ∧
    sec1.Prefix = v.Prefix ∧ 1 ≤ v.Prefix.bits.length ∧
    (∃ q, sec1.Prefix.parent = .ok q) ∧ ∃ q, v.Prefix.sibling = .ok q := by
  have hkmem : v.Prefix.Key ∈ n.Sections.keys := by
    rw [← SectionMap.get_isSome_iff, hget]; rfl
  have hp : sec1.Prefix = v.Prefix := by
    rw [hsame]; exact Prefix.key_injective (hstored _ _ hget)
  have hmore : 1 < n.Sections.length := by
    simp only [Bool.and_eq_true] at hmerge
    have := (Network.HasMoreThanOneSection_iff _).mp hmerge.2
    simp only at this
    rw [Network.length_set_of_mem _ _ _ hnd hkmem] at this
    exact this
  have hlen : 1 ≤ v.Prefix.bits.length := by
    by_contra hlt
    have h0 : v.Prefix.bits = [] := by
      cases hb : v.Prefix.bits with
      | nil => rfl
      | cons b bs => rw [hb] at hlt; simp at hlt
    have hroot : ([] : Key) ∈ n.Sections.keys := by
      have : v.Prefix.Key = [] := h0
      rw [← this]; exact hkmem
    have := Network.length_le_one_of_root _ hnd hpf hroot
    omega
  obtain ⟨p, b, hpb⟩ : ∃ p b, v.Prefix.bits = p ++ [b] := by
    rcases List.eq_nil_or_concat v.Prefix.bits with h0 | ⟨p, b, hpb⟩
    · rw [h0] at hlen; simp at hlen
    · exact ⟨p, b, by rw [hpb, List.concat_eq_append]⟩
  have hvp : v.Prefix = ⟨p ++ [b]⟩ := by
    cases hvv : v.Prefix
    rw [hvv] at hpb
    simp only at hpb
    rw [hpb]
  refine ⟨?_, hp, hlen, ?_, ?_⟩
  · simp only [Network.RemoveVault, Network.RemoveVaultWith, hget, hrem]
    rw [if_pos hmerge]
  · rw [hp, hvp]; exact ⟨_, Network.parent_concat p b⟩
  · rw [hvp]; exact ⟨_, Network.sibling_concat p b⟩

set_option maxRecDepth 100000 in
/-- C18 at the departure of a member of the section 1 (of 3 members) with
sibling section 0. -/
theorem C18_merge_not_at_root_witness :
    1 ≤ (Fixture.vaultOf [true] [true] 0).Prefix.bits.length ∧
    ∃ q, (Fixture.vaultOf [true] [true] 0).Prefix.sibling = .ok q :=
  ⟨((C18_merge_not_at_root (specOps Policy.admitAll) 0
      (Fixture.networkOf [([false], 5), ([true], 3)]) (Fixture.vaultOf [true] [true] 0)
      (Fixture.sectionOf [true] 3)
      ⟨⟨[true]⟩, (Fixture.sectionOf [true] 3).Vaults.erase (Fixture.vaultOf [true] [true] 0)⟩
      (some { NewSections := [], VaultToRelocate := none })
      (by decide) (by unfold PrefixFree; decide)
      (by
        intro k s hs
        have hk : k = [false] ∨ k = [true] := by
          have := (SectionMap.get_isSome_iff _ k).mp (by rw [hs]; rfl)
          simpa [Fixture.networkOf, SectionMap.keys] using this
        rcases hk with hk | hk <;> subst hk <;>
          · have : some s = _ := hs.symm
            simp only [Fixture.networkOf, List.map_cons, List.map_nil, SectionMap.get] at this
            simp at this
            rw [this]; rfl)
      (by decide) (by decide) (by decide) (by decide)).2.2.1),
   ((C18_merge_not_at_root (specOps Policy.admitAll) 0
      (Fixture.networkOf [([false], 5), ([true], 3)]) (Fixture.vaultOf [true] [true] 0)
      (Fixture.sectionOf [true] 3)
      ⟨⟨[true]⟩, (Fixture.sectionOf [true] 3).Vaults.erase (Fixture.vaultOf [true] [true] 0)⟩
      (some { NewSections := [], VaultToRelocate := none })
      (by decide) (by unfold PrefixFree; decide)
      (by
        intro k s hs
        have hk : k = [false] ∨ k = [true] := by
          have := (SectionMap.get_isSome_iff _ k).mp (by rw [hs]; rfl)
          simpa [Fixture.networkOf, SectionMap.keys] using this
        rcases hk with hk | hk <;> subst hk <;>
          · have : some s = _ := hs.symm
            simp only [Fixture.networkOf, List.map_cons, List.map_nil, SectionMap.get] at this
            simp at this
            rw [this]; rfl)
      (by decide) (by decide) (by decide) (by decide)).2.2.2.2)⟩

set_option maxRecDepth 100000 in
/-- C20 as stated fails where a counter holds the largest `int`: a join into
the network with the sections 0 and 1 whose `TotalJoins` is `MaxInt64` completes
with `TotalJoins` equal to `MinInt64`, so `TotalJoins - TotalDepartures` falls
from `MaxInt64` to `MinInt64` and does not rise by 1. -/
theorem C20_counter_balance_counterexample :
    Fixture.countersOf ((Network.AddVault (specOps Policy.admitAll) 0
        { Fixture.networkOf [([false], 5), ([true], 5)] with TotalJoins := MaxInt64 }
        (Fixture.vaultOf [true] [] 9)).map (fun r => r.1)) = [MinInt64, 0, 0, 0, 0] ∧
    ({ Fixture.networkOf [([false], 5), ([true], 5)] with
        TotalJoins := MaxInt64 } : Network).TotalJoins
      - ({ Fixture.networkOf [([false], 5), ([true], 5)] with
        TotalJoins := MaxInt64 } : Network).TotalDepartures = MaxInt64 ∧
    ¬ (MinInt64 - 0 = MaxInt64 + 1) := by
  decide

/-- C20, amended (counter balance under relocation cascades): for every
network, vault and event, whatever the Section operations return, with
relocations nested at most `fuel` deep.  A completed `AddVault` executes the
increment of `TotalJoins` `k + 1` times and those of `TotalDepartures` and
`TotalRelocations` `k` times each, for some `k < 2 ^ fuel`; a completed
`RemoveVault` (the unknown-section case included) executes the increment of
`TotalDepartures` `k + 1` times and those of `TotalJoins` and
`TotalRelocations` `k` times each; a completed `relocateVault` executes the
three increments the same number `k` of times, `1 ≤ k < 2 ^ fuel`.  Every
increment is `c + 1` on a Go `int`.  Hence, in a network whose three counters
are at least `2 ^ fuel` below the largest `int`: `AddVault` raises
`TotalJoins - TotalDepartures` by exactly 1, `RemoveVault` lowers it by exactly
1, and `relocateVault` leaves it unchanged while `TotalRelocations`,
`TotalJoins` and `TotalDepartures` each grow by at least 1. -/
theorem C20_counter_balance (ops : SectionOps) (fuel : Nat) (n n' : Network) :
    (∀ v d, Network.AddVault ops fuel n v = .ok (n', d) →
      ∃ k : Nat, k < 2 ^ fuel ∧ n'.TotalJoins = incrTimes (k + 1) n.TotalJoins ∧
        n'.TotalDepartures = incrTimes k n.TotalDepartures ∧
        n'.TotalRelocations = incrTimes k n.TotalRelocations) ∧
    (∀ v, Network.RemoveVault ops fuel n v = .ok n' →
      ∃ k : Nat, k < 2 ^ fuel ∧ n'.TotalDepartures = incrTimes (k + 1) n.TotalDepartures ∧
        n'.TotalJoins = incrTimes k n.TotalJoins ∧
        n'.TotalRelocations = incrTimes k n.TotalRelocations) ∧
    (∀ e, Network.relocateVault ops fuel n e = .ok n' →
      ∃ k : Nat, 1 ≤ k ∧ k < 2 ^ fuel ∧
        n'.TotalRelocations = incrTimes k n.TotalRelocations ∧
        n'.TotalJoins = incrTimes k n.TotalJoins ∧
        n'.TotalDepartures = incrTimes k n.TotalDepartures) ∧
    (MinInt64 ≤ n.TotalJoins → n.TotalJoins + ((2 ^ fuel : Nat) : Int) ≤ MaxInt64 →
      MinInt64 ≤ n.TotalDepartures →
      n.TotalDepartures + ((2 ^ fuel : Nat) : Int) ≤ MaxInt64 →
      MinInt64 ≤ n.TotalRelocations →
      n.TotalRelocations + ((2 ^ fuel : Nat) : Int) ≤ MaxInt64 →
      (∀ v d, Network.AddVault ops fuel n v = .ok (n', d) →
        n'.TotalJoins - n'.TotalDepartures = n.TotalJoins - n.TotalDepartures + 1) ∧
      (∀ v, Network.RemoveVault ops fuel n v = .ok n' →
        n'.TotalJoins - n'.TotalDepartures = n.TotalJoins - n.TotalDepartures - 1) ∧
      (∀ e, Network.relocateVault ops fuel n e = .ok n' →
        n'.TotalJoins - n'.TotalDepartures = n.TotalJoins - n.TotalDepartures ∧
        n.TotalRelocations + 1 ≤ n'.TotalRelocations ∧ n.TotalJoins + 1 ≤ n'.TotalJoins ∧
        n.TotalDepartures + 1 ≤ n'.TotalDepartures)) := by
  have hpow : 1 ≤ 2 ^ fuel := Nat.one_le_two_pow
  have hadd : ∀ v d, Network.AddVault ops fuel n v = .ok (n', d) →
      ∃ k : Nat, k < 2 ^ fuel ∧ n'.TotalJoins = incrTimes (k + 1) n.TotalJoins ∧
        n'.TotalDepartures = incrTimes k n.TotalDepartures ∧
        n'.TotalRelocations = incrTimes k n.TotalRelocations := by
    intro v d h
    obtain ⟨k, hk, h1, h2, h3⟩ := Network.AddVaultWith_counters ops _ (2 ^ fuel - 1)
      (Network.relocateVault_counters ops fuel) n n' v d h
    exact ⟨k, by omega, h1, h2, h3⟩
  have hrem : ∀ v, Network.RemoveVault ops fuel n v = .ok n' →
      ∃ k : Nat, k < 2 ^ fuel ∧ n'.TotalDepartures = incrTimes (k + 1) n.TotalDepartures ∧
        n'.TotalJoins = incrTimes k n.TotalJoins ∧
        n'.TotalRelocations = incrTimes k n.TotalRelocations := by
    intro v h
    obtain ⟨k, hk, h1, h2, h3⟩ := Network.RemoveVaultWith_counters ops _ (2 ^ fuel - 1)
      (Network.relocateVault_counters ops fuel) n n' v h
    exact ⟨k, by omega, h1, h2, h3⟩
  have hrel : ∀ e, Network.relocateVault ops fuel n e = .ok n' →
      ∃ k : Nat, 1 ≤ k ∧ k < 2 ^ fuel ∧
        n'.TotalRelocations = incrTimes k n.TotalRelocations ∧
        n'.TotalJoins = incrTimes k n.TotalJoins ∧
        n'.TotalDepartures = incrTimes k n.TotalDepartures := by
    intro e h
    obtain ⟨k, hk1, hk, h1, h2, h3⟩ := Network.relocateVault_counters ops fuel n e n' h
    exact ⟨k, hk1, by omega, h1, h2, h3⟩
  refine ⟨hadd, hrem, hrel, ?_⟩
  intro j1 j2 d1 d2 r1 r2
  generalize 2 ^ fuel = B at *
  refine ⟨?_, ?_, ?_⟩
  · intro v d h
    obtain ⟨k, hk, h1, h2, _⟩ := hadd v d h
    rw [h1, h2, incrTimes_exact (k + 1) _ j1 (by push_cast; omega),
      incrTimes_exact k _ d1 (by omega)]
    push_cast
    omega
  · intro v h
    obtain ⟨k, hk, h1, h2, _⟩ := hrem v h
    rw [h1, h2, incrTimes_exact (k + 1) _ d1 (by push_cast; omega),
      incrTimes_exact k _ j1 (by omega)]
    push_cast
    omega
  · intro e h
    obtain ⟨k, hk1, hk, h1, h2, h3⟩ := hrel e h
    rw [h1, h2, h3, incrTimes_exact k _ r1 (by omega), incrTimes_exact k _ j1 (by omega),
      incrTimes_exact k _ d1 (by omega)]
    omega

set_option maxRecDepth 100000 in
/-- C20, amended, at a join that is relocated at once (a vault of age 0 under
the policy that relocates the young): the call counts two joins, one departure
and one relocation, and the balance of joins and departures rises by 1. -/
theorem C20_counter_balance_witness :
    Fixture.countersOf ((Network.AddVault (specOps Fixture.relocateYoung) 3
        (Fixture.networkOf [([false], 6), ([true], 7)])
        (Fixture.vaultOf [true] [] 0)).map (fun r => r.1)) = [2, 1, 0, 0, 1] ∧
    ∃ n1 d, Network.AddVault (specOps Fixture.relocateYoung) 3
        (Fixture.networkOf [([false], 6), ([true], 7)]) (Fixture.vaultOf [true] [] 0)
        = .ok (n1, d) ∧
      n1.TotalJoins - n1.TotalDepartures
        = (Fixture.networkOf [([false], 6), ([true], 7)]).TotalJoins
          - (Fixture.networkOf [([false], 6), ([true], 7)]).TotalDepartures + 1 :=
  ⟨by decide,
   match h : Network.AddVault (specOps Fixture.relocateYoung) 3
        (Fixture.networkOf [([false], 6), ([true], 7)]) (Fixture.vaultOf [true] [] 0) with
   | .ok (n1, d) =>
     ⟨n1, d, rfl, ((C20_counter_balance (specOps Fixture.relocateYoung) 3
        (Fixture.networkOf [([false], 6), ([true], 7)]) n1).2.2.2
        (by decide) (by decide) (by decide) (by decide) (by decide) (by decide)).1
        (Fixture.vaultOf [true] [] 0) d h⟩
   | .error e => by
     have hc : Fixture.countersOf ((Network.AddVault (specOps Fixture.relocateYoung) 3
        (Fixture.networkOf [([false], 6), ([true], 7)])
        (Fixture.vaultOf [true] [] 0)).map (fun r => r.1)) = [2, 1, 0, 0, 1] := by decide
     rw [h] at hc
     cases hc⟩

set_option maxRecDepth 100000 in
/-- C14 fails where a key is a leading prefix of another key: with the keys
root and 0, the walk for the prefix 0 returns both the root and 0. -/
theorem C14_neighbour_resolution_counterexample :
    (∃ k ∈ (Fixture.networkOf [([], 5), ([false], 5)]).Sections.keys,
      k <+: (⟨[false]⟩ : Prefix).bits) ∧
    Network.getMatchingPrefixes (Fixture.networkOf [([], 5), ([false], 5)]) ⟨[false]⟩
      = .ok [⟨[]⟩, ⟨[false]⟩] :=
  ⟨⟨[], by decide, List.nil_prefix⟩, by decide⟩

/-- C14, amended (neighbour resolution): for every network `n` and prefix `p`,
if some leading prefix of `p` is a key, `getMatchingPrefixes p` returns every
leading prefix of `p` that is a key, shortest first, and with prefix-free keys
that is exactly one prefix, the only key that leads `p`; if no leading prefix of
`p` is a key, it returns exactly `getChildPrefixes p`. -/
theorem C14_neighbour_resolution (n : Network) (p : Prefix) :
    ((∃ k ∈ n.Sections.keys, k <+: p.bits) →
      Network.getMatchingPrefixes n p = .ok (Network.matchingAncestors n p) ∧
      Network.matchingAncestors n p ≠ [] ∧
      (PrefixFree n.Sections →
        ∃ q, Network.getMatchingPrefixes n p = .ok [q] ∧ q.Key ∈ n.Sections.keys ∧
          q.bits <+: p.bits ∧ ∀ k ∈ n.Sections.keys, k <+: p.bits → k = q.bits)) ∧
    ((¬ ∃ k ∈ n.Sections.keys, k <+: p.bits) →
      Network.getMatchingPrefixes n p = Network.getChildPrefixes n p) ∧
    (∀ q, q ∈ Network.matchingAncestors n p ↔ (q.bits <+: p.bits ∧ q.Key ∈ n.Sections.keys)) ∧
    (Network.matchingAncestors n p).Pairwise (fun a b => a.bits.length < b.bits.length) := by
  refine ⟨?_, ?_, Network.mem_matchingAncestors n p, Network.matchingAncestors_sorted n p⟩
  · rintro ⟨k, hk, hpre⟩
    have hmem : (⟨k⟩ : Prefix) ∈ Network.matchingAncestors n p :=
      (Network.mem_matchingAncestors n p ⟨k⟩).mpr ⟨hpre, hk⟩
    have hne : Network.matchingAncestors n p ≠ [] := List.ne_nil_of_mem hmem
    have heq : Network.getMatchingPrefixes n p = .ok (Network.matchingAncestors n p) := by
      rw [Network.getMatchingPrefixes_eq, if_neg hne]
    refine ⟨heq, hne, ?_⟩
    intro hpf
    obtain ⟨q, hq⟩ := Network.matchingAncestors_single n p hpf hne
    have hqm := (Network.mem_matchingAncestors n p q).mp (by rw [hq]; simp)
    refine ⟨q, by rw [heq, hq], hqm.2, hqm.1, ?_⟩
    intro k2 hk2 hpre2
    have h2 : (⟨k2⟩ : Prefix) ∈ Network.matchingAncestors n p :=
      (Network.mem_matchingAncestors n p ⟨k2⟩).mpr ⟨hpre2, hk2⟩
    rw [hq, List.mem_singleton] at h2
    rw [← h2]
  · intro hno
    have hnil : Network.matchingAncestors n p = [] := by
      apply List.eq_nil_iff_forall_not_mem.mpr
      intro q hq
      have := (Network.mem_matchingAncestors n p q).mp hq
      exact hno ⟨q.Key, this.2, this.1⟩
    rw [Network.getMatchingPrefixes_eq, if_pos hnil]

set_option maxRecDepth 100000 in
/-- C14, amended, at the prefixes 01 and 1 in the network with the keys 0, 10
and 11: the walk for 01 stops at the key 0, and the walk for 1 finds no key and
returns the descendants 10 and 11. -/
theorem C14_neighbour_resolution_witness :
    (∃ q, Network.getMatchingPrefixes
        (Fixture.networkOf [([false], 5), ([true, false], 6), ([true, true], 7)])
        ⟨[false, true]⟩ = .ok [q] ∧
      q.Key ∈ (Fixture.networkOf [([false], 5), ([true, false], 6),
        ([true, true], 7)]).Sections.keys) ∧
    Network.getMatchingPrefixes
        (Fixture.networkOf [([false], 5), ([true, false], 6), ([true, true], 7)]) ⟨[true]⟩
      = .ok [⟨[true, false]⟩, ⟨[true, true]⟩] :=
  ⟨(((C14_neighbour_resolution
        (Fixture.networkOf [([false], 5), ([true, false], 6), ([true, true], 7)])
        ⟨[false, true]⟩).1 ⟨[false], by decide, ⟨[true], rfl⟩⟩).2.2
      (by unfold PrefixFree; decide)).imp (fun _ h => ⟨h.1, h.2.1⟩),
   by decide⟩

/-- C12 (identifier consistency): every identifier that `NewXorName` returns,
whatever the pseudo-random source draws, has exactly 256 bits and a numeric
view below `2 ^ 256` whose binary digit `i` is bit `i` of the sequence; on
every consistent identifier, for every index `i < 256` and every boolean `b`,
`SetBit(i, b)` completes, sets bit `i` to `b`, leaves every other bit unchanged
and leaves the identifier consistent. -/
theorem C12_identifier_consistency :
    (∀ draw : Nat → Nat, (NewXorName draw).Consistent) ∧
    ∀ (x : XorName) (i : Nat) (b : Bool), x.Consistent → i < 256 →
      ∃ x1, x.SetBit i b = .ok x1 ∧ x1.bits[i]? = some b ∧
        (∀ j, j ≠ i → x1.bits[j]? = x.bits[j]?) ∧ x1.Consistent := by
  refine ⟨NewXorName_consistent, ?_⟩
  intro x i b hx hi
  obtain ⟨hset, hcons⟩ := XorName.SetBit_consistent x i b hx hi
  refine ⟨_, hset, ?_, ?_, hcons⟩
  · have hil : i < x.bits.length := by rw [hx.1]; exact hi
    simp [hil]
  · intro j hj
    simp only
    rw [List.getElem?_set_ne (fun h => hj h.symm)]

set_option maxRecDepth 100000 in
/-- C12 at `SetBit(3, true)` on the identifier that `NewXorName` builds from
draws that are all 0: the numeric view becomes 8. -/
theorem C12_identifier_consistency_witness :
    (NewXorName (fun _ => 0)).SetBit 3 true
      = .ok ⟨8, (List.replicate 256 false).set 3 true⟩ ∧
    ∃ x1, (NewXorName (fun _ => 0)).SetBit 3 true = .ok x1 ∧ x1.bits[3]? = some true ∧
      (∀ j, j ≠ 3 → x1.bits[j]? = (NewXorName (fun _ => 0)).bits[j]?) ∧ x1.Consistent :=
  ⟨by decide!,
   C12_identifier_consistency.2 (NewXorName (fun _ => 0)) 3 true
     (C12_identifier_consistency.1 (fun _ => 0)) (by decide)⟩

set_option maxRecDepth 100000 in
/-- C11 fails for the big-endian reading: the identifier with only bit 0 set
(numeric view 1) is less than the identifier with only bit 1 set (numeric view
2), while its bit sequence read big-endian, `2 ^ 255`, is greater than the
other, `2 ^ 254`. -/
theorem C11_identifier_order_counterexample :
    XorName.Produced (NewXorName (fun i => if i = 0 then 1 else 0)) ∧
    XorName.Produced (NewXorName (fun i => if i = 1 then 1 else 0)) ∧
    (NewXorName (fun i => if i = 0 then 1 else 0)).IsLessThan
      (NewXorName (fun i => if i = 1 then 1 else 0)) = true ∧
    bigEndian (NewXorName (fun i => if i = 0 then 1 else 0)).bits = 2 ^ 255 ∧
    bigEndian (NewXorName (fun i => if i = 1 then 1 else 0)).bits = 2 ^ 254 ∧
    ¬ (bigEndian (NewXorName (fun i => if i = 0 then 1 else 0)).bits
        < bigEndian (NewXorName (fun i => if i = 1 then 1 else 0)).bits) :=
  ⟨.fresh _, .fresh _, by decide!, by decide, by decide, by decide⟩

/-- C11, amended (identifier order): for all identifiers `x`, `y` and `z` that
`NewXorName` and `SetBit` produce, `x.IsLessThan(y)` holds iff the 256-bit
sequence of `x`, read as an unsigned little-endian integer (`bits[0]` is the
least significant bit), is strictly less than that of `y`; the relation is
irreflexive and transitive, and two identifiers with different bit sequences
are comparable. -/
theorem C11_identifier_order (x y z : XorName) (hx : XorName.Produced x)
    (hy : XorName.Produced y) (hz : XorName.Produced z) :
    (x.IsLessThan y = true ↔ littleEndian x.bits < littleEndian y.bits) ∧
    x.IsLessThan x = false ∧
    (x.IsLessThan y = true → y.IsLessThan z = true → x.IsLessThan z = true) ∧
    (x.bits ≠ y.bits → x.IsLessThan y = true ∨ y.IsLessThan x = true) := by
  have cx := (XorName.consistent_iff x).mp (XorName.Produced.consistent x hx)
  have cy := (XorName.consistent_iff y).mp (XorName.Produced.consistent y hy)
  have _cz := (XorName.consistent_iff z).mp (XorName.Produced.consistent z hz)
  simp only [XorName.IsLessThan, decide_eq_true_eq, decide_eq_false_iff_not]
  refine ⟨?_, lt_irrefl _, fun h1 h2 => lt_trans h1 h2, ?_⟩
  · rw [cx.2, cy.2]
  · intro hne
    have hv : x.bigint ≠ y.bigint := by
      intro heq
      rw [cx.2, cy.2] at heq
      exact hne (littleEndian_injective _ _ (by rw [cx.1, cy.1]) heq)
    exact Nat.lt_or_gt_of_ne hv

set_option maxRecDepth 100000 in
/-- C11, amended, at the identifiers with only bit 0, only bit 1 and only bit 2
set: the first is less than the second, as 1 is less than 2. -/
theorem C11_identifier_order_witness :
    ((NewXorName (fun i => if i = 0 then 1 else 0)).IsLessThan
        (NewXorName (fun i => if i = 1 then 1 else 0)) = true ↔
      littleEndian (NewXorName (fun i => if i = 0 then 1 else 0)).bits
        < littleEndian (NewXorName (fun i => if i = 1 then 1 else 0)).bits) ∧
    littleEndian (NewXorName (fun i => if i = 0 then 1 else 0)).bits = 1 ∧
    littleEndian (NewXorName (fun i => if i = 1 then 1 else 0)).bits = 2 :=
  ⟨(C11_identifier_order (NewXorName (fun i => if i = 0 then 1 else 0))
      (NewXorName (fun i => if i = 1 then 1 else 0))
      (NewXorName (fun i => if i = 2 then 1 else 0)) (.fresh _) (.fresh _) (.fresh _)).1,
   by decide, by decide⟩

/-- C13 (age histogram): for every network, `ReportAges` returns a map `m` and
a list `k` such that `k` is strictly ascending, the elements of `k` are exactly
the keys of `m`, and for every age `a` the count `m[a]` is the number of vaults
of all sections whose age is `a`, so that the counts sum to `TotalVaults()`;
the key list and every read of the map are the same for every order of the
entries of `Sections`.  (`ReportAges` reads the network and returns the two
results only, so the network is as before.) -/
theorem C13_age_histogram (n : Network) :
    (Network.ReportAges n).2.Pairwise (fun a b => a < b) ∧
    (∀ a, a ∈ (Network.ReportAges n).2 ↔ a ∈ (Network.ReportAges n).1.keys) ∧
    (∀ a, (Network.ReportAges n).1.count a = (Network.allAges n.Sections).count a) ∧
    ((Network.ReportAges n).2.map (fun a => (Network.ReportAges n).1.count a)).sum
      = n.TotalVaults ∧
    ∀ n2 : Network, List.Perm n2.Sections n.Sections →
      (Network.ReportAges n2).2 = (Network.ReportAges n).2 ∧
      ∀ a, (Network.ReportAges n2).1.get a = (Network.ReportAges n).1.get a := by
  refine ⟨Network.ReportAges_sorted n, ?_, Network.ReportAges_count n, ?_, ?_⟩
  · intro a
    rw [Network.mem_ReportAges, ← AgeMap.read_isSome_iff]
    have := (Network.reportSections_all n.Sections).1 a
    unfold Network.ReportAges
    simp only
    rw [this]
    by_cases h : a ∈ Network.allAges n.Sections
    · simp [h]
    · simp [h]
  · have hmap : (Network.ReportAges n).2.map (fun a => (Network.ReportAges n).1.count a)
        = (Network.ReportAges n).2.map (fun a => (Network.allAges n.Sections).count a) := by
      apply List.map_congr_left
      intro a _
      exact Network.ReportAges_count n a
    rw [hmap, ((Network.ReportAges_perm n).map _).sum_eq,
      List.sum_map_count_dedup_eq_length]
    unfold Network.TotalVaults
    rw [Network.totalVaultsLoop_eq]
    omega
  · intro n2 hperm
    have hall : List.Perm (Network.allAges n2.Sections) (Network.allAges n.Sections) :=
      List.Perm.flatMap_right _ hperm
    refine ⟨?_, ?_⟩
    · have hp : List.Perm (Network.ReportAges n2).2 (Network.ReportAges n).2 :=
        ((Network.ReportAges_perm n2).trans hall.dedup).trans (Network.ReportAges_perm n).symm
      have h2 : (Network.ReportAges n2).2.Sorted (fun a b => a ≤ b) :=
        (Network.ReportAges_sorted n2).imp (fun h => Nat.le_of_lt h)
      have h1 : (Network.ReportAges n).2.Sorted (fun a b => a ≤ b) :=
        (Network.ReportAges_sorted n).imp (fun h => Nat.le_of_lt h)
      exact List.eq_of_perm_of_sorted hp h2 h1
    · intro a
      have g2 := (Network.reportSections_all n2.Sections).1 a
      have g1 := (Network.reportSections_all n.Sections).1 a
      unfold Network.ReportAges
      simp only
      rw [g2, g1, hall.count_eq]
      by_cases h : a ∈ Network.allAges n.Sections
      · rw [if_pos h, if_pos (hall.mem_iff.mpr h)]
      · rw [if_neg h, if_neg (fun h2 => h (hall.mem_iff.mp h2))]

set_option maxRecDepth 100000 in
/-- C13 at the network with the sections 0 (ages 0, 1) and 1 (ages 0, 1, 2),
and at the same network with the two entries in the other order: the ages 0 and
1 are counted twice and the age 2 once, and the key list is 0, 1, 2. -/
theorem C13_age_histogram_witness :
    Network.ReportAges (Fixture.networkOf [([false], 2), ([true], 3)])
      = ([(2, 1), (1, 2), (0, 2)], [0, 1, 2]) ∧
    List.Perm (Fixture.networkOf [([true], 3), ([false], 2)]).Sections
      (Fixture.networkOf [([false], 2), ([true], 3)]).Sections ∧
    (Network.ReportAges (Fixture.networkOf [([true], 3), ([false], 2)])).2
      = (Network.ReportAges (Fixture.networkOf [([false], 2), ([true], 3)])).2 :=
  ⟨by decide, List.Perm.swap _ _ _,
   ((C13_age_histogram (Fixture.networkOf [([false], 2), ([true], 3)])).2.2.2.2
      (Fixture.networkOf [([true], 3), ([false], 2)]) (List.Perm.swap _ _ _)).1⟩

end Safenet
